import Mathlib

/-!
# int2048: arbitrary-precision signed integers (src/code.cpp)

Shallow embedding of the monolithic implementation in `src/code.cpp`.

* `std::vector<uint32_t>` is a `List Nat` (least-significant limb first); a read
  `v[i]` is `v.getD i 0` and a write `v[i] = x` is `v.set i x`.
* `uint32_t` / `uint64_t` conversions and arithmetic are written with the explicit
  wrap-arounds `u32`, `u64`, `subU64`; `__int128` and `int64_t` intermediates never
  leave their range for 32-bit limbs and are plain `Nat` / `Int`.
* A counted loop `for (i = 0; i < n; ++i)` is a left fold over `List.range n`, a
  descending loop `for (i = n; i-- > 0;)` is a recursion on `i`, and a `while`
  loop is a recursive function whose termination is proved.
* Operations that mutate `*this` return the new value of `*this`.
* `divmodTruncSplit`, `divSplit` and `modSplit` embed `divmodTrunc`, `operator/=` and
  `operator%=` of the split implementation in `src/src/int2048.cpp`, whose other member
  functions have the bodies of `src/code.cpp`.
-/

set_option linter.unnecessarySeqFocus false
set_option linter.unusedVariables false

namespace sjtu

/-! ## Definitions -/

/-- The radix of one limb: `static const uint32_t BASE = 1000000000u`. -/
def BASE : Nat := 1000000000

/-- The number of decimal digits of one limb: `static const int BASE_DIGS = 9`. -/
def BASE_DIGS : Nat := 9

/-- Conversion to `uint32_t`. -/
def u32 (x : Nat) : Nat := x % 4294967296

/-- Conversion to `uint64_t` (and the result of `uint64_t` addition and multiplication). -/
def u64 (x : Nat) : Nat := x % 18446744073709551616

/-- Subtraction of two `uint64_t` values. -/
def subU64 (x y : Nat) : Nat := (x + 18446744073709551616 - y % 18446744073709551616) % 18446744073709551616

/-- Conversion of an `int64_t` to `uint32_t`. -/
def i2u32 (z : Int) : Nat := (z % 4294967296).toNat

/-- The class `int2048`: the limb vector `digits` and the sign flag `negative`. -/
structure int2048 where
  digits : List Nat := []
  negative : Bool := false
deriving DecidableEq, Repr

/-- The value denoted by a limb sequence in base `BASE`, least-significant limb first. -/
def val : List Nat → Nat
  | [] => 0
  | d :: ds => d + BASE * val ds

/-- The signed integer denoted by an `int2048`. -/
def value (x : int2048) : Int :=
  if x.negative then - (val x.digits : Int) else (val x.digits : Int)

/-- Every limb is below `BASE`. -/
def Bounded (l : List Nat) : Prop := ∀ d ∈ l, d < BASE

/-- The normalization invariant: limbs below `BASE`, no most-significant zero limb,
and `negative = false` for the empty limb sequence. -/
def Normalized (x : int2048) : Prop :=
  Bounded x.digits ∧ x.digits.getLast? ≠ some 0 ∧ (x.digits = [] → x.negative = false)

instance (l : List Nat) : Decidable (Bounded l) :=
  inferInstanceAs (Decidable (∀ d ∈ l, d < BASE))

instance (x : int2048) : Decidable (Normalized x) :=
  inferInstanceAs (Decidable (Bounded x.digits ∧ x.digits.getLast? ≠ some 0 ∧
    (x.digits = [] → x.negative = false)))

namespace int2048

/-- The loop of `trim`: `while (!digits.empty() && digits.back() == 0) digits.pop_back();`
The first argument counts the limbs that are left to pop. -/
def trimLoop : Nat → List Nat → List Nat
  | 0, l => l
  | k + 1, l => if l.getLast? = some 0 then trimLoop k l.dropLast else l

/-- The function `void trim()`. -/
def trim (x : int2048) : int2048 :=
  let d := trimLoop x.digits.length x.digits
  { digits := d, negative := if d.isEmpty then false else x.negative }

/-- The function `bool isZero() const`. -/
def isZero (x : int2048) : Bool := x.digits.isEmpty

/-- The scan of `absCompare`: `for (size_t i = digits.size(); i-- > 0;)`. -/
def absCompareLoop (a b : List Nat) : Nat → Int
  | 0 => 0
  | i + 1 =>
    if a.getD i 0 ≠ b.getD i 0 then (if a.getD i 0 < b.getD i 0 then -1 else 1)
    else absCompareLoop a b i

/-- The function `int absCompare(const int2048 &other) const`. -/
def absCompare (x other : int2048) : Int :=
  if x.digits.length ≠ other.digits.length then
    (if x.digits.length < other.digits.length then -1 else 1)
  else absCompareLoop x.digits other.digits x.digits.length

/-- One iteration of the loop of `absAdd`; the state is `(digits, carry)`. -/
def absAddStep (other : List Nat) (st : List Nat × Nat) (i : Nat) : List Nat × Nat :=
  let a := u64 (st.1.getD i 0)
  let b := u64 (if i < other.length then other.getD i 0 else 0)
  let sum := u64 (a + b + st.2)
  (st.1.set i (u32 (sum % BASE)), sum / BASE)

/-- The function `void absAdd(const int2048 &other)`. -/
def absAdd (x other : int2048) : int2048 :=
  let n := max x.digits.length other.digits.length
  let d0 := if x.digits.length < n then x.digits ++ List.replicate (n - x.digits.length) 0
            else x.digits
  let st := (List.range n).foldl (absAddStep other.digits) (d0, 0)
  { digits := if st.2 ≠ 0 then st.1 ++ [u32 st.2] else st.1, negative := x.negative }

/-- One iteration of the loop of `absSub`; the state is `(digits, carry)` with the
`int64_t` carry in `{0, -1}`. -/
def absSubStep (other : List Nat) (st : List Nat × Int) (i : Nat) : List Nat × Int :=
  let a : Int := (st.1.getD i 0 : Nat)
  let b : Int := ((if i < other.length then other.getD i 0 else 0 : Nat) : Int)
  let cur : Int := a - b + st.2
  if cur < 0 then (st.1.set i (i2u32 (cur + (BASE : Nat))), -1)
  else (st.1.set i (i2u32 cur), 0)

/-- The function `void absSub(const int2048 &other)`. -/
def absSub (x other : int2048) : int2048 :=
  let st := (List.range x.digits.length).foldl (absSubStep other.digits) (x.digits, 0)
  trim { digits := st.1, negative := x.negative }

/-- One iteration of the inner loop of `mulSchoolbook` (over `j`), for the row `i` with
`ai = a[i]`; the state is `(out, carry)`. -/
def mulInnerStep (ai : Nat) (b : List Nat) (i : Nat) (st : List Nat × Nat) (j : Nat) :
    List Nat × Nat :=
  let cur := u64 (st.1.getD (i + j) 0 + ai * u64 (b.getD j 0) + st.2)
  (st.1.set (i + j) (u32 (cur % BASE)), cur / BASE)

/-- The carry loop that ends a row of `mulSchoolbook`:
`while (carry) { if (pos >= out.size()) out.push_back(0); ... ++pos; }`. -/
def mulCarryLoop (out : List Nat) (pos carry : Nat) : List Nat :=
  if carry = 0 then out
  else
    let out1 := if pos ≥ out.length then out ++ [0] else out
    let cur := u64 (out1.getD pos 0 + carry)
    mulCarryLoop (out1.set pos (u32 (cur % BASE))) (pos + 1) (cur / BASE)
termination_by (out.length - pos, carry)
decreasing_by
  simp only [ge_iff_le]
  by_cases hp : out.length ≤ pos
  · rw [dif_pos hp]
    have h2 : ((out ++ [0]).set pos (u32 (u64 ((out ++ [0]).getD pos 0 + carry) % BASE))).length
        - (pos + 1) = out.length - pos := by
      simp only [List.length_set, List.length_append, List.length_singleton]; omega
    rw [h2]
    apply Prod.Lex.right
    have h3 : (out ++ [0]).getD pos 0 = 0 := by
      rw [List.getD_eq_getElem?_getD]
      rcases Nat.lt_or_ge pos (out ++ [0]).length with hlt | hge
      · have : pos = out.length := by
          simp only [List.length_append, List.length_singleton] at hlt; omega
        subst this
        simp
      · rw [List.getElem?_eq_none hge]; rfl
    rw [h3]
    unfold u64 BASE
    omega
  · rw [dif_neg hp]
    apply Prod.Lex.left
    simp only [List.length_set]
    omega

/-- One iteration of the outer loop of `mulSchoolbook` (over `i`); the state is `out`. -/
def mulOuterStep (a b : List Nat) (out : List Nat) (i : Nat) : List Nat :=
  let ai := u64 (a.getD i 0)
  let st := (List.range b.length).foldl (mulInnerStep ai b i) (out, 0)
  mulCarryLoop st.1 (i + b.length) st.2

/-- The function `static void mulSchoolbook(a, b, out)`; returns `out`. -/
def mulSchoolbook (a b : List Nat) : List Nat :=
  let out := (List.range a.length).foldl (mulOuterStep a b)
    (List.replicate (a.length + b.length) 0)
  trimLoop out.length out

/-- The loop of the constructor `int2048(long long)`:
`while (u) { digits.push_back((uint32_t)(u % BASE)); u /= BASE; }`; returns the limbs
pushed. -/
def pushLimbs (u : Nat) : List Nat :=
  if u = 0 then [] else u32 (u % BASE) :: pushLimbs (u / BASE)
termination_by u
decreasing_by
  unfold BASE
  omega

/-- The constructor `int2048(long long v)`, for `v` in the range of `long long`. -/
def ofLongLong (v : Int) : int2048 :=
  if v = 0 then { digits := [], negative := false }
  else if v < 0 then
    { digits := pushLimbs (u64 (u64 ((-(v + 1)).toNat) + 1)), negative := true }
  else { digits := pushLimbs (u64 v.toNat), negative := false }

/-- The function `int2048 &add(const int2048 &o)`. -/
def add (x o : int2048) : int2048 :=
  if o.isZero then x
  else if x.isZero then o
  else if x.negative = o.negative then x.absAdd o
  else
    let cmp := x.absCompare o
    if cmp = 0 then { digits := [], negative := false }
    else if cmp > 0 then x.absSub o
    else o.absSub x

/-- The function `int2048 &minus(const int2048 &o)`. -/
def minus (x o : int2048) : int2048 :=
  if o.isZero then x
  else
    let t : int2048 := if !o.isZero then { o with negative := !o.negative } else o
    x.add t

/-- The function `int2048 operator-() const`. -/
def neg (x : int2048) : int2048 :=
  if !x.isZero then { x with negative := !x.negative } else x

/-- The function `int2048 &operator*=(const int2048 &rhs)`. -/
def mul (x rhs : int2048) : int2048 :=
  if x.isZero || rhs.isZero then { digits := [], negative := false }
  else trim { digits := mulSchoolbook x.digits rhs.digits,
              negative := (x.negative != rhs.negative) }

/-- The single-limb branch of `divmodTrunc`:
`for (size_t i = R.digits.size(); i-- > 0;)`; the state is `(Q.digits, rem)`. -/
def divSmallLoop (R : List Nat) (divv : Nat) : Nat → List Nat × Nat → List Nat × Nat
  | 0, st => st
  | i + 1, st =>
    let cur := u64 (R.getD i 0 + st.2 * BASE)
    let qd := cur / divv
    divSmallLoop R divv i (st.1.set i (u32 qd), cur % divv)

/-- The borrow propagation of the trial subtraction, from limb `k` upward:
`while (true) { if (k >= Rc.size()) { ok = false; break; } if (Rc[k] == 0) { Rc[k] = BASE - 1; ++k; } else { --Rc[k]; break; } }`;
`none` is `ok = false`. -/
def borrowLoop (Rc : List Nat) (k : Nat) : Option (List Nat) :=
  if k ≥ Rc.length then none
  else if Rc.getD k 0 = 0 then borrowLoop (Rc.set k (u32 (BASE - 1))) (k + 1)
  else some (Rc.set k (Rc.getD k 0 - 1))
termination_by Rc.length - k
decreasing_by
  simp only [List.length_set]
  omega

/-- One iteration of `for (size_t i = 0; i < m; ++i)` of the trial subtraction; the
state is `(Rc, carry)`, and `none` is `ok = false` (the loop was left by `break`). -/
def trialStep (b : List Nat) (qhat pos : Nat) (st : Option (List Nat × Nat)) (i : Nat) :
    Option (List Nat × Nat) :=
  match st with
  | none => none
  | some (Rc, carry) =>
    let prod := b.getD i 0 * qhat + carry
    let p_lo := u64 (prod % BASE)
    let carry1 := u64 (prod / BASE)
    let idx := pos + i
    if Rc.getD idx 0 < p_lo then
      let need := u64 (BASE + Rc.getD idx 0)
      match borrowLoop (Rc.set idx (u32 (subU64 need p_lo))) (idx + 1) with
      | none => none
      | some Rc2 => some (Rc2, carry1)
    else some (Rc.set idx (u32 (subU64 (Rc.getD idx 0) p_lo)), carry1)

/-- The loop `while (carry)` that subtracts the last carry of the trial subtraction at
`idx = pos + m`; `none` is `ok = false`. -/
def carrySubLoop (Rc : List Nat) (idx carry : Nat) : Option (List Nat) :=
  if carry = 0 then some Rc
  else if idx ≥ Rc.length then none
  else if Rc.getD idx 0 < carry then
    carrySubLoop (Rc.set idx (u32 (subU64 (u64 (BASE + Rc.getD idx 0)) carry))) (idx + 1) 1
  else some (Rc.set idx (u32 (subU64 (Rc.getD idx 0) carry)))
termination_by Rc.length - idx
decreasing_by
  simp only [List.length_set]
  omega

/-- The trial subtraction of `b * qhat` shifted by `pos` limbs from a copy of `R.digits`:
the body of `while (true)` up to the test `if (ok)`; `none` is `ok = false`. -/
def trialSub (b : List Nat) (qhat pos : Nat) (R : List Nat) : Option (List Nat) :=
  match (List.range b.length).foldl (trialStep b qhat pos) (some (R, 0)) with
  | none => none
  | some (Rc, carry) => carrySubLoop Rc (pos + b.length) carry

/-- The correction loop `while (true)` of one quotient position, as a recursion on
`qhat`; the state is `(R.digits, Q.digits)`. -/
def qhatLoop (b : List Nat) (pos : Nat) (R Q : List Nat) : Nat → List Nat × List Nat
  | 0 =>
    match trialSub b 0 pos R with
    | some Rc => (Rc, Q.set pos (u32 0))
    | none => (R, Q.set pos 0)
  | q + 1 =>
    match trialSub b (q + 1) pos R with
    | some Rc => (Rc, Q.set pos (u32 (q + 1)))
    | none => qhatLoop b pos R Q q

/-- The initial estimate `qhat` at position `pos`, clamped to `BASE - 1`. -/
def qhatEstimate (b R : List Nat) (pos : Nat) : Nat :=
  let m := b.length
  let r_hi := u64 (if pos + m < R.length then R.getD (pos + m) 0 else 0)
  let r2 := u64 (R.getD (pos + m - 1) 0)
  let v1 := u64 (b.getD (m - 1) 0)
  let numerator := r_hi * BASE + r2
  let qhat := u64 (numerator / v1)
  if qhat ≥ BASE then BASE - 1 else qhat

/-- The multi-limb branch of `divmodTrunc`:
`for (size_t pos = n - m + 1; pos-- > 0;)`; the state is `(R.digits, Q.digits)`. -/
def divPosLoop (b : List Nat) : Nat → List Nat × List Nat → List Nat × List Nat
  | 0, st => st
  | pos + 1, st => divPosLoop b pos (qhatLoop b pos st.1 st.2 (qhatEstimate b st.1 pos))

/-- The function `static void divmodTrunc(A, B, Q, R)`; returns `(Q, R)`. -/
def divmodTrunc (A B : int2048) : int2048 × int2048 :=
  let a := trim { A with negative := false }
  let b := trim { B with negative := false }
  let Q0 : int2048 := { digits := [], negative := false }
  let R0 := a
  if b.isZero then (Q0, R0)
  else if R0.absCompare b < 0 then ({ digits := [], negative := false }, R0)
  else
    let QR : int2048 × int2048 :=
      if b.digits.length = 1 then
        let divv := u64 (b.digits.getD 0 0)
        let st := divSmallLoop R0.digits divv R0.digits.length
          (List.replicate R0.digits.length 0, 0)
        (trim { Q0 with digits := st.1 },
         trim { R0 with digits := if st.2 ≠ 0 then [u32 st.2] else [] })
      else
        let n := R0.digits.length
        let m := b.digits.length
        let st := divPosLoop b.digits (n - m + 1)
          (R0.digits ++ [0], List.replicate (n - m + 1) 0)
        (trim { Q0 with digits := st.2 }, trim { R0 with digits := st.1 })
    ({ QR.1 with negative := if !QR.1.isZero then (A.negative != B.negative) else false },
     { QR.2 with negative := if !QR.2.isZero then A.negative else false })

/-- The function `int2048 &operator/=(const int2048 &rhs)`. -/
def div (x rhs : int2048) : int2048 :=
  if rhs.isZero then x
  else if x.isZero then { digits := [], negative := false }
  else
    let qr := divmodTrunc x rhs
    let signsDifferent := (x.negative != rhs.negative)
    if signsDifferent && !qr.2.isZero then qr.1.minus (ofLongLong 1) else qr.1

/-- The function `int2048 &operator%=(const int2048 &rhs)`. -/
def mod (x rhs : int2048) : int2048 :=
  if rhs.isZero then x
  else if x.isZero then { digits := [], negative := false }
  else
    let qr := divmodTrunc x rhs
    let signsDifferent := (x.negative != rhs.negative)
    if signsDifferent && !qr.2.isZero then qr.2.add rhs else qr.2

/-- The friend `operator==`. -/
def eq (a b : int2048) : Bool := a.negative == b.negative && a.digits == b.digits

/-- The friend `operator!=`. -/
def ne (a b : int2048) : Bool := !(eq a b)

/-- The friend `operator<`. -/
def lt (a b : int2048) : Bool :=
  if a.negative != b.negative then a.negative
  else
    let cmp := a.absCompare b
    if a.negative then decide (cmp > 0) else decide (cmp < 0)

/-- The friend `operator>`. -/
def gt (a b : int2048) : Bool := lt b a

/-- The friend `operator<=`. -/
def le (a b : int2048) : Bool := !(lt b a)

/-- The friend `operator>=`. -/
def ge (a b : int2048) : Bool := !(lt a b)

/-- The whitespace test of `read`: `' '`, `'\n'`, `'\t'`, `'\r'`. -/
def isSpaceChar (c : Char) : Bool :=
  c = Char.ofNat 32 || c = Char.ofNat 10 || c = Char.ofNat 9 || c = Char.ofNat 13

/-- The test `s[i] == '0'` of `read`. -/
def isZeroChar (c : Char) : Bool := c = '0'

/-- A skipping loop of `read`: `while (i < s.size() && p(s[i])) ++i;`, returning the final
`i`. The first argument bounds the number of iterations (`s.size()` is enough, since `i`
grows at each iteration). -/
def skipLoop (s : List Char) (p : Char → Bool) : Nat → Nat → Nat
  | 0, i => i
  | fuel + 1, i =>
    if i < s.length ∧ p (s.getD i default) = true then skipLoop s p fuel (i + 1) else i

/-- The digit loop of one group of `read`:
`for (size_t k = start; k < j; ++k) { char c = s[k]; if (c < '0' || c > '9') { x = 0; break; } x = x * 10u + (uint32_t)(c - '0'); }`;
the first argument is the number `j - k` of characters left. -/
def parseGroupLoop (s : List Char) : Nat → Nat → Nat → Nat
  | 0, _, x => x
  | n + 1, k, x =>
    if s.getD k default < '0' ∨ s.getD k default > '9' then 0
    else parseGroupLoop s n (k + 1) (u32 (u32 (x * 10) + u32 ((s.getD k default).toNat - 48)))

/-- The limb read from the characters `s[start], ..., s[j - 1]`. -/
def parseGroup (s : List Char) (start j : Nat) : Nat := parseGroupLoop s (j - start) start 0

/-- The group loop of `read`: `for (size_t j = s.size(); j > i;) { ... parts.push_back(x); j = start; if (j == i) break; }`,
returning `parts`. The first argument bounds the number of iterations (`j` decreases at
each iteration). -/
def readGroups (s : List Char) (i : Nat) : Nat → Nat → List Nat → List Nat
  | 0, _, parts => parts
  | fuel + 1, j, parts =>
    if j > i then
      let start0 := if j ≥ BASE_DIGS then j - BASE_DIGS else 0
      let start := if start0 < i then i else start0
      let parts1 := parts ++ [parseGroup s start j]
      if start = i then parts1 else readGroups s i fuel start parts1
    else parts

/-- The function `void read(const std::string &s)`; the string is its list of characters. -/
def read (s : List Char) : int2048 :=
  let i0 := skipLoop s isSpaceChar s.length 0
  let hasSign : Bool := decide (i0 < s.length) && (s.getD i0 default = '+' || s.getD i0 default = '-')
  let neg : Bool := hasSign && (s.getD i0 default = '-')
  let i1 := if hasSign then i0 + 1 else i0
  let i := skipLoop s isZeroChar s.length i1
  let parts := readGroups s i s.length s.length []
  let t := trim { digits := parts, negative := false }
  if !t.digits.isEmpty then { t with negative := neg } else t

/-- The output of `snprintf(buf, sizeof(buf), "%0*u", w, x)`: the decimal digits of `x`,
padded with zeros on the left to the width `w`. -/
def padDec (w x : Nat) : List Char :=
  List.replicate (w - (Nat.toDigits 10 x).length) '0' ++ Nat.toDigits 10 x

/-- The loop `while (i-- > 0) { ... }` of `print` and `operator<<`: the limbs below `i`,
each padded to `BASE_DIGS` digits, most significant first. -/
def printTail (digits : List Nat) : Nat → List Char
  | 0 => []
  | i + 1 => padDec BASE_DIGS (digits.getD i 0) ++ printTail digits i

/-- The characters written by `operator<<` (and by `print`, which has the same body). -/
def format (x : int2048) : List Char :=
  if x.digits.isEmpty then ['0']
  else
    (if x.negative then ['-'] else []) ++ Nat.toDigits 10 (x.digits.getD (x.digits.length - 1) 0)
      ++ printTail x.digits (x.digits.length - 1)

/-- Whether the carry loop that ends a row of `mulSchoolbook` executes
`out.push_back(0)`, that is, reaches `pos >= out.size()` with a non-zero carry. -/
def mulCarryPushes (out : List Nat) (pos carry : Nat) : Bool :=
  if carry = 0 then false
  else if pos ≥ out.length then true
  else
    let cur := u64 (out.getD pos 0 + carry)
    mulCarryPushes (out.set pos (u32 (cur % BASE))) (pos + 1) (cur / BASE)
termination_by out.length - pos
decreasing_by
  simp only [List.length_set]
  omega

/-- The vector `out` of `mulSchoolbook` after the rows `0, ..., i - 1`. -/
def mulRows (a b : List Nat) (i : Nat) : List Nat :=
  (List.range i).foldl (mulOuterStep a b) (List.replicate (a.length + b.length) 0)

/-- Whether the carry loop of row `i` of `mulSchoolbook`, entered with the vector `out`,
executes `out.push_back(0)`. -/
def mulRowPushes (a b out : List Nat) (i : Nat) : Bool :=
  let ai := u64 (a.getD i 0)
  let st := (List.range b.length).foldl (mulInnerStep ai b i) (out, 0)
  mulCarryPushes st.1 (i + b.length) st.2

/-- The test that an intermediate value `cur` of `mulSchoolbook`, computed over unbounded
naturals, fits: `cur < 10^18` (so `cur < 2^64`), the new carry `cur / BASE` is below `10^9`
and the limb `cur % BASE` stored back is below `10^9`. -/
def curFits (cur : Nat) : Bool :=
  decide (cur < 1000000000000000000) && decide (cur / BASE < 1000000000)
    && decide (cur % BASE < 1000000000)

/-- One iteration of the inner loop of `mulSchoolbook` over unbounded naturals, with the
test of its intermediate value; `none` records a value that does not fit. -/
def mulInnerStepChk (ai : Nat) (b : List Nat) (i : Nat) (st : Option (List Nat × Nat))
    (j : Nat) : Option (List Nat × Nat) :=
  match st with
  | none => none
  | some (out, carry) =>
    let cur := out.getD (i + j) 0 + ai * b.getD j 0 + carry
    if curFits cur then some (out.set (i + j) (cur % BASE), cur / BASE) else none

/-- The carry loop that ends a row of `mulSchoolbook` over unbounded naturals, with the
test of its intermediate values; `none` records a value that does not fit. -/
def mulCarryLoopChk (out : List Nat) (pos carry : Nat) : Option (List Nat) :=
  if carry = 0 then some out
  else
    let out1 := if pos ≥ out.length then out ++ [0] else out
    let cur := out1.getD pos 0 + carry
    if curFits cur then mulCarryLoopChk (out1.set pos (cur % BASE)) (pos + 1) (cur / BASE)
    else none
termination_by (out.length - pos, carry)
decreasing_by
  simp only [ge_iff_le]
  by_cases hp : out.length ≤ pos
  · rw [dif_pos hp]
    have h2 : ((out ++ [0]).set pos (((out ++ [0]).getD pos 0 + carry) % BASE)).length
        - (pos + 1) = out.length - pos := by
      simp only [List.length_set, List.length_append, List.length_singleton]; omega
    rw [h2]
    apply Prod.Lex.right
    have h3 : (out ++ [0]).getD pos 0 = 0 := by
      rw [List.getD_eq_getElem?_getD]
      rcases Nat.lt_or_ge pos (out ++ [0]).length with hlt | hge
      · have : pos = out.length := by
          simp only [List.length_append, List.length_singleton] at hlt; omega
        subst this
        simp
      · rw [List.getElem?_eq_none hge]; rfl
    rw [h3]
    unfold BASE
    omega
  · rw [dif_neg hp]
    apply Prod.Lex.left
    simp only [List.length_set]
    omega

/-- One iteration of the outer loop of `mulSchoolbook` over unbounded naturals, with the
tests of its intermediate values. -/
def mulOuterStepChk (a b : List Nat) (out : Option (List Nat)) (i : Nat) :
    Option (List Nat) :=
  match out with
  | none => none
  | some out =>
    match (List.range b.length).foldl (mulInnerStepChk (a.getD i 0) b i) (some (out, 0)) with
    | none => none
    | some st => mulCarryLoopChk st.1 (i + b.length) st.2

/-- The run of `mulSchoolbook` over unbounded naturals, with the tests of all its
intermediate values: `none` if one of them does not fit, otherwise the result. -/
def mulSchoolbookChk (a b : List Nat) : Option (List Nat) :=
  match (List.range a.length).foldl (mulOuterStepChk a b)
      (some (List.replicate (a.length + b.length) 0)) with
  | none => none
  | some out => some (trimLoop out.length out)

/-- The number of retries of the correction loop `while (true)` of one quotient position
started with `qhat`: the number of times `--qhat` is executed. -/
def qhatRetries (b : List Nat) (pos : Nat) (R : List Nat) : Nat → Nat
  | 0 => 0
  | q + 1 =>
    match trialSub b (q + 1) pos R with
    | some _ => 0
    | none => qhatRetries b pos R q + 1

/-- Whether the correction loop started with `qhat` is left through the give-up exit
`if (qhat == 0) { Q.digits[pos] = 0; break; }`. -/
def qhatGivesUp (b : List Nat) (pos : Nat) (R : List Nat) : Nat → Bool
  | 0 => (trialSub b 0 pos R).isNone
  | q + 1 =>
    match trialSub b (q + 1) pos R with
    | some _ => false
    | none => qhatGivesUp b pos R q

/-- The states met by the loop over the positions of the multi-limb branch: the pairs
`(pos, R.digits)` at the start of each iteration, in the order of `divPosLoop`. -/
def divPosTrace (b : List Nat) : Nat → List Nat × List Nat → List (Nat × List Nat)
  | 0, _ => []
  | pos + 1, st =>
    (pos, st.1) :: divPosTrace b pos (qhatLoop b pos st.1 st.2 (qhatEstimate b st.1 pos))

/-- The states `(pos, R.digits)` met by the multi-limb branch of `divmodTrunc(A, B, Q, R)`. -/
def divTrace (A B : int2048) : List (Nat × List Nat) :=
  let a := trim { A with negative := false }
  let b := trim { B with negative := false }
  let n := a.digits.length
  let m := b.digits.length
  divPosTrace b.digits (n - m + 1) (a.digits ++ [0], List.replicate (n - m + 1) 0)

/-- The states met by the loop over the positions of the multi-limb branch, with the
quotient buffer: the triples `(pos, R.digits, Q.digits)` at the start of each iteration,
in the order of `divPosLoop`. -/
def divPosStates (b : List Nat) : Nat → List Nat × List Nat → List (Nat × List Nat × List Nat)
  | 0, _ => []
  | pos + 1, st =>
    (pos, st.1, st.2)
      :: divPosStates b pos (qhatLoop b pos st.1 st.2 (qhatEstimate b st.1 pos))

/-- The states `(pos, R.digits, Q.digits)` met by the multi-limb branch of
`divmodTrunc(A, B, Q, R)`, after `Q.digits.assign(n - m + 1, 0)` and
`R.digits.push_back(0)`. -/
def divStates (A B : int2048) : List (Nat × List Nat × List Nat) :=
  let a := trim { A with negative := false }
  let b := trim { B with negative := false }
  let n := a.digits.length
  let m := b.digits.length
  divPosStates b.digits (n - m + 1) (a.digits ++ [0], List.replicate (n - m + 1) 0)

/-- The function `void int2048::divmodTrunc(A, B, Q, R)` of `src/src/int2048.cpp`;
returns `(Q, R)`. The functions `trim`, `isZero` and `absCompare` of that file have the
bodies of `src/code.cpp`, and the two loops are the same statements (the split file also
reads `r1 = R.digits[pos + m - 2]`, which it never uses, and has an `if (qhat) { }` with
an empty body), so they are shared with `divmodTrunc`. The single-limb branch ends with
`Q.trim(); R.trim(); return;`, before the two sign assignments that end the function. -/
def divmodTruncSplit (A B : int2048) : int2048 × int2048 :=
  let a := trim { A with negative := false }
  let b := trim { B with negative := false }
  let Q0 : int2048 := { digits := [], negative := false }
  let R0 := a
  if b.isZero then (Q0, R0)
  else if R0.absCompare b < 0 then ({ digits := [], negative := false }, R0)
  else if b.digits.length = 1 then
    let divv := u64 (b.digits.getD 0 0)
    let st := divSmallLoop R0.digits divv R0.digits.length
      (List.replicate R0.digits.length 0, 0)
    (trim { Q0 with digits := st.1 },
     trim { R0 with digits := if st.2 ≠ 0 then [u32 st.2] else [] })
  else
    let n := R0.digits.length
    let m := b.digits.length
    let st := divPosLoop b.digits (n - m + 1)
      (R0.digits ++ [0], List.replicate (n - m + 1) 0)
    let R1 := trim { R0 with digits := st.1 }
    let Q1 := trim { Q0 with digits := st.2 }
    ({ Q1 with negative := if !Q1.isZero then (A.negative != B.negative) else false },
     { R1 with negative := if !R1.isZero then A.negative else false })

/-- The function `int2048 &int2048::operator/=(const int2048 &rhs)` of
`src/src/int2048.cpp`; `minus` and the constructor of `one(1)` have the bodies of
`src/code.cpp`. -/
def divSplit (x rhs : int2048) : int2048 :=
  if rhs.isZero then x
  else if x.isZero then { digits := [], negative := false }
  else
    let qr := divmodTruncSplit x rhs
    let aNeg := x.negative
    let bNeg := rhs.negative
    let signsDifferent := (aNeg != bNeg)
    if signsDifferent && !qr.2.isZero then qr.1.minus (ofLongLong 1) else qr.1

/-- The function `int2048 &int2048::operator%=(const int2048 &rhs)` of
`src/src/int2048.cpp`; `add` has the body of `src/code.cpp`. -/
def modSplit (x rhs : int2048) : int2048 :=
  if rhs.isZero then x
  else if x.isZero then { digits := [], negative := false }
  else
    let qr := divmodTruncSplit x rhs
    let signsDifferent := (x.negative != rhs.negative)
    if signsDifferent && !qr.2.isZero then qr.2.add rhs else qr.2

end int2048

/-- The error conditions named by the interface description. -/
inductive Error where
  | ParseError
  | DivisionByZero
deriving DecidableEq, Repr

/-- The outcome of `friend int2048 operator/(int2048 a, const int2048 &b) { return a /= b; }`:
a thrown error would be `Except.error`; the source has no `throw`, every call returns. -/
def divide (a b : int2048) : Except Error int2048 := Except.ok (int2048.div a b)

/-- The outcome of `friend int2048 operator%(int2048 a, const int2048 &b) { return a %= b; }`:
a thrown error would be `Except.error`; the source has no `throw`, every call returns. -/
def modulo (a b : int2048) : Except Error int2048 := Except.ok (int2048.mod a b)

/-- The outcome of the constructor `int2048(const std::string &s) { read(s); }`:
a thrown error would be `Except.error`; the source has no `throw`, every call returns. -/
def fromDecimalString (s : List Char) : Except Error int2048 := Except.ok (int2048.read s)

/-- The canonical form of a decimal string, after the description: the plus sign and the
redundant leading zeros are stripped, `-` is kept iff the value is non-zero and negative,
and an all-zero input gives `"0"`. -/
def canonicalForm (s : List Char) : List Char :=
  let neg : Bool := s.head? = some '-'
  let body := if s.head? = some '-' ∨ s.head? = some '+' then s.tail else s
  let stripped := body.dropWhile int2048.isZeroChar
  if stripped.isEmpty then ['0'] else (if neg then ['-'] else []) ++ stripped

/-- One step of reading a decimal numeral, most significant digit first. -/
def decStep (x : Nat) (c : Char) : Nat := x * 10 + (c.toNat - 48)

/-- The number written by a list of decimal digit characters. -/
def decVal (cs : List Char) : Nat := cs.foldl decStep 0

/-- An ASCII decimal digit. -/
def IsDigit (c : Char) : Prop := '0' ≤ c ∧ c ≤ '9'

/-- A valid decimal string: an optional `+` or `-` followed by one or more ASCII digits. -/
def ValidDecimal (s : List Char) : Prop :=
  let body := if s.head? = some '-' ∨ s.head? = some '+' then s.tail else s
  body ≠ [] ∧ ∀ c ∈ body, '0' ≤ c ∧ c ≤ '9'

instance (s : List Char) : Decidable (ValidDecimal s) :=
  inferInstanceAs (Decidable ((if s.head? = some '-' ∨ s.head? = some '+' then s.tail else s) ≠ []
    ∧ ∀ c ∈ (if s.head? = some '-' ∨ s.head? = some '+' then s.tail else s), '0' ≤ c ∧ c ≤ '9'))

/-! ## Limb sequences and their values -/

theorem BASE_pos : 0 < BASE := by unfold BASE; omega

theorem u32_of_lt (x : Nat) (h : x < BASE) : u32 x = x := by
  unfold u32
  unfold BASE at h
  omega

theorem u64_of_lt (x : Nat) (h : x < BASE * BASE) : u64 x = x := by
  unfold u64
  unfold BASE at h
  omega

theorem sub_mul_add_mul (x c P : Nat) (h : c ≤ x) : (x - c) * P + c * P = x * P := by
  rw [← Nat.add_mul, Nat.sub_add_cancel h]

theorem pred_mul_add (x P : Nat) (h : 0 < x) : (x - 1) * P + P = x * P := by
  have h1 := sub_mul_add_mul x 1 P h
  rw [Nat.one_mul] at h1
  exact h1

theorem val_nil : val [] = 0 := rfl

theorem val_cons (d : Nat) (ds : List Nat) : val (d :: ds) = d + BASE * val ds := rfl

theorem val_append (a b : List Nat) : val (a ++ b) = val a + BASE ^ a.length * val b := by
  induction a with
  | nil => simp [val]
  | cons d ds ih =>
    rw [List.cons_append, val_cons, val_cons, ih, List.length_cons, pow_succ]
    ring

theorem val_replicate_zero (n : Nat) : val (List.replicate n 0) = 0 := by
  induction n with
  | zero => rfl
  | succ n ih => simp [List.replicate_succ, val, ih]

theorem getD_set_eq (l : List Nat) (i x : Nat) (h : i < l.length) :
    (l.set i x).getD i 0 = x := by
  induction l generalizing i with
  | nil => simp at h
  | cons d ds ih =>
    cases i with
    | zero => simp
    | succ i =>
      simp only [List.set_cons_succ, List.getD_cons_succ]
      exact ih i (by simpa using h)

theorem getD_set_ne (l : List Nat) (i j x : Nat) (h : i ≠ j) :
    (l.set i x).getD j 0 = l.getD j 0 := by
  induction l generalizing i j with
  | nil => simp
  | cons d ds ih =>
    cases i with
    | zero =>
      cases j with
      | zero => exact absurd rfl h
      | succ j => simp
    | succ i =>
      cases j with
      | zero => simp
      | succ j =>
        simp only [List.set_cons_succ, List.getD_cons_succ]
        exact ih i j (by omega)

theorem getD_of_length_le (l : List Nat) (i : Nat) (h : l.length ≤ i) : l.getD i 0 = 0 := by
  induction l generalizing i with
  | nil => simp
  | cons d ds ih =>
    cases i with
    | zero => simp at h
    | succ i =>
      simp only [List.getD_cons_succ]
      exact ih i (by simpa using h)

theorem val_set (l : List Nat) (i x : Nat) (h : i < l.length) :
    val (l.set i x) + l.getD i 0 * BASE ^ i = val l + x * BASE ^ i := by
  induction l generalizing i with
  | nil => simp at h
  | cons d ds ih =>
    cases i with
    | zero => simp [val]; ring
    | succ i =>
      have h1 := ih i (by simpa using h)
      simp only [List.set_cons_succ, List.getD_cons_succ, val, pow_succ]
      have h2 : BASE * (val (ds.set i x) + ds.getD i 0 * BASE ^ i)
          = BASE * (val ds + x * BASE ^ i) := by rw [h1]
      linarith

theorem val_take_succ (l : List Nat) (i : Nat) :
    val (l.take (i + 1)) = val (l.take i) + l.getD i 0 * BASE ^ i := by
  induction l generalizing i with
  | nil => simp [val]
  | cons d ds ih =>
    cases i with
    | zero => simp [val]
    | succ i =>
      simp only [List.take_succ_cons, List.getD_cons_succ, val, ih i, pow_succ]
      ring

theorem val_take_add_drop (l : List Nat) (i : Nat) :
    val l = val (l.take i) + BASE ^ i * val (l.drop i) := by
  induction l generalizing i with
  | nil => simp [val]
  | cons d ds ih =>
    cases i with
    | zero => simp [val]
    | succ i =>
      simp only [List.take_succ_cons, List.drop_succ_cons, val, pow_succ]
      rw [ih i]
      ring

theorem val_take_le (l : List Nat) (i : Nat) : val (l.take i) ≤ val l := by
  rw [val_take_add_drop l i]
  exact Nat.le_add_right _ _

theorem val_take_of_length_le (l : List Nat) (i : Nat) (h : l.length ≤ i) :
    val (l.take i) = val l := by
  rw [List.take_of_length_le h]

theorem Bounded_nil : Bounded [] := by
  intro d hd; simp at hd

theorem Bounded_cons (d : Nat) (ds : List Nat) : Bounded (d :: ds) ↔ d < BASE ∧ Bounded ds := by
  unfold Bounded; simp

theorem Bounded_append (a b : List Nat) : Bounded (a ++ b) ↔ Bounded a ∧ Bounded b := by
  unfold Bounded
  simp only [List.mem_append]
  constructor
  · intro h
    exact ⟨fun d hd => h d (Or.inl hd), fun d hd => h d (Or.inr hd)⟩
  · rintro ⟨h1, h2⟩ d (hd | hd)
    · exact h1 d hd
    · exact h2 d hd

theorem Bounded_replicate_zero (n : Nat) : Bounded (List.replicate n 0) := by
  intro d hd
  rw [List.mem_replicate] at hd
  rw [hd.2]
  exact BASE_pos

theorem Bounded_set (l : List Nat) (i x : Nat) (hl : Bounded l) (hx : x < BASE) :
    Bounded (l.set i x) := by
  intro d hd
  rcases List.mem_or_eq_of_mem_set hd with h | h
  · exact hl d h
  · rw [h]; exact hx

theorem Bounded_take (l : List Nat) (i : Nat) (hl : Bounded l) : Bounded (l.take i) :=
  fun d hd => hl d (List.mem_of_mem_take hd)

theorem Bounded_drop (l : List Nat) (i : Nat) (hl : Bounded l) : Bounded (l.drop i) :=
  fun d hd => hl d (List.mem_of_mem_drop hd)

theorem Bounded_getD (l : List Nat) (i : Nat) (hl : Bounded l) : l.getD i 0 < BASE := by
  induction l generalizing i with
  | nil => simpa using BASE_pos
  | cons d ds ih =>
    rw [Bounded_cons] at hl
    cases i with
    | zero => simpa using hl.1
    | succ i => simpa using ih i hl.2

theorem val_lt_pow (l : List Nat) (h : Bounded l) : val l < BASE ^ l.length := by
  induction l with
  | nil => simp [val]
  | cons d ds ih =>
    rw [Bounded_cons] at h
    have h1 := ih h.2
    simp only [val, List.length_cons, pow_succ]
    have h2 : BASE * (val ds + 1) ≤ BASE * BASE ^ ds.length := Nat.mul_le_mul_left _ h1
    have h3 := h.1
    nlinarith

theorem val_inj_of_length_eq (a b : List Nat) (ha : Bounded a) (hb : Bounded b)
    (hlen : a.length = b.length) (hv : val a = val b) : a = b := by
  induction a generalizing b with
  | nil =>
    cases b with
    | nil => rfl
    | cons e es => simp at hlen
  | cons d ds ih =>
    cases b with
    | nil => simp at hlen
    | cons e es =>
      rw [Bounded_cons] at ha hb
      simp only [val] at hv
      have hd := ha.1
      have he := hb.1
      unfold BASE at hv hd he
      have h1 : d = e := by omega
      have h2 : val ds = val es := by omega
      rw [h1, ih es ha.2 hb.2 (by simpa using hlen) h2]

theorem pow_le_val (l : List Nat) (hne : l ≠ []) (hlast : l.getLast? ≠ some 0) :
    BASE ^ (l.length - 1) ≤ val l := by
  have h1 := List.dropLast_append_getLast hne
  have h2 : l.getLast hne ≠ 0 := by
    intro h0
    apply hlast
    rw [List.getLast?_eq_getLast l hne, h0]
  have h3 : val l = val l.dropLast + BASE ^ l.dropLast.length * val [l.getLast hne] := by
    rw [← val_append, h1]
  rw [h3, List.length_dropLast]
  have h4 : val [l.getLast hne] = l.getLast hne := by simp [val]
  rw [h4]
  have h5 : 1 ≤ l.getLast hne := Nat.one_le_iff_ne_zero.mpr h2
  calc BASE ^ (l.length - 1) = BASE ^ (l.length - 1) * 1 := (Nat.mul_one _).symm
    _ ≤ BASE ^ (l.length - 1) * l.getLast hne := Nat.mul_le_mul_left _ h5
    _ ≤ val l.dropLast + BASE ^ (l.length - 1) * l.getLast hne := Nat.le_add_left _ _

theorem val_pos_of_ne_nil (l : List Nat) (hne : l ≠ []) (hlast : l.getLast? ≠ some 0) :
    0 < val l :=
  Nat.lt_of_lt_of_le (Nat.pow_pos BASE_pos) (pow_le_val l hne hlast)

theorem val_eq_zero_iff (l : List Nat) (hlast : l.getLast? ≠ some 0) : val l = 0 ↔ l = [] := by
  constructor
  · intro h
    by_contra hne
    have := val_pos_of_ne_nil l hne hlast
    omega
  · intro h
    rw [h]
    rfl

theorem length_le_of_val_le (a b : List Nat) (ha : a.getLast? ≠ some 0) (hb : Bounded b)
    (h : val a ≤ val b) : a.length ≤ b.length := by
  by_contra hlt
  have hne : a ≠ [] := by
    intro h0
    rw [h0] at hlt
    simp at hlt
  have h1 := pow_le_val a hne ha
  have h2 := val_lt_pow b hb
  have h3 : BASE ^ b.length ≤ BASE ^ (a.length - 1) :=
    Nat.pow_le_pow_right BASE_pos (by omega)
  omega

theorem val_inj (a b : List Nat) (ha : Bounded a) (hb : Bounded b)
    (hla : a.getLast? ≠ some 0) (hlb : b.getLast? ≠ some 0) (hv : val a = val b) : a = b := by
  have h1 := length_le_of_val_le a b hla hb (le_of_eq hv)
  have h2 := length_le_of_val_le b a hlb ha (le_of_eq hv.symm)
  exact val_inj_of_length_eq a b ha hb (by omega) hv

/-! ## trim -/

theorem trimLoop_val (k : Nat) (l : List Nat) : val (int2048.trimLoop k l) = val l := by
  induction k generalizing l with
  | zero => rfl
  | succ k ih =>
    unfold int2048.trimLoop
    split
    · rename_i h
      rw [ih]
      have h1 := List.dropLast_append_getLast? 0 (by simpa using h)
      have h2 : val l = val (l.dropLast ++ [0]) := by rw [h1]
      rw [h2, val_append]
      simp [val]
    · rfl

theorem Bounded_dropLast (l : List Nat) (hl : Bounded l) : Bounded l.dropLast :=
  fun d hd => hl d (List.mem_of_mem_dropLast hd)

theorem trimLoop_bounded (k : Nat) (l : List Nat) (hl : Bounded l) :
    Bounded (int2048.trimLoop k l) := by
  induction k generalizing l with
  | zero => exact hl
  | succ k ih =>
    unfold int2048.trimLoop
    split
    · exact ih _ (Bounded_dropLast l hl)
    · exact hl

theorem trimLoop_last (k : Nat) (l : List Nat) (hk : l.length ≤ k) :
    (int2048.trimLoop k l).getLast? ≠ some 0 := by
  induction k generalizing l with
  | zero =>
    have : l = [] := List.length_eq_zero.mp (by omega)
    rw [this]
    simp [int2048.trimLoop]
  | succ k ih =>
    unfold int2048.trimLoop
    split
    · apply ih
      rw [List.length_dropLast]
      omega
    · assumption

theorem trimLoop_of_last (k : Nat) (l : List Nat) (h : l.getLast? ≠ some 0) :
    int2048.trimLoop k l = l := by
  cases k with
  | zero => rfl
  | succ k =>
    unfold int2048.trimLoop
    rw [if_neg h]

theorem trimLoop_length_le (k : Nat) (l : List Nat) : (int2048.trimLoop k l).length ≤ l.length := by
  induction k generalizing l with
  | zero => exact le_refl _
  | succ k ih =>
    unfold int2048.trimLoop
    split
    · have := ih l.dropLast
      rw [List.length_dropLast] at this
      omega
    · exact le_refl _

theorem trim_digits (x : int2048) :
    (int2048.trim x).digits = int2048.trimLoop x.digits.length x.digits := rfl

theorem trim_of_normalized (x : int2048) (hx : Normalized x) : int2048.trim x = x := by
  obtain ⟨_, h2, h3⟩ := hx
  cases x with
  | mk d n =>
    simp only [int2048.trim]
    rw [trimLoop_of_last _ _ h2]
    simp only [int2048.mk.injEq, true_and]
    cases d with
    | nil => simpa using (h3 rfl).symm
    | cons e es => simp

theorem trim_normalized (x : int2048) (hx : Bounded x.digits) : Normalized (int2048.trim x) := by
  refine ⟨?_, ?_, ?_⟩
  · exact trimLoop_bounded _ _ hx
  · exact trimLoop_last _ _ (le_refl _)
  · intro h
    simp only [int2048.trim] at h ⊢
    rw [h]
    rfl

theorem trim_val (x : int2048) : val (int2048.trim x).digits = val x.digits :=
  trimLoop_val _ _

/-! ## absCompare -/

theorem val_take_lt_pow (l : List Nat) (hl : Bounded l) (i : Nat) : val (l.take i) < BASE ^ i := by
  have h1 := val_lt_pow (l.take i) (Bounded_take l i hl)
  have h2 : BASE ^ (l.take i).length ≤ BASE ^ i :=
    Nat.pow_le_pow_right BASE_pos (by rw [List.length_take]; omega)
  omega

theorem absCompareLoop_spec (a b : List Nat) (ha : Bounded a) (hb : Bounded b) (i : Nat) :
    (int2048.absCompareLoop a b i = -1 ∧ val (a.take i) < val (b.take i)) ∨
    (int2048.absCompareLoop a b i = 0 ∧ val (a.take i) = val (b.take i)) ∨
    (int2048.absCompareLoop a b i = 1 ∧ val (b.take i) < val (a.take i)) := by
  induction i with
  | zero =>
    right; left
    simp [int2048.absCompareLoop]
  | succ i ih =>
    have hA := val_take_lt_pow a ha i
    have hB := val_take_lt_pow b hb i
    rw [val_take_succ a i, val_take_succ b i]
    unfold int2048.absCompareLoop
    by_cases hne : a.getD i 0 ≠ b.getD i 0
    · rw [if_pos hne]
      by_cases hlt : a.getD i 0 < b.getD i 0
      · rw [if_pos hlt]
        left
        refine ⟨rfl, ?_⟩
        have h1 : (a.getD i 0 + 1) * BASE ^ i ≤ b.getD i 0 * BASE ^ i :=
          Nat.mul_le_mul_right _ hlt
        rw [Nat.add_mul, Nat.one_mul] at h1
        omega
      · rw [if_neg hlt]
        right; right
        refine ⟨rfl, ?_⟩
        have h0 : b.getD i 0 < a.getD i 0 := by omega
        have h1 : (b.getD i 0 + 1) * BASE ^ i ≤ a.getD i 0 * BASE ^ i :=
          Nat.mul_le_mul_right _ h0
        rw [Nat.add_mul, Nat.one_mul] at h1
        omega
    · rw [if_neg hne]
      have heq : a.getD i 0 = b.getD i 0 := by
        by_contra h
        exact hne h
      rw [heq]
      rcases ih with h | h | h
      · left; exact ⟨h.1, by omega⟩
      · right; left; exact ⟨h.1, by omega⟩
      · right; right; exact ⟨h.1, by omega⟩

theorem absCompare_spec (x o : int2048) (hx : Bounded x.digits) (ho : Bounded o.digits)
    (hlx : x.digits.getLast? ≠ some 0) (hlo : o.digits.getLast? ≠ some 0) :
    (int2048.absCompare x o = -1 ∧ val x.digits < val o.digits) ∨
    (int2048.absCompare x o = 0 ∧ val x.digits = val o.digits) ∨
    (int2048.absCompare x o = 1 ∧ val o.digits < val x.digits) := by
  unfold int2048.absCompare
  by_cases hlen : x.digits.length ≠ o.digits.length
  · rw [if_pos hlen]
    by_cases hlt : x.digits.length < o.digits.length
    · rw [if_pos hlt]
      left
      refine ⟨rfl, ?_⟩
      by_contra hge
      have := length_le_of_val_le o.digits x.digits hlo hx (by omega)
      omega
    · rw [if_neg hlt]
      right; right
      refine ⟨rfl, ?_⟩
      by_contra hge
      have := length_le_of_val_le x.digits o.digits hlx ho (by omega)
      omega
  · rw [if_neg hlen]
    have heq : x.digits.length = o.digits.length := by
      by_contra h
      exact hlen h
    have h := absCompareLoop_spec x.digits o.digits hx ho x.digits.length
    rw [List.take_length] at h
    have h2 : o.digits.take x.digits.length = o.digits := by
      rw [heq, List.take_length]
    rw [h2] at h
    exact h

/-! ## Signed values of normalized numbers -/

theorem value_neg_iff (x : int2048) (hx : Normalized x) : x.negative = true ↔ value x < 0 := by
  obtain ⟨_, h2, h3⟩ := hx
  unfold value
  constructor
  · intro hn
    rw [if_pos hn]
    have hne : x.digits ≠ [] := by
      intro h0
      rw [h3 h0] at hn
      exact Bool.false_ne_true hn
    have := val_pos_of_ne_nil x.digits hne h2
    omega
  · intro hv
    by_contra hn
    rw [if_neg hn] at hv
    omega

theorem eq_of_value_eq (a b : int2048) (ha : Normalized a) (hb : Normalized b)
    (h : value a = value b) : a = b := by
  have hna := value_neg_iff a ha
  have hnb := value_neg_iff b hb
  have hsign : a.negative = b.negative := by
    rw [h] at hna
    cases hA : a.negative <;> cases hB : b.negative <;> simp_all <;> omega
  have hval : val a.digits = val b.digits := by
    unfold value at h
    rw [hsign] at h
    split at h <;> omega
  have hd := val_inj a.digits b.digits ha.1 hb.1 ha.2.1 hb.2.1 hval
  cases a
  cases b
  simp only [int2048.mk.injEq]
  exact ⟨hd, hsign⟩

theorem eq_iff (a b : int2048) : int2048.eq a b = true ↔ a = b := by
  cases a
  cases b
  simp only [int2048.eq, Bool.and_eq_true, beq_iff_eq, int2048.mk.injEq]
  exact And.comm

theorem lt_iff (a b : int2048) (ha : Normalized a) (hb : Normalized b) :
    int2048.lt a b = true ↔ value a < value b := by
  have hna := value_neg_iff a ha
  have hnb := value_neg_iff b hb
  have hc := absCompare_spec a b ha.1 hb.1 ha.2.1 hb.2.1
  unfold int2048.lt
  cases hA : a.negative <;> cases hB : b.negative
  · simp only [bne_self_eq_false, Bool.false_eq_true, if_false]
    unfold value
    rw [hA, hB]
    simp only [Bool.false_eq_true, if_false, decide_eq_true_eq]
    rcases hc with h | h | h <;> rw [h.1] <;> omega
  · rw [hA] at hna
    rw [hB] at hnb
    have h1 := hnb.mp rfl
    have h2 : ¬ value a < 0 := fun h => Bool.false_ne_true (hna.mpr h)
    simp
    omega
  · rw [hA] at hna
    rw [hB] at hnb
    have h1 := hna.mp rfl
    have h2 : ¬ value b < 0 := fun h => Bool.false_ne_true (hnb.mpr h)
    simp
    omega
  · simp only [bne_self_eq_false, Bool.false_eq_true, if_false]
    unfold value
    rw [hA, hB]
    simp only [if_true, decide_eq_true_eq]
    rcases hc with h | h | h <;> rw [h.1] <;> omega

theorem eq_iff_value (a b : int2048) (ha : Normalized a) (hb : Normalized b) :
    int2048.eq a b = true ↔ value a = value b :=
  ⟨fun h => by rw [(eq_iff a b).mp h], fun h => (eq_iff a b).mpr (eq_of_value_eq a b ha hb h)⟩

/-! ## absAdd -/

theorem getLast_ne_zero_of_pow_le (l : List Nat) (hl : Bounded l)
    (h : BASE ^ (l.length - 1) ≤ val l) : l.getLast? ≠ some 0 := by
  intro h0
  have h1 := List.dropLast_append_getLast? 0 (by simpa using h0)
  have h2 : val l = val (l.dropLast ++ [0]) := by rw [h1]
  rw [val_append] at h2
  have h3 : val [0] = 0 := rfl
  rw [h3, Nat.mul_zero, Nat.add_zero] at h2
  have h4 := val_lt_pow l.dropLast (Bounded_dropLast l hl)
  rw [List.length_dropLast] at h4
  omega

theorem absAddStep_spec (other : List Nat) (st : List Nat × Nat) (i : Nat)
    (hst : Bounded st.1) (hi : i < st.1.length) (ho : Bounded other) (hc : st.2 ≤ 1) :
    (int2048.absAddStep other st i).1.length = st.1.length ∧
    Bounded (int2048.absAddStep other st i).1 ∧
    (int2048.absAddStep other st i).2 ≤ 1 ∧
    val (int2048.absAddStep other st i).1 + (int2048.absAddStep other st i).2 * BASE ^ (i + 1)
      = val st.1 + st.2 * BASE ^ i + other.getD i 0 * BASE ^ i := by
  have hx := Bounded_getD st.1 i hst
  have hy := Bounded_getD other i ho
  have hb : (if i < other.length then other.getD i 0 else 0) = other.getD i 0 := by
    split
    · rfl
    · exact (getD_of_length_le other i (by omega)).symm
  have hsum : u64 (u64 (st.1.getD i 0) + u64 (if i < other.length then other.getD i 0 else 0)
      + st.2) = st.1.getD i 0 + other.getD i 0 + st.2 := by
    rw [hb]
    unfold u64
    unfold BASE at hx hy
    omega
  have hlimb : u32 ((st.1.getD i 0 + other.getD i 0 + st.2) % BASE)
      = (st.1.getD i 0 + other.getD i 0 + st.2) % BASE := by
    unfold u32 BASE
    omega
  simp only [int2048.absAddStep, hsum, hlimb]
  have hr : (st.1.getD i 0 + other.getD i 0 + st.2) % BASE < BASE := Nat.mod_lt _ BASE_pos
  refine ⟨by simp, Bounded_set _ _ _ hst hr, ?_, ?_⟩
  · unfold BASE at hx hy ⊢
    omega
  · have h1 := val_set st.1 i ((st.1.getD i 0 + other.getD i 0 + st.2) % BASE) hi
    have h2 := Nat.mod_add_div (st.1.getD i 0 + other.getD i 0 + st.2) BASE
    have h3 : ((st.1.getD i 0 + other.getD i 0 + st.2) % BASE) * BASE ^ i
        + ((st.1.getD i 0 + other.getD i 0 + st.2) / BASE) * BASE ^ (i + 1)
        = (st.1.getD i 0 + other.getD i 0 + st.2) * BASE ^ i := by
      nth_rewrite 3 [← h2]
      rw [pow_succ]
      ring
    rw [Nat.add_mul, Nat.add_mul] at h3
    omega

theorem absAdd_loop (other d0 : List Nat) (hd : Bounded d0) (ho : Bounded other) (k : Nat)
    (hk : k ≤ d0.length) :
    ((List.range k).foldl (int2048.absAddStep other) (d0, 0)).1.length = d0.length ∧
    Bounded ((List.range k).foldl (int2048.absAddStep other) (d0, 0)).1 ∧
    ((List.range k).foldl (int2048.absAddStep other) (d0, 0)).2 ≤ 1 ∧
    val ((List.range k).foldl (int2048.absAddStep other) (d0, 0)).1
      + ((List.range k).foldl (int2048.absAddStep other) (d0, 0)).2 * BASE ^ k
      = val d0 + val (other.take k) := by
  induction k with
  | zero => simp [hd, val]
  | succ k ih =>
    obtain ⟨h1, h2, h3, h4⟩ := ih (by omega)
    rw [List.range_succ, List.foldl_append, List.foldl_cons, List.foldl_nil]
    obtain ⟨g1, g2, g3, g4⟩ := absAddStep_spec other
      ((List.range k).foldl (int2048.absAddStep other) (d0, 0)) k h2 (by omega) ho h3
    refine ⟨by omega, g2, g3, ?_⟩
    rw [g4, val_take_succ]
    omega

theorem absAdd_spec (x o : int2048) (hx : Bounded x.digits) (ho : Bounded o.digits) :
    Bounded (int2048.absAdd x o).digits ∧
    val (int2048.absAdd x o).digits = val x.digits + val o.digits ∧
    (int2048.absAdd x o).negative = x.negative ∧
    (x.digits.getLast? ≠ some 0 → o.digits.getLast? ≠ some 0 →
      (int2048.absAdd x o).digits.getLast? ≠ some 0) := by
  have hd0 : ∃ d0 : List Nat, d0 = (if x.digits.length < max x.digits.length o.digits.length
      then x.digits ++ List.replicate (max x.digits.length o.digits.length - x.digits.length) 0
      else x.digits) ∧ Bounded d0 ∧ val d0 = val x.digits ∧
      d0.length = max x.digits.length o.digits.length := by
    refine ⟨_, rfl, ?_, ?_, ?_⟩
    · split
      · exact (Bounded_append _ _).mpr ⟨hx, Bounded_replicate_zero _⟩
      · exact hx
    · split
      · rw [val_append, val_replicate_zero]; simp
      · rfl
    · split
      · simp only [List.length_append, List.length_replicate]; omega
      · omega
  obtain ⟨d0, hd0, hb0, hv0, hl0⟩ := hd0
  obtain ⟨h1, h2, h3, h4⟩ := absAdd_loop o.digits d0 hb0 ho (max x.digits.length o.digits.length)
    (by omega)
  rw [val_take_of_length_le o.digits _ (by omega), hv0] at h4
  simp only [int2048.absAdd, ← hd0]
  generalize (List.range (max x.digits.length o.digits.length)).foldl
    (int2048.absAddStep o.digits) (d0, 0) = st at h1 h2 h3 h4
  by_cases hc : st.2 ≠ 0
  · rw [if_pos hc]
    have hc1 : st.2 = 1 := by omega
    have hu : u32 st.2 = 1 := by rw [hc1]; rfl
    rw [hu]
    refine ⟨?_, ?_, trivial, ?_⟩
    · refine (Bounded_append _ _).mpr ⟨h2, ?_⟩
      intro d hd
      simp only [List.mem_singleton] at hd
      rw [hd]; unfold BASE; omega
    · rw [val_append, h1, hl0, ← h4, hc1]
      simp [val]
    · intro _ _
      simp
  · rw [if_neg hc]
    have hc0 : st.2 = 0 := by omega
    rw [hc0] at h4
    refine ⟨h2, by omega, trivial, ?_⟩
    intro hlx hlo
    by_cases hn : st.1 = []
    · rw [hn]; simp
    · apply getLast_ne_zero_of_pow_le _ h2
      rw [h1, hl0]
      have hlen : 0 < max x.digits.length o.digits.length := by
        rw [← hl0, ← h1]
        exact List.length_pos.mpr hn
      rcases Nat.le_total x.digits.length o.digits.length with hle | hle
      · rw [Nat.max_eq_right hle] at hlen ⊢
        have := pow_le_val o.digits (List.length_pos.mp hlen) hlo
        omega
      · rw [Nat.max_eq_left hle] at hlen ⊢
        have := pow_le_val x.digits (List.length_pos.mp hlen) hlx
        omega

/-! ## absSub -/

theorem absSubStep_spec (other : List Nat) (st : List Nat × Int) (i : Nat)
    (hst : Bounded st.1) (hi : i < st.1.length) (ho : Bounded other)
    (hc : st.2 = 0 ∨ st.2 = -1) :
    (int2048.absSubStep other st i).1.length = st.1.length ∧
    Bounded (int2048.absSubStep other st i).1 ∧
    ((int2048.absSubStep other st i).2 = 0 ∨ (int2048.absSubStep other st i).2 = -1) ∧
    (val (int2048.absSubStep other st i).1 : Int)
        + (int2048.absSubStep other st i).2 * (BASE : Int) ^ (i + 1)
      = (val st.1 : Int) + st.2 * (BASE : Int) ^ i - (other.getD i 0 : Int) * (BASE : Int) ^ i := by
  have hx := Bounded_getD st.1 i hst
  have hy := Bounded_getD other i ho
  have hb : (if i < other.length then other.getD i 0 else 0) = other.getD i 0 := by
    split
    · rfl
    · exact (getD_of_length_le other i (by omega)).symm
  unfold int2048.absSubStep
  simp only [hb]
  by_cases hneg : (st.1.getD i 0 : Int) - (other.getD i 0 : Int) + st.2 < 0
  · rw [if_pos hneg]
    have hl : ((i2u32 ((st.1.getD i 0 : Int) - (other.getD i 0 : Int) + st.2 + (BASE : Nat)) : Nat)
        : Int) = (st.1.getD i 0 : Int) - (other.getD i 0 : Int) + st.2 + (BASE : Int) := by
      unfold i2u32
      unfold BASE at hx hy ⊢
      omega
    have hlt : i2u32 ((st.1.getD i 0 : Int) - (other.getD i 0 : Int) + st.2 + (BASE : Nat))
        < BASE := by
      unfold i2u32
      unfold BASE at hx hy ⊢
      omega
    refine ⟨by simp, Bounded_set _ _ _ hst hlt, Or.inr rfl, ?_⟩
    have h1 := val_set st.1 i
      (i2u32 ((st.1.getD i 0 : Int) - (other.getD i 0 : Int) + st.2 + (BASE : Nat))) hi
    have h2 : ((val (st.1.set i
        (i2u32 ((st.1.getD i 0 : Int) - (other.getD i 0 : Int) + st.2 + (BASE : Nat)))) : Nat)
        : Int) + (st.1.getD i 0 : Int) * (BASE : Int) ^ i
        = (val st.1 : Int) + ((i2u32 ((st.1.getD i 0 : Int) - (other.getD i 0 : Int) + st.2
          + (BASE : Nat)) : Nat) : Int) * (BASE : Int) ^ i := by
      exact_mod_cast h1
    rw [hl] at h2
    simp only []
    rw [pow_succ]
    linear_combination h2
  · rw [if_neg hneg]
    have hl : ((i2u32 ((st.1.getD i 0 : Int) - (other.getD i 0 : Int) + st.2) : Nat)
        : Int) = (st.1.getD i 0 : Int) - (other.getD i 0 : Int) + st.2 := by
      unfold i2u32
      unfold BASE at hx hy
      omega
    have hlt : i2u32 ((st.1.getD i 0 : Int) - (other.getD i 0 : Int) + st.2) < BASE := by
      unfold i2u32
      unfold BASE at hx hy ⊢
      omega
    refine ⟨by simp, Bounded_set _ _ _ hst hlt, Or.inl rfl, ?_⟩
    have h1 := val_set st.1 i
      (i2u32 ((st.1.getD i 0 : Int) - (other.getD i 0 : Int) + st.2)) hi
    have h2 : ((val (st.1.set i
        (i2u32 ((st.1.getD i 0 : Int) - (other.getD i 0 : Int) + st.2))) : Nat)
        : Int) + (st.1.getD i 0 : Int) * (BASE : Int) ^ i
        = (val st.1 : Int) + ((i2u32 ((st.1.getD i 0 : Int) - (other.getD i 0 : Int) + st.2)
          : Nat) : Int) * (BASE : Int) ^ i := by
      exact_mod_cast h1
    rw [hl] at h2
    simp only []
    linear_combination h2

theorem absSub_loop (other d0 : List Nat) (hd : Bounded d0) (ho : Bounded other) (k : Nat)
    (hk : k ≤ d0.length) :
    ((List.range k).foldl (int2048.absSubStep other) (d0, 0)).1.length = d0.length ∧
    Bounded ((List.range k).foldl (int2048.absSubStep other) (d0, 0)).1 ∧
    (((List.range k).foldl (int2048.absSubStep other) (d0, 0)).2 = 0 ∨
      ((List.range k).foldl (int2048.absSubStep other) (d0, 0)).2 = -1) ∧
    (val ((List.range k).foldl (int2048.absSubStep other) (d0, 0)).1 : Int)
      + ((List.range k).foldl (int2048.absSubStep other) (d0, 0)).2 * (BASE : Int) ^ k
      = (val d0 : Int) - (val (other.take k) : Int) := by
  induction k with
  | zero => simp [hd, val]
  | succ k ih =>
    obtain ⟨h1, h2, h3, h4⟩ := ih (by omega)
    rw [List.range_succ, List.foldl_append, List.foldl_cons, List.foldl_nil]
    obtain ⟨g1, g2, g3, g4⟩ := absSubStep_spec other
      ((List.range k).foldl (int2048.absSubStep other) (d0, 0)) k h2 (by omega) ho h3
    refine ⟨by omega, g2, g3, ?_⟩
    rw [g4, val_take_succ]
    push_cast
    linear_combination h4

theorem absSub_spec (x o : int2048) (hx : Bounded x.digits) (ho : Bounded o.digits)
    (hlen : o.digits.length ≤ x.digits.length) (hle : val o.digits ≤ val x.digits) :
    Normalized (int2048.absSub x o) ∧
    val (int2048.absSub x o).digits + val o.digits = val x.digits ∧
    ((int2048.absSub x o).digits ≠ [] → (int2048.absSub x o).negative = x.negative) := by
  obtain ⟨h1, h2, h3, h4⟩ := absSub_loop o.digits x.digits hx ho x.digits.length (le_refl _)
  rw [val_take_of_length_le o.digits _ hlen] at h4
  unfold int2048.absSub
  generalize (List.range x.digits.length).foldl (int2048.absSubStep o.digits) (x.digits, 0)
    = st at h1 h2 h3 h4
  have hlt := val_lt_pow st.1 h2
  rw [h1] at hlt
  have hc : st.2 = 0 := by
    rcases h3 with h | h
    · exact h
    · exfalso
      rw [h] at h4
      have h5 : ((val st.1 : Nat) : Int) < (BASE : Int) ^ x.digits.length := by exact_mod_cast hlt
      have h6 : ((val o.digits : Nat) : Int) ≤ (val x.digits : Int) := by exact_mod_cast hle
      linarith
  rw [hc] at h4
  refine ⟨trim_normalized _ h2, ?_, ?_⟩
  · rw [trim_val]
    simp only []
    have : ((val st.1 : Nat) : Int) + (val o.digits : Int) = (val x.digits : Int) := by
      linarith
    exact_mod_cast this
  · intro hne
    simp only [int2048.trim] at hne ⊢
    cases hd : int2048.trimLoop st.1.length st.1 with
    | nil => exact absurd hd hne
    | cons e es => simp

/-! ## add, minus, unary minus -/

theorem isZero_iff (x : int2048) : x.isZero = true ↔ x.digits = [] := by
  unfold int2048.isZero
  exact List.isEmpty_iff

theorem isZero_false_iff (x : int2048) : x.isZero = false ↔ x.digits ≠ [] := by
  have h := isZero_iff x
  constructor
  · intro h1 h2
    rw [h.mpr h2] at h1
    exact Bool.noConfusion h1
  · intro h1
    cases hz : x.isZero
    · rfl
    · exact absurd (h.mp hz) h1

theorem value_of_nil (x : int2048) (h : x.digits = []) : value x = 0 := by
  unfold value
  rw [h]
  simp [val]

theorem Normalized_zero : Normalized { digits := [], negative := false } := by decide

theorem ne_nil_of_val_pos (l : List Nat) (h : 0 < val l) : l ≠ [] := by
  intro h0
  rw [h0] at h
  exact Nat.lt_irrefl 0 h

theorem add_spec (a b : int2048) (ha : Normalized a) (hb : Normalized b) :
    Normalized (int2048.add a b) ∧ value (int2048.add a b) = value a + value b := by
  unfold int2048.add
  by_cases hbz : b.isZero = true
  · rw [if_pos hbz]
    refine ⟨ha, ?_⟩
    rw [value_of_nil b ((isZero_iff b).mp hbz)]
    omega
  rw [if_neg hbz]
  by_cases haz : a.isZero = true
  · rw [if_pos haz]
    refine ⟨hb, ?_⟩
    rw [value_of_nil a ((isZero_iff a).mp haz)]
    omega
  rw [if_neg haz]
  have hane : a.digits ≠ [] := fun h => haz ((isZero_iff a).mpr h)
  have hbne : b.digits ≠ [] := fun h => hbz ((isZero_iff b).mpr h)
  have hapos := val_pos_of_ne_nil a.digits hane ha.2.1
  have hbpos := val_pos_of_ne_nil b.digits hbne hb.2.1
  by_cases hs : a.negative = b.negative
  · rw [if_pos hs]
    obtain ⟨h1, h2, h3, h4⟩ := absAdd_spec a b ha.1 hb.1
    have hne : (int2048.absAdd a b).digits ≠ [] := ne_nil_of_val_pos _ (by omega)
    refine ⟨⟨h1, h4 ha.2.1 hb.2.1, fun h => absurd h hne⟩, ?_⟩
    unfold value
    rw [h3, h2, ← hs]
    split <;> push_cast <;> ring
  · rw [if_neg hs]
    simp only []
    rcases absCompare_spec a b ha.1 hb.1 ha.2.1 hb.2.1 with hc | hc | hc
    · rw [hc.1]
      simp only [show ¬ ((-1 : Int) = 0) by omega, show ¬ ((-1 : Int) > 0) by omega, if_false]
      obtain ⟨h1, h2, h3⟩ := absSub_spec b a hb.1 ha.1
        (length_le_of_val_le a.digits b.digits ha.2.1 hb.1 (by omega)) (by omega)
      have hne : (int2048.absSub b a).digits ≠ [] := ne_nil_of_val_pos _ (by omega)
      refine ⟨h1, ?_⟩
      unfold value
      rw [h3 hne]
      cases hA : a.negative <;> cases hB : b.negative
      · rw [hA, hB] at hs; exact absurd rfl hs
      · simp only [if_true, Bool.false_eq_true, if_false]; omega
      · simp only [if_true, Bool.false_eq_true, if_false]; omega
      · rw [hA, hB] at hs; exact absurd rfl hs
    · rw [hc.1]
      simp only [if_true]
      refine ⟨Normalized_zero, ?_⟩
      unfold value
      simp only [val, Bool.false_eq_true, if_false]
      cases hA : a.negative <;> cases hB : b.negative
      · rw [hA, hB] at hs; exact absurd rfl hs
      · simp only [if_true, Bool.false_eq_true, if_false]; omega
      · simp only [if_true, Bool.false_eq_true, if_false]; omega
      · rw [hA, hB] at hs; exact absurd rfl hs
    · rw [hc.1]
      simp only [show ¬ ((1 : Int) = 0) by omega, show ((1 : Int) > 0) by omega, if_false,
        if_true]
      obtain ⟨h1, h2, h3⟩ := absSub_spec a b ha.1 hb.1
        (length_le_of_val_le b.digits a.digits hb.2.1 ha.1 (by omega)) (by omega)
      have hne : (int2048.absSub a b).digits ≠ [] := ne_nil_of_val_pos _ (by omega)
      refine ⟨h1, ?_⟩
      unfold value
      rw [h3 hne]
      cases hA : a.negative <;> cases hB : b.negative
      · rw [hA, hB] at hs; exact absurd rfl hs
      · simp only [if_true, Bool.false_eq_true, if_false]; omega
      · simp only [if_true, Bool.false_eq_true, if_false]; omega
      · rw [hA, hB] at hs; exact absurd rfl hs

theorem neg_spec (a : int2048) (ha : Normalized a) :
    Normalized (int2048.neg a) ∧ value (int2048.neg a) = - value a := by
  unfold int2048.neg
  by_cases hz : a.isZero = true
  · rw [hz]
    simp only [Bool.not_true, Bool.false_eq_true, if_false]
    refine ⟨ha, ?_⟩
    rw [value_of_nil a ((isZero_iff a).mp hz)]
    rfl
  · have hz2 : a.isZero = false := by
      cases h : a.isZero
      · rfl
      · exact absurd h hz
    rw [hz2]
    simp only [Bool.not_false, if_true]
    have hne := (isZero_false_iff a).mp hz2
    refine ⟨⟨ha.1, ha.2.1, fun h => absurd h hne⟩, ?_⟩
    unfold value
    cases a.negative <;> simp

theorem minus_eq_add_neg (a b : int2048) : int2048.minus a b = int2048.add a (int2048.neg b) := by
  unfold int2048.minus int2048.neg
  by_cases hz : b.isZero = true
  · rw [if_pos hz, hz]
    simp only [Bool.not_true, Bool.false_eq_true, if_false]
    unfold int2048.add
    rw [if_pos hz]
  · rw [if_neg hz]

theorem minus_spec (a b : int2048) (ha : Normalized a) (hb : Normalized b) :
    Normalized (int2048.minus a b) ∧ value (int2048.minus a b) = value a - value b := by
  rw [minus_eq_add_neg]
  obtain ⟨h1, h2⟩ := neg_spec b hb
  obtain ⟨h3, h4⟩ := add_spec a (int2048.neg b) ha h1
  refine ⟨h3, ?_⟩
  rw [h4, h2]
  ring

/-! ## mulSchoolbook and operator*= -/

theorem mulInnerStep_spec (ai : Nat) (b : List Nat) (i : Nat) (st : List Nat × Nat) (j : Nat)
    (hai : ai < BASE) (hb : Bounded b) (hst : Bounded st.1) (hij : i + j < st.1.length)
    (hc : st.2 < BASE) :
    (int2048.mulInnerStep ai b i st j).1.length = st.1.length ∧
    Bounded (int2048.mulInnerStep ai b i st j).1 ∧
    (int2048.mulInnerStep ai b i st j).2 < BASE ∧
    val (int2048.mulInnerStep ai b i st j).1
        + (int2048.mulInnerStep ai b i st j).2 * BASE ^ (i + j + 1)
      = val st.1 + st.2 * BASE ^ (i + j) + ai * b.getD j 0 * BASE ^ (i + j) := by
  have hx := Bounded_getD st.1 (i + j) hst
  have hy := Bounded_getD b j hb
  have hprod : ai * b.getD j 0 ≤ (BASE - 1) * (BASE - 1) :=
    Nat.mul_le_mul (by omega) (by omega)
  have hu : u64 (b.getD j 0) = b.getD j 0 := by
    unfold u64
    unfold BASE at hy
    omega
  have hsum : u64 (st.1.getD (i + j) 0 + ai * b.getD j 0 + st.2)
      = st.1.getD (i + j) 0 + ai * b.getD j 0 + st.2 := by
    unfold u64
    unfold BASE at hx hc hprod
    omega
  simp only [int2048.mulInnerStep, hu, hsum]
  generalize hS : st.1.getD (i + j) 0 + ai * b.getD j 0 + st.2 = S
  have hSlt : S < BASE * BASE := by
    rw [← hS]
    unfold BASE at hx hc hprod ⊢
    omega
  have hlimb : u32 (S % BASE) = S % BASE := by
    unfold u32 BASE
    omega
  rw [hlimb]
  have hr : S % BASE < BASE := Nat.mod_lt _ BASE_pos
  refine ⟨by simp, Bounded_set _ _ _ hst hr, ?_, ?_⟩
  · exact Nat.div_lt_of_lt_mul hSlt
  · have h1 := val_set st.1 (i + j) (S % BASE) hij
    have h2 := Nat.mod_add_div S BASE
    have h3 : (S % BASE) * BASE ^ (i + j) + (S / BASE) * BASE ^ (i + j + 1)
        = S * BASE ^ (i + j) := by
      nth_rewrite 3 [← h2]
      rw [pow_succ]
      ring
    have h4 : S * BASE ^ (i + j) = st.1.getD (i + j) 0 * BASE ^ (i + j)
        + ai * b.getD j 0 * BASE ^ (i + j) + st.2 * BASE ^ (i + j) := by
      rw [← hS]
      ring
    omega

theorem mulInner_loop (ai : Nat) (b : List Nat) (i : Nat) (out : List Nat)
    (hai : ai < BASE) (hb : Bounded b) (hout : Bounded out) (k : Nat)
    (hk : k ≤ b.length) (hlen : i + b.length ≤ out.length) :
    ((List.range k).foldl (int2048.mulInnerStep ai b i) (out, 0)).1.length = out.length ∧
    Bounded ((List.range k).foldl (int2048.mulInnerStep ai b i) (out, 0)).1 ∧
    ((List.range k).foldl (int2048.mulInnerStep ai b i) (out, 0)).2 < BASE ∧
    val ((List.range k).foldl (int2048.mulInnerStep ai b i) (out, 0)).1
      + ((List.range k).foldl (int2048.mulInnerStep ai b i) (out, 0)).2 * BASE ^ (i + k)
      = val out + ai * val (b.take k) * BASE ^ i := by
  induction k with
  | zero => simp [hout, val, BASE_pos]
  | succ k ih =>
    obtain ⟨h1, h2, h3, h4⟩ := ih (by omega)
    rw [List.range_succ, List.foldl_append, List.foldl_cons, List.foldl_nil]
    obtain ⟨g1, g2, g3, g4⟩ := mulInnerStep_spec ai b i
      ((List.range k).foldl (int2048.mulInnerStep ai b i) (out, 0)) k hai hb h2 (by omega) h3
    refine ⟨by omega, g2, g3, ?_⟩
    rw [show i + (k + 1) = i + k + 1 from rfl, g4, val_take_succ, h4]
    rw [pow_add]
    ring

theorem mulCarryLoop_spec (out : List Nat) (pos carry : Nat) (hout : Bounded out)
    (hpos : pos ≤ out.length) (hc : carry < BASE) :
    out.length ≤ (int2048.mulCarryLoop out pos carry).length ∧
    Bounded (int2048.mulCarryLoop out pos carry) ∧
    val (int2048.mulCarryLoop out pos carry) = val out + carry * BASE ^ pos := by
  induction out, pos, carry using int2048.mulCarryLoop.induct with
  | case1 out pos =>
    rw [int2048.mulCarryLoop]
    simp [hout]
  | case2 out pos carry hne out1 cur ih =>
    rw [int2048.mulCarryLoop]
    rw [if_neg hne]
    have ho1 : ∃ o1 : List Nat, o1 = (if pos ≥ out.length then out ++ [0] else out) ∧
        Bounded o1 ∧ val o1 = val out ∧ pos < o1.length ∧ out.length ≤ o1.length := by
      refine ⟨_, rfl, ?_, ?_, ?_, ?_⟩
      · split
        · exact (Bounded_append _ _).mpr ⟨hout, Bounded_replicate_zero 1⟩
        · exact hout
      · split
        · rw [val_append]; simp [val]
        · rfl
      · split
        · simp only [List.length_append, List.length_singleton]; omega
        · omega
      · split
        · simp only [List.length_append, List.length_singleton]; omega
        · omega
    obtain ⟨o1, ho1, hb1, hv1, hl1, hl2⟩ := ho1
    have hout1 : out1 = o1 := by
      rw [ho1]
      simp only [out1]
      split <;> rfl
    have hcurdef : cur = u64 (out1.getD pos 0 + carry) := rfl
    clear_value cur out1
    subst hout1
    have hx := Bounded_getD out1 pos hb1
    have hcur : cur = out1.getD pos 0 + carry := by
      rw [hcurdef]
      unfold u64
      unfold BASE at hx hc
      omega
    have hlimb : u32 (cur % BASE) = cur % BASE := by
      unfold u32 BASE
      omega
    have hr : cur % BASE < BASE := Nat.mod_lt _ BASE_pos
    have hq : cur / BASE < BASE := by
      rw [hcur]
      unfold BASE at hx hc ⊢
      omega
    simp only [← ho1, ← hcurdef]
    rw [hlimb] at ih ⊢
    obtain ⟨i1, i2, i3⟩ := ih (Bounded_set _ _ _ hb1 hr) (by simpa using hl1) hq
    refine ⟨?_, i2, ?_⟩
    · simp only [List.length_set] at i1
      omega
    · rw [i3]
      have h1 := val_set out1 pos (cur % BASE) hl1
      have h2 := Nat.mod_add_div cur BASE
      have h3 : (cur % BASE) * BASE ^ pos + (cur / BASE) * BASE ^ (pos + 1)
          = cur * BASE ^ pos := by
        nth_rewrite 3 [← h2]
        rw [pow_succ]
        ring
      have h4 : cur * BASE ^ pos = out1.getD pos 0 * BASE ^ pos + carry * BASE ^ pos := by
        rw [hcur]
        ring
      omega

theorem mulOuterStep_spec (a b out : List Nat) (i : Nat) (ha : Bounded a) (hb : Bounded b)
    (hout : Bounded out) (hlen : i + b.length ≤ out.length) :
    out.length ≤ (int2048.mulOuterStep a b out i).length ∧
    Bounded (int2048.mulOuterStep a b out i) ∧
    val (int2048.mulOuterStep a b out i) = val out + a.getD i 0 * val b * BASE ^ i := by
  have hai := Bounded_getD a i ha
  have hu : u64 (a.getD i 0) = a.getD i 0 := by
    unfold u64
    unfold BASE at hai
    omega
  unfold int2048.mulOuterStep
  simp only [hu]
  obtain ⟨h1, h2, h3, h4⟩ := mulInner_loop (a.getD i 0) b i out hai hb hout b.length
    (le_refl _) hlen
  rw [List.take_length] at h4
  obtain ⟨g1, g2, g3⟩ := mulCarryLoop_spec _ (i + b.length) _ h2 (by omega) h3
  refine ⟨by omega, g2, ?_⟩
  rw [g3, h4]

theorem mulOuter_loop (a b : List Nat) (ha : Bounded a) (hb : Bounded b) (k : Nat)
    (hk : k ≤ a.length) :
    a.length + b.length ≤ ((List.range k).foldl (int2048.mulOuterStep a b)
      (List.replicate (a.length + b.length) 0)).length ∧
    Bounded ((List.range k).foldl (int2048.mulOuterStep a b)
      (List.replicate (a.length + b.length) 0)) ∧
    val ((List.range k).foldl (int2048.mulOuterStep a b)
      (List.replicate (a.length + b.length) 0)) = val (a.take k) * val b := by
  induction k with
  | zero => simp [Bounded_replicate_zero, val_replicate_zero, val]
  | succ k ih =>
    obtain ⟨h1, h2, h3⟩ := ih (by omega)
    rw [List.range_succ, List.foldl_append, List.foldl_cons, List.foldl_nil]
    obtain ⟨g1, g2, g3⟩ := mulOuterStep_spec a b _ k ha hb h2 (by omega)
    refine ⟨by omega, g2, ?_⟩
    rw [g3, h3, val_take_succ]
    ring

theorem mulSchoolbook_spec (a b : List Nat) (ha : Bounded a) (hb : Bounded b) :
    Bounded (int2048.mulSchoolbook a b) ∧
    (int2048.mulSchoolbook a b).getLast? ≠ some 0 ∧
    val (int2048.mulSchoolbook a b) = val a * val b := by
  obtain ⟨h1, h2, h3⟩ := mulOuter_loop a b ha hb a.length (le_refl _)
  rw [List.take_length] at h3
  unfold int2048.mulSchoolbook
  exact ⟨trimLoop_bounded _ _ h2, trimLoop_last _ _ (le_refl _), by rw [trimLoop_val, h3]⟩

theorem mul_spec (a b : int2048) (ha : Normalized a) (hb : Normalized b) :
    Normalized (int2048.mul a b) ∧ value (int2048.mul a b) = value a * value b := by
  unfold int2048.mul
  by_cases hz : (a.isZero || b.isZero) = true
  · rw [if_pos hz]
    refine ⟨Normalized_zero, ?_⟩
    rw [Bool.or_eq_true] at hz
    rcases hz with h | h
    · rw [value_of_nil a ((isZero_iff a).mp h)]
      simp [value, val]
    · rw [value_of_nil b ((isZero_iff b).mp h)]
      simp [value, val]
  · rw [if_neg hz]
    rw [Bool.or_eq_true, not_or] at hz
    have hane : a.digits ≠ [] := fun h => hz.1 ((isZero_iff a).mpr h)
    have hbne : b.digits ≠ [] := fun h => hz.2 ((isZero_iff b).mpr h)
    have hapos := val_pos_of_ne_nil a.digits hane ha.2.1
    have hbpos := val_pos_of_ne_nil b.digits hbne hb.2.1
    obtain ⟨h1, h2, h3⟩ := mulSchoolbook_spec a.digits b.digits ha.1 hb.1
    have hne : int2048.mulSchoolbook a.digits b.digits ≠ [] :=
      ne_nil_of_val_pos _ (by rw [h3]; exact Nat.mul_pos hapos hbpos)
    rw [trim_of_normalized _ ⟨h1, h2, fun h => absurd h hne⟩]
    refine ⟨⟨h1, h2, fun h => absurd h hne⟩, ?_⟩
    unfold value
    simp only [h3]
    cases a.negative <;> cases b.negative <;> simp

/-! ## divmodTrunc: the single-limb branch -/

theorem divSmallLoop_spec (R : List Nat) (divv : Nat) (hR : Bounded R) (hd0 : 0 < divv)
    (hd : divv < BASE) (i : Nat) (st : List Nat × Nat) (hi : i ≤ st.1.length)
    (hrem : st.2 < divv) (hQ : Bounded st.1) :
    (int2048.divSmallLoop R divv i st).1.length = st.1.length ∧
    Bounded (int2048.divSmallLoop R divv i st).1 ∧
    (int2048.divSmallLoop R divv i st).2 < divv ∧
    (∀ j, i ≤ j → (int2048.divSmallLoop R divv i st).1.getD j 0 = st.1.getD j 0) ∧
    val (R.take i) + st.2 * BASE ^ i
      = divv * val ((int2048.divSmallLoop R divv i st).1.take i)
        + (int2048.divSmallLoop R divv i st).2 := by
  induction i generalizing st with
  | zero =>
    simp [int2048.divSmallLoop, hQ, hrem, val]
  | succ i ih =>
    have hx := Bounded_getD R i hR
    have hcur : u64 (R.getD i 0 + st.2 * BASE) = R.getD i 0 + st.2 * BASE := by
      unfold u64
      unfold BASE at hx hd ⊢
      omega
    have hlt : R.getD i 0 + st.2 * BASE < divv * BASE := by
      unfold BASE at hx hd ⊢
      omega
    have hq : (R.getD i 0 + st.2 * BASE) / divv < BASE := by
      apply Nat.div_lt_of_lt_mul
      exact hlt
    have hu := u32_of_lt _ hq
    unfold int2048.divSmallLoop
    simp only [hcur, hu]
    obtain ⟨h1, h2, h3, h4, h5⟩ := ih
      (st.1.set i ((R.getD i 0 + st.2 * BASE) / divv), (R.getD i 0 + st.2 * BASE) % divv)
      (by simp only [List.length_set]; omega) (Nat.mod_lt _ hd0) (Bounded_set _ _ _ hQ hq)
    simp only [List.length_set] at h1
    refine ⟨h1, h2, h3, ?_, ?_⟩
    · intro j hj
      rw [h4 j (by omega)]
      exact getD_set_ne _ _ _ _ (by omega)
    · rw [val_take_succ, val_take_succ, h4 i (le_refl _), getD_set_eq _ _ _ (by omega)]
      simp only [] at h5
      have h6 := Nat.div_add_mod (R.getD i 0 + st.2 * BASE) divv
      have h7 : (R.getD i 0 + st.2 * BASE) * BASE ^ i
          = divv * ((R.getD i 0 + st.2 * BASE) / divv * BASE ^ i)
            + (R.getD i 0 + st.2 * BASE) % divv * BASE ^ i := by
        nth_rewrite 1 [← h6]
        ring
      have h8 : (R.getD i 0 + st.2 * BASE) * BASE ^ i
          = R.getD i 0 * BASE ^ i + st.2 * BASE ^ (i + 1) := by
        rw [pow_succ]
        ring
      rw [Nat.mul_add]
      omega

/-! ## divmodTrunc: the trial subtraction of the multi-limb branch -/

theorem getD_mul_pow_le (l : List Nat) (k : Nat) : l.getD k 0 * BASE ^ k ≤ val l := by
  have h1 := val_take_succ l k
  have h2 := val_take_le l (k + 1)
  omega

theorem val_lt_pow_of_length_le (l : List Nat) (hl : Bounded l) (k : Nat) (hk : l.length ≤ k) :
    val l < BASE ^ k := by
  have h1 := val_lt_pow l hl
  have h2 : BASE ^ l.length ≤ BASE ^ k := Nat.pow_le_pow_right BASE_pos hk
  omega

theorem borrowLoop_spec (Rc : List Nat) (k : Nat) (hR : Bounded Rc) :
    (val Rc < BASE ^ k → int2048.borrowLoop Rc k = none) ∧
    (BASE ^ k ≤ val Rc → ∃ Rc2, int2048.borrowLoop Rc k = some Rc2 ∧
      Rc2.length = Rc.length ∧ Bounded Rc2 ∧ val Rc2 + BASE ^ k = val Rc) := by
  induction Rc, k using int2048.borrowLoop.induct with
  | case1 Rc k hk =>
    rw [int2048.borrowLoop, if_pos hk]
    refine ⟨fun _ => rfl, fun h => ?_⟩
    have := val_lt_pow_of_length_le Rc hR k hk
    omega
  | case2 Rc k hk h0 ih =>
    rw [int2048.borrowLoop, if_neg hk, if_pos h0]
    have hu : u32 (BASE - 1) = BASE - 1 := u32_of_lt _ (by unfold BASE; omega)
    rw [hu] at ih ⊢
    have hb : Bounded (Rc.set k (BASE - 1)) := Bounded_set _ _ _ hR (by unfold BASE; omega)
    obtain ⟨ih1, ih2⟩ := ih hb
    have hv := val_set Rc k (BASE - 1) (by omega)
    rw [h0, Nat.zero_mul, Nat.add_zero] at hv
    rw [pow_succ] at ih1 ih2
    have hP : 0 < BASE ^ k := Nat.pow_pos BASE_pos
    have hm : (BASE - 1) * BASE ^ k + BASE ^ k = BASE ^ k * BASE := by
      rw [pred_mul_add _ _ BASE_pos, Nat.mul_comm]
    constructor
    · intro h
      exact ih1 (by omega)
    · intro h
      have hcond : BASE ^ k * BASE ≤ val (Rc.set k (BASE - 1)) := by omega
      obtain ⟨Rc2, e1, e2, e3, e4⟩ := ih2 hcond
      refine ⟨Rc2, e1, ?_, e3, ?_⟩
      · rw [e2, List.length_set]
      · omega
  | case3 Rc k hk h0 =>
    rw [int2048.borrowLoop, if_neg hk, if_neg h0]
    have hx := Bounded_getD Rc k hR
    have hv := val_set Rc k (Rc.getD k 0 - 1) (by omega)
    have hle := getD_mul_pow_le Rc k
    have hm : (Rc.getD k 0 - 1) * BASE ^ k + BASE ^ k = Rc.getD k 0 * BASE ^ k :=
      pred_mul_add _ _ (by omega)
    constructor
    · intro h
      exfalso
      omega
    · intro _
      refine ⟨_, rfl, by simp, Bounded_set _ _ _ hR (by omega), ?_⟩
      omega

theorem carrySubLoop_spec (Rc : List Nat) (idx carry : Nat) (hR : Bounded Rc)
    (hc : carry < BASE) :
    (val Rc < carry * BASE ^ idx → int2048.carrySubLoop Rc idx carry = none) ∧
    (carry * BASE ^ idx ≤ val Rc → ∃ Rc2, int2048.carrySubLoop Rc idx carry = some Rc2 ∧
      Rc2.length = Rc.length ∧ Bounded Rc2 ∧ val Rc2 + carry * BASE ^ idx = val Rc) := by
  induction Rc, idx, carry using int2048.carrySubLoop.induct with
  | case1 Rc idx =>
    rw [int2048.carrySubLoop, if_pos rfl]
    refine ⟨fun h => ?_, fun _ => ⟨Rc, rfl, rfl, hR, by simp⟩⟩
    simp at h
  | case2 Rc idx carry hne hk =>
    rw [int2048.carrySubLoop, if_neg hne, if_pos hk]
    refine ⟨fun _ => rfl, fun h => ?_⟩
    have h1 := val_lt_pow_of_length_le Rc hR idx hk
    have h2 : 1 * BASE ^ idx ≤ carry * BASE ^ idx := Nat.mul_le_mul_right _ (by omega)
    omega
  | case3 Rc idx carry hne hk hlt ih =>
    rw [int2048.carrySubLoop, if_neg hne, if_neg hk, if_pos hlt]
    have hx := Bounded_getD Rc idx hR
    have hlimb : u32 (subU64 (u64 (BASE + Rc.getD idx 0)) carry) = BASE + Rc.getD idx 0 - carry := by
      unfold u32 subU64 u64
      unfold BASE at hx hc ⊢
      omega
    rw [hlimb] at ih ⊢
    have hb : Bounded (Rc.set idx (BASE + Rc.getD idx 0 - carry)) :=
      Bounded_set _ _ _ hR (by omega)
    obtain ⟨ih1, ih2⟩ := ih hb (by unfold BASE; omega)
    have hv := val_set Rc idx (BASE + Rc.getD idx 0 - carry) (by omega)
    rw [pow_succ, Nat.one_mul] at ih1 ih2
    have hm : (BASE + Rc.getD idx 0 - carry) * BASE ^ idx + carry * BASE ^ idx
        = BASE ^ idx * BASE + Rc.getD idx 0 * BASE ^ idx := by
      rw [sub_mul_add_mul _ _ _ (by omega)]
      ring
    constructor
    · intro h
      exact ih1 (by omega)
    · intro h
      have hcond : BASE ^ idx * BASE ≤ val (Rc.set idx (BASE + Rc.getD idx 0 - carry)) := by
        omega
      obtain ⟨Rc2, e1, e2, e3, e4⟩ := ih2 hcond
      refine ⟨Rc2, e1, ?_, e3, ?_⟩
      · rw [e2, List.length_set]
      · omega
  | case4 Rc idx carry hne hk hlt =>
    rw [int2048.carrySubLoop, if_neg hne, if_neg hk, if_neg hlt]
    have hx := Bounded_getD Rc idx hR
    have hlimb : u32 (subU64 (Rc.getD idx 0) carry) = Rc.getD idx 0 - carry := by
      unfold u32 subU64
      unfold BASE at hx hc
      omega
    rw [hlimb]
    have hv := val_set Rc idx (Rc.getD idx 0 - carry) (by omega)
    have hle := getD_mul_pow_le Rc idx
    have hm : (Rc.getD idx 0 - carry) * BASE ^ idx + carry * BASE ^ idx
        = Rc.getD idx 0 * BASE ^ idx := sub_mul_add_mul _ _ _ (by omega)
    have hm2 : carry * BASE ^ idx ≤ Rc.getD idx 0 * BASE ^ idx :=
      Nat.mul_le_mul_right _ (by omega)
    constructor
    · intro h
      exfalso
      omega
    · intro _
      refine ⟨_, rfl, by simp, Bounded_set _ _ _ hR (by omega), ?_⟩
      omega

theorem prod_lt (x q c : Nat) (hx : x < BASE) (hq : q < BASE) (hc : c < BASE) :
    x * q + c < BASE * BASE := by
  have h1 : x * q ≤ (BASE - 1) * (BASE - 1) := Nat.mul_le_mul (by omega) (by omega)
  unfold BASE at h1 hc ⊢
  omega

theorem trialStep_spec (b : List Nat) (qhat pos : Nat) (Rc : List Nat) (carry i : Nat)
    (hb : Bounded b) (hR : Bounded Rc) (hq : qhat < BASE) (hc : carry < BASE)
    (hidx : pos + i < Rc.length) :
    (val Rc < (b.getD i 0 * qhat + carry) % BASE * BASE ^ (pos + i) →
      int2048.trialStep b qhat pos (some (Rc, carry)) i = none) ∧
    ((b.getD i 0 * qhat + carry) % BASE * BASE ^ (pos + i) ≤ val Rc →
      ∃ Rc2, int2048.trialStep b qhat pos (some (Rc, carry)) i
          = some (Rc2, (b.getD i 0 * qhat + carry) / BASE) ∧
        Rc2.length = Rc.length ∧ Bounded Rc2 ∧
        val Rc2 + (b.getD i 0 * qhat + carry) % BASE * BASE ^ (pos + i) = val Rc) := by
  have hprod := prod_lt (b.getD i 0) qhat carry (Bounded_getD b i hb) hq hc
  generalize hpe : b.getD i 0 * qhat + carry = prod at hprod ⊢
  have hp : prod % BASE < BASE := Nat.mod_lt _ BASE_pos
  have hc1 : prod / BASE < BASE := Nat.div_lt_of_lt_mul hprod
  have hx := Bounded_getD Rc (pos + i) hR
  have hup : u64 (prod % BASE) = prod % BASE :=
    u64_of_lt _ (Nat.lt_of_lt_of_le hp (Nat.le_mul_of_pos_left _ BASE_pos))
  have huc : u64 (prod / BASE) = prod / BASE :=
    u64_of_lt _ (Nat.lt_of_lt_of_le hc1 (Nat.le_mul_of_pos_left _ BASE_pos))
  have hle := getD_mul_pow_le Rc (pos + i)
  by_cases hlt : Rc.getD (pos + i) 0 < prod % BASE
  · have hlimb : u32 (subU64 (u64 (BASE + Rc.getD (pos + i) 0)) (prod % BASE))
        = BASE + Rc.getD (pos + i) 0 - prod % BASE := by
      unfold u32 subU64 u64
      unfold BASE at hx hp ⊢
      omega
    have hstep : int2048.trialStep b qhat pos (some (Rc, carry)) i
        = match int2048.borrowLoop
            (Rc.set (pos + i) (BASE + Rc.getD (pos + i) 0 - prod % BASE)) (pos + i + 1) with
          | none => none
          | some Rc2 => some (Rc2, prod / BASE) := by
      simp only [int2048.trialStep, hpe, hup, huc, if_pos hlt, hlimb]
    rw [hstep]
    have hb1 : Bounded (Rc.set (pos + i) (BASE + Rc.getD (pos + i) 0 - prod % BASE)) :=
      Bounded_set _ _ _ hR (by omega)
    obtain ⟨s1, s2⟩ := borrowLoop_spec _ (pos + i + 1) hb1
    have hv := val_set Rc (pos + i) (BASE + Rc.getD (pos + i) 0 - prod % BASE) hidx
    have hm : (BASE + Rc.getD (pos + i) 0 - prod % BASE) * BASE ^ (pos + i)
        + prod % BASE * BASE ^ (pos + i)
        = BASE ^ (pos + i) * BASE + Rc.getD (pos + i) 0 * BASE ^ (pos + i) := by
      rw [sub_mul_add_mul _ _ _ (by omega)]
      ring
    rw [pow_succ] at s1 s2
    constructor
    · intro h
      rw [s1 (by omega)]
    · intro h
      have hcond : BASE ^ (pos + i) * BASE
          ≤ val (Rc.set (pos + i) (BASE + Rc.getD (pos + i) 0 - prod % BASE)) := by omega
      obtain ⟨Rc2, e1, e2, e3, e4⟩ := s2 hcond
      rw [e1]
      refine ⟨Rc2, rfl, ?_, e3, ?_⟩
      · rw [e2, List.length_set]
      · omega
  · have hlimb : u32 (subU64 (Rc.getD (pos + i) 0) (prod % BASE))
        = Rc.getD (pos + i) 0 - prod % BASE := by
      unfold u32 subU64
      unfold BASE at hx hp
      omega
    have hstep : int2048.trialStep b qhat pos (some (Rc, carry)) i
        = some (Rc.set (pos + i) (Rc.getD (pos + i) 0 - prod % BASE), prod / BASE) := by
      simp only [int2048.trialStep, hpe, hup, huc, if_neg hlt, hlimb]
    rw [hstep]
    have hv := val_set Rc (pos + i) (Rc.getD (pos + i) 0 - prod % BASE) hidx
    have hm : (Rc.getD (pos + i) 0 - prod % BASE) * BASE ^ (pos + i)
        + prod % BASE * BASE ^ (pos + i)
        = Rc.getD (pos + i) 0 * BASE ^ (pos + i) := sub_mul_add_mul _ _ _ (by omega)
    have hm2 : prod % BASE * BASE ^ (pos + i) ≤ Rc.getD (pos + i) 0 * BASE ^ (pos + i) :=
      Nat.mul_le_mul_right _ (by omega)
    constructor
    · intro h
      exfalso
      omega
    · intro _
      refine ⟨_, rfl, by simp, Bounded_set _ _ _ hR (by omega), ?_⟩
      omega

theorem trialStep_none (b : List Nat) (qhat pos i : Nat) :
    int2048.trialStep b qhat pos none i = none := rfl

theorem trial_loop (b R : List Nat) (qhat pos : Nat) (hb : Bounded b) (hR : Bounded R)
    (hq : qhat < BASE) (hlen : pos + b.length ≤ R.length) (k : Nat) (hk : k ≤ b.length) :
    ((List.range k).foldl (int2048.trialStep b qhat pos) (some (R, 0)) = none ∧
      val R < val (b.take k) * qhat * BASE ^ pos) ∨
    (∃ Rc carry, (List.range k).foldl (int2048.trialStep b qhat pos) (some (R, 0))
        = some (Rc, carry) ∧ Rc.length = R.length ∧ Bounded Rc ∧ carry < BASE ∧
      val Rc + val (b.take k) * qhat * BASE ^ pos = val R + carry * BASE ^ (pos + k)) := by
  induction k with
  | zero =>
    right
    exact ⟨R, 0, rfl, rfl, hR, BASE_pos, by simp [val]⟩
  | succ k ih =>
    rw [List.range_succ, List.foldl_append, List.foldl_cons, List.foldl_nil]
    have hT : val (b.take (k + 1)) * qhat * BASE ^ pos
        = val (b.take k) * qhat * BASE ^ pos + b.getD k 0 * qhat * BASE ^ (pos + k) := by
      rw [val_take_succ, pow_add]
      ring
    rcases ih (by omega) with ⟨e, h⟩ | ⟨Rc, carry, e, h1, h2, h3, h4⟩
    · left
      rw [e]
      exact ⟨rfl, by omega⟩
    · rw [e]
      obtain ⟨s1, s2⟩ := trialStep_spec b qhat pos Rc carry k hb h2 hq h3 (by omega)
      have hdm := Nat.mod_add_div (b.getD k 0 * qhat + carry) BASE
      have hX : b.getD k 0 * qhat * BASE ^ (pos + k) + carry * BASE ^ (pos + k)
          = (b.getD k 0 * qhat + carry) % BASE * BASE ^ (pos + k)
            + (b.getD k 0 * qhat + carry) / BASE * (BASE ^ (pos + k) * BASE) := by
        nth_rewrite 1 [← Nat.add_mul]
        nth_rewrite 1 [← hdm]
        ring
      rw [show pos + (k + 1) = pos + k + 1 from rfl, pow_succ]
      by_cases hfail : val Rc < (b.getD k 0 * qhat + carry) % BASE * BASE ^ (pos + k)
      · left
        refine ⟨s1 hfail, ?_⟩
        omega
      · right
        obtain ⟨Rc2, e1, e2, e3, e4⟩ := s2 (by omega)
        refine ⟨Rc2, _, e1, by omega, e3, ?_, ?_⟩
        · exact Nat.div_lt_of_lt_mul
            (prod_lt (b.getD k 0) qhat carry (Bounded_getD b k hb) hq h3)
        · omega

theorem trialSub_spec (b R : List Nat) (qhat pos : Nat) (hb : Bounded b) (hR : Bounded R)
    (hq : qhat < BASE) (hlen : pos + b.length ≤ R.length) :
    (val R < val b * qhat * BASE ^ pos → int2048.trialSub b qhat pos R = none) ∧
    (val b * qhat * BASE ^ pos ≤ val R → ∃ Rc, int2048.trialSub b qhat pos R = some Rc ∧
      Rc.length = R.length ∧ Bounded Rc ∧ val Rc + val b * qhat * BASE ^ pos = val R) := by
  unfold int2048.trialSub
  have hloop := trial_loop b R qhat pos hb hR hq hlen b.length (le_refl _)
  rw [List.take_length] at hloop
  rcases hloop with ⟨e, h⟩ | ⟨Rc, carry, e, h1, h2, h3, h4⟩
  · rw [e]
    refine ⟨fun _ => rfl, fun h5 => ?_⟩
    omega
  · rw [e]
    simp only []
    obtain ⟨s1, s2⟩ := carrySubLoop_spec Rc (pos + b.length) carry h2 h3
    constructor
    · intro h
      exact s1 (by omega)
    · intro h
      have hcond : carry * BASE ^ (pos + b.length) ≤ val Rc := by omega
      obtain ⟨Rc2, e1, e2, e3, e4⟩ := s2 hcond
      exact ⟨Rc2, e1, by omega, e3, by omega⟩

theorem qhatLoop_spec (b R Q : List Nat) (pos : Nat) (hb : Bounded b) (hR : Bounded R)
    (hlen : pos + b.length ≤ R.length) (qhat : Nat) (hq : qhat < BASE)
    (hge : val R < val b * (qhat + 1) * BASE ^ pos) :
    ∃ q R2, q ≤ qhat ∧ int2048.qhatLoop b pos R Q qhat = (R2, Q.set pos q) ∧
      R2.length = R.length ∧ Bounded R2 ∧
      val R2 + val b * q * BASE ^ pos = val R ∧ val R2 < val b * BASE ^ pos := by
  induction qhat with
  | zero =>
    obtain ⟨_, s2⟩ := trialSub_spec b R 0 pos hb hR hq hlen
    obtain ⟨Rc, e1, e2, e3, e4⟩ := s2 (by simp)
    refine ⟨0, Rc, le_refl _, ?_, e2, e3, e4, ?_⟩
    · unfold int2048.qhatLoop
      rw [e1]
      rfl
    · simp only [Nat.mul_zero, Nat.zero_mul, Nat.add_zero, Nat.zero_add, Nat.mul_one] at e4 hge
      omega
  | succ q ih =>
    obtain ⟨s1, s2⟩ := trialSub_spec b R (q + 1) pos hb hR hq hlen
    by_cases hfail : val R < val b * (q + 1) * BASE ^ pos
    · obtain ⟨q2, R2, h1, h2, h3⟩ := ih (by omega) hfail
      refine ⟨q2, R2, by omega, ?_, h3⟩
      unfold int2048.qhatLoop
      rw [s1 hfail]
      exact h2
    · obtain ⟨Rc, e1, e2, e3, e4⟩ := s2 (by omega)
      refine ⟨q + 1, Rc, le_refl _, ?_, e2, e3, e4, ?_⟩
      · unfold int2048.qhatLoop
        rw [e1]
        simp only []
        rw [u32_of_lt _ hq]
      · have h5 : val b * (q + 1 + 1) * BASE ^ pos
            = val b * (q + 1) * BASE ^ pos + val b * BASE ^ pos := by ring
        omega

/-! ## divmodTrunc: the quotient estimate and the loop over the positions -/

theorem getLast?_eq_getD (l : List Nat) (hne : l ≠ []) :
    l.getLast? = some (l.getD (l.length - 1) 0) := by
  rw [List.getLast?_eq_getElem?, List.getD_eq_getElem?_getD]
  have hlt : l.length - 1 < l.length := by
    have := List.length_pos.mpr hne
    omega
  rw [List.getElem?_eq_getElem hlt]
  rfl

theorem top_limb_pos (l : List Nat) (hne : l ≠ []) (hlast : l.getLast? ≠ some 0) :
    0 < l.getD (l.length - 1) 0 := by
  rw [getLast?_eq_getD l hne] at hlast
  by_contra h
  apply hlast
  have : l.getD (l.length - 1) 0 = 0 := by omega
  rw [this]

theorem val_eq_take_of_lt_pow (l : List Nat) (k : Nat) (h : val l < BASE ^ k) :
    val l = val (l.take k) := by
  have h1 := val_take_add_drop l k
  rcases Nat.eq_zero_or_pos (val (l.drop k)) with h0 | hpos
  · rw [h0, Nat.mul_zero, Nat.add_zero] at h1
    exact h1
  · exfalso
    have h2 : BASE ^ k * 1 ≤ BASE ^ k * val (l.drop k) := Nat.mul_le_mul_left _ hpos
    omega

theorem qhatEstimate_spec (b R : List Nat) (pos : Nat) (hb : Bounded b) (hR : Bounded R)
    (hne : b ≠ []) (hlast : b.getLast? ≠ some 0)
    (hinv : val R < val b * BASE ^ (pos + 1)) :
    int2048.qhatEstimate b R pos < BASE ∧
    val R < val b * (int2048.qhatEstimate b R pos + 1) * BASE ^ pos := by
  have hm : 1 ≤ b.length := List.length_pos.mpr hne
  have hv1 := top_limb_pos b hne hlast
  have hv1lt := Bounded_getD b (b.length - 1) hb
  have hhi := Bounded_getD R (pos + b.length) hR
  have hr2 := Bounded_getD R (pos + b.length - 1) hR
  have hbtop := getD_mul_pow_le b (b.length - 1)
  have hite : (if pos + b.length < R.length then R.getD (pos + b.length) 0 else 0)
      = R.getD (pos + b.length) 0 := by
    split
    · rfl
    · exact (getD_of_length_le R _ (by omega)).symm
  have hN : R.getD (pos + b.length) 0 * BASE + R.getD (pos + b.length - 1) 0 < BASE * BASE := by
    unfold BASE at hhi hr2 ⊢
    omega
  have hqlt : (R.getD (pos + b.length) 0 * BASE + R.getD (pos + b.length - 1) 0)
      / b.getD (b.length - 1) 0 < BASE * BASE :=
    Nat.lt_of_le_of_lt (Nat.div_le_self _ _) hN
  have hdef : int2048.qhatEstimate b R pos
      = if (R.getD (pos + b.length) 0 * BASE + R.getD (pos + b.length - 1) 0)
            / b.getD (b.length - 1) 0 ≥ BASE then BASE - 1
        else (R.getD (pos + b.length) 0 * BASE + R.getD (pos + b.length - 1) 0)
            / b.getD (b.length - 1) 0 := by
    simp only [int2048.qhatEstimate, hite,
      u64_of_lt _ (Nat.lt_of_lt_of_le hhi (Nat.le_mul_of_pos_left _ BASE_pos)),
      u64_of_lt _ (Nat.lt_of_lt_of_le hr2 (Nat.le_mul_of_pos_left _ BASE_pos)),
      u64_of_lt _ (Nat.lt_of_lt_of_le hv1lt (Nat.le_mul_of_pos_left _ BASE_pos)),
      u64_of_lt _ hqlt]
  rw [hdef]
  generalize hNe : R.getD (pos + b.length) 0 * BASE + R.getD (pos + b.length - 1) 0 = N
    at hN hqlt ⊢
  -- the remainder buffer has no limb above position `pos + m`
  have hblt := val_lt_pow b hb
  have hRlt : val R < BASE ^ (pos + b.length + 1) := by
    have h1 : val b * BASE ^ (pos + 1) ≤ BASE ^ b.length * BASE ^ (pos + 1) :=
      Nat.mul_le_mul_right _ (by omega)
    have h2 : BASE ^ b.length * BASE ^ (pos + 1) = BASE ^ (pos + b.length + 1) := by
      rw [← pow_add]
      congr 1
      omega
    omega
  have hRtake := val_eq_take_of_lt_pow R _ hRlt
  have ht1 := val_take_succ R (pos + b.length)
  have ht2 := val_take_succ R (pos + b.length - 1)
  have hidx : pos + b.length - 1 + 1 = pos + b.length := by omega
  rw [hidx] at ht2
  have ht3 := val_take_lt_pow R hR (pos + b.length - 1)
  have hpow : BASE ^ (pos + b.length) = BASE ^ (pos + b.length - 1) * BASE := by
    rw [← pow_succ, hidx]
  have hRN : val R < (N + 1) * BASE ^ (pos + b.length - 1) := by
    rw [← hNe]
    have : (R.getD (pos + b.length) 0 * BASE + R.getD (pos + b.length - 1) 0 + 1)
          * BASE ^ (pos + b.length - 1)
        = R.getD (pos + b.length) 0 * (BASE ^ (pos + b.length - 1) * BASE)
          + R.getD (pos + b.length - 1) 0 * BASE ^ (pos + b.length - 1)
          + BASE ^ (pos + b.length - 1) := by ring
    rw [hpow] at ht1
    omega
  have hsplit : BASE ^ (pos + b.length - 1) = BASE ^ (b.length - 1) * BASE ^ pos := by
    rw [← pow_add]
    congr 1
    omega
  by_cases hclamp : N / b.getD (b.length - 1) 0 ≥ BASE
  · rw [if_pos hclamp]
    refine ⟨by unfold BASE; omega, ?_⟩
    have : BASE - 1 + 1 = BASE := by unfold BASE; omega
    rw [this]
    rw [pow_succ] at hinv
    have : val b * BASE * BASE ^ pos = val b * (BASE ^ pos * BASE) := by ring
    omega
  · rw [if_neg hclamp]
    refine ⟨by omega, ?_⟩
    have h1 : N + 1 ≤ b.getD (b.length - 1) 0 * (N / b.getD (b.length - 1) 0 + 1) :=
      Nat.lt_mul_div_succ N hv1
    calc val R < (N + 1) * BASE ^ (pos + b.length - 1) := hRN
      _ ≤ b.getD (b.length - 1) 0 * (N / b.getD (b.length - 1) 0 + 1)
            * BASE ^ (pos + b.length - 1) := Nat.mul_le_mul_right _ h1
      _ = b.getD (b.length - 1) 0 * BASE ^ (b.length - 1)
            * ((N / b.getD (b.length - 1) 0 + 1) * BASE ^ pos) := by
          rw [hsplit]
          ring
      _ ≤ val b * ((N / b.getD (b.length - 1) 0 + 1) * BASE ^ pos) :=
          Nat.mul_le_mul_right _ hbtop
      _ = val b * (N / b.getD (b.length - 1) 0 + 1) * BASE ^ pos := by ring

theorem divPosLoop_spec (b : List Nat) (hb : Bounded b) (hne : b ≠ [])
    (hlast : b.getLast? ≠ some 0) (p : Nat) (st : List Nat × List Nat)
    (hR : Bounded st.1) (hQ : Bounded st.2) (hlen : p + b.length ≤ st.1.length)
    (hp : p ≤ st.2.length) (hinv : val st.1 < val b * BASE ^ p) :
    Bounded (int2048.divPosLoop b p st).1 ∧
    Bounded (int2048.divPosLoop b p st).2 ∧
    (int2048.divPosLoop b p st).2.length = st.2.length ∧
    val (int2048.divPosLoop b p st).1 < val b ∧
    (∀ j, p ≤ j → (int2048.divPosLoop b p st).2.getD j 0 = st.2.getD j 0) ∧
    val ((int2048.divPosLoop b p st).2.take p) * val b + val (int2048.divPosLoop b p st).1
      = val st.1 := by
  induction p generalizing st with
  | zero =>
    rw [pow_zero, Nat.mul_one] at hinv
    exact ⟨hR, hQ, rfl, hinv, fun _ _ => rfl, by simp [int2048.divPosLoop, val]⟩
  | succ p ih =>
    obtain ⟨q1, q2⟩ := qhatEstimate_spec b st.1 p hb hR hne hlast hinv
    obtain ⟨q, R2, e1, e2, e3, e4, e5, e6⟩ := qhatLoop_spec b st.1 st.2 p hb hR (by omega)
      (int2048.qhatEstimate b st.1 p) q1 q2
    unfold int2048.divPosLoop
    rw [e2]
    obtain ⟨h1, h2, h3, h4, h5, h6⟩ := ih (R2, st.2.set p q) e4
      (Bounded_set _ _ _ hQ (by omega)) (by simp only []; omega)
      (by simp only [List.length_set]; omega) e6
    simp only [List.length_set] at h3
    refine ⟨h1, h2, h3, h4, ?_, ?_⟩
    · intro j hj
      rw [h5 j (by omega)]
      exact getD_set_ne _ _ _ _ (by omega)
    · rw [val_take_succ, h5 p (le_refl _), getD_set_eq _ _ _ (by omega)]
      simp only [] at h6
      have : (val ((int2048.divPosLoop b p (R2, st.2.set p q)).2.take p) + q * BASE ^ p) * val b
          = val ((int2048.divPosLoop b p (R2, st.2.set p q)).2.take p) * val b
            + val b * q * BASE ^ p := by ring
      omega

/-! ## divmodTrunc -/

theorem trim_abs (A : int2048) (h : A.digits.getLast? ≠ some 0) :
    int2048.trim { A with negative := false } = { digits := A.digits, negative := false } := by
  simp only [int2048.trim]
  rw [trimLoop_of_last _ _ h]
  simp

theorem signed_trim_spec (d : List Nat) (hd : Bounded d) (n0 s : Bool) :
    Normalized { int2048.trim { digits := d, negative := n0 } with
      negative := if !(int2048.trim { digits := d, negative := n0 }).isZero then s else false } ∧
    val (int2048.trim { digits := d, negative := n0 }).digits = val d ∧
    ((int2048.trim { digits := d, negative := n0 }).digits ≠ [] →
      (if !(int2048.trim { digits := d, negative := n0 }).isZero then s else false) = s) := by
  have hn := trim_normalized { digits := d, negative := n0 } hd
  refine ⟨⟨hn.1, hn.2.1, ?_⟩, trim_val _, ?_⟩
  · intro h
    simp only [] at h ⊢
    rw [(isZero_iff _).mpr h]
    rfl
  · intro h
    rw [(isZero_false_iff _).mpr h]
    rfl

theorem val_of_length_one (l : List Nat) (h : l.length = 1) : val l = l.getD 0 0 := by
  match l, h with
  | [d], _ => simp [val]

theorem take_of_length_eq (l : List Nat) (n : Nat) (h : l.length = n) : l.take n = l := by
  rw [← h, List.take_length]

theorem divmodTrunc_spec (A B : int2048) (hA : Normalized A) (hB : Normalized B)
    (hB0 : B.digits ≠ []) :
    Normalized (int2048.divmodTrunc A B).1 ∧ Normalized (int2048.divmodTrunc A B).2 ∧
    val A.digits = val B.digits * val (int2048.divmodTrunc A B).1.digits
      + val (int2048.divmodTrunc A B).2.digits ∧
    val (int2048.divmodTrunc A B).2.digits < val B.digits ∧
    ((int2048.divmodTrunc A B).1.digits ≠ [] →
      (int2048.divmodTrunc A B).1.negative = (A.negative != B.negative)) ∧
    ((int2048.divmodTrunc A B).2.digits ≠ [] →
      (int2048.divmodTrunc A B).2.negative
        = if val A.digits < val B.digits then false else A.negative) := by
  have hbz : int2048.isZero { digits := B.digits, negative := false } = false :=
    (isZero_false_iff _).mpr hB0
  have hcmp := absCompare_spec { digits := A.digits, negative := false }
    { digits := B.digits, negative := false } hA.1 hB.1 hA.2.1 hB.2.1
  simp only [] at hcmp
  unfold int2048.divmodTrunc
  simp only [trim_abs A hA.2.1, trim_abs B hB.2.1, hbz, Bool.false_eq_true, if_false]
  rcases hcmp with ⟨hc, hv⟩ | hc
  · -- fast exit
    rw [hc]
    simp only [show ((-1 : Int) < 0) by omega, if_true]
    refine ⟨Normalized_zero, ⟨hA.1, hA.2.1, fun _ => rfl⟩, ?_, hv, ?_, ?_⟩
    · simp [val]
    · intro h
      exact absurd rfl h
    · intro _
      rw [if_pos hv]
  · have hge : val B.digits ≤ val A.digits := by
      rcases hc with h | h <;> omega
    have hnlt : ¬ (int2048.absCompare { digits := A.digits, negative := false }
        { digits := B.digits, negative := false } < 0) := by
      rcases hc with h | h <;> rw [h.1] <;> omega
    rw [if_neg hnlt]
    have hnv : ¬ (val A.digits < val B.digits) := by omega
    rw [if_neg hnv]
    have hlen := length_le_of_val_le B.digits A.digits hB.2.1 hA.1 hge
    by_cases h1 : B.digits.length = 1
    · -- single-limb divisor
      simp only [if_pos h1]
      have hd0 : 0 < B.digits.getD 0 0 := by
        have := top_limb_pos B.digits hB0 hB.2.1
        rw [h1] at this
        exact this
      have hdlt := Bounded_getD B.digits 0 hB.1
      have hu : u64 (B.digits.getD 0 0) = B.digits.getD 0 0 :=
        u64_of_lt _ (Nat.lt_of_lt_of_le hdlt (Nat.le_mul_of_pos_left _ BASE_pos))
      rw [hu]
      obtain ⟨g1, g2, g3, g4, g5⟩ := divSmallLoop_spec A.digits (B.digits.getD 0 0) hA.1 hd0
        hdlt A.digits.length (List.replicate A.digits.length 0, 0)
        (by simp) hd0 (Bounded_replicate_zero _)
      simp only [List.length_replicate, Nat.zero_mul, Nat.add_zero] at g1 g5
      rw [List.take_length, take_of_length_eq _ _ g1] at g5
      have hvB := val_of_length_one _ h1
      generalize int2048.divSmallLoop A.digits (B.digits.getD 0 0) A.digits.length
        (List.replicate A.digits.length 0, 0) = st at g1 g2 g3 g4 g5
      have hRd : Bounded (if st.2 ≠ 0 then [u32 st.2] else []) ∧
          val (if st.2 ≠ 0 then [u32 st.2] else []) = st.2 := by
        have hs : st.2 < BASE := by omega
        rw [u32_of_lt _ hs]
        split
        · refine ⟨?_, by simp [val]⟩
          intro d hd
          simp only [List.mem_singleton] at hd
          rw [hd]
          exact hs
        · refine ⟨Bounded_nil, ?_⟩
          simp only [val]
          omega
      obtain ⟨q1, q2, q3⟩ := signed_trim_spec st.1 g2 false (A.negative != B.negative)
      obtain ⟨r1, r2, r3⟩ := signed_trim_spec (if st.2 ≠ 0 then [u32 st.2] else []) hRd.1
        false A.negative
      refine ⟨q1, r1, ?_, ?_, q3, r3⟩
      · rw [q2, r2, hRd.2, hvB]
        exact g5
      · rw [r2, hRd.2, hvB]
        exact g3
    · -- multi-limb divisor
      simp only [if_neg h1]
      have hinv : val (A.digits ++ [0]) < val B.digits
          * BASE ^ (A.digits.length - B.digits.length + 1) := by
        rw [val_append]
        simp only [val, Nat.mul_zero, Nat.add_zero]
        have h2 := val_lt_pow A.digits hA.1
        have h3 := pow_le_val B.digits hB0 hB.2.1
        have h4 : BASE ^ (B.digits.length - 1) * BASE ^ (A.digits.length - B.digits.length + 1)
            ≤ val B.digits * BASE ^ (A.digits.length - B.digits.length + 1) :=
          Nat.mul_le_mul_right _ h3
        have h5 : BASE ^ (B.digits.length - 1)
            * BASE ^ (A.digits.length - B.digits.length + 1) = BASE ^ A.digits.length := by
          rw [← pow_add]
          congr 1
          have := List.length_pos.mpr hB0
          omega
        omega
      obtain ⟨g1, g2, g3, g4, g5, g6⟩ := divPosLoop_spec B.digits hB.1 hB0 hB.2.1
        (A.digits.length - B.digits.length + 1)
        (A.digits ++ [0], List.replicate (A.digits.length - B.digits.length + 1) 0)
        ((Bounded_append _ _).mpr ⟨hA.1, Bounded_replicate_zero 1⟩)
        (Bounded_replicate_zero _)
        (by simp only [List.length_append, List.length_singleton]; omega)
        (by simp) hinv
      simp only [List.length_replicate] at g3
      rw [take_of_length_eq _ _ g3] at g6
      have hva : val (A.digits ++ [0]) = val A.digits := by
        rw [val_append]
        simp [val]
      simp only [hva] at g6
      generalize int2048.divPosLoop B.digits (A.digits.length - B.digits.length + 1)
        (A.digits ++ [0], List.replicate (A.digits.length - B.digits.length + 1) 0)
        = st at g1 g2 g3 g4 g5 g6
      obtain ⟨q1, q2, q3⟩ := signed_trim_spec st.2 g2 false (A.negative != B.negative)
      obtain ⟨r1, r2, r3⟩ := signed_trim_spec st.1 g1 false A.negative
      refine ⟨q1, r1, ?_, ?_, q3, r3⟩
      · rw [q2, r2, Nat.mul_comm]
        exact g6.symm
      · rw [r2]
        exact g4

/-! ## operator/= and operator%= -/

theorem pushLimbs_one : int2048.pushLimbs 1 = [1] := by
  rw [int2048.pushLimbs, if_neg (by omega)]
  have h1 : (1 : Nat) / BASE = 0 := by unfold BASE; omega
  have h2 : u32 (1 % BASE) = 1 := by unfold u32 BASE; omega
  rw [h1, h2, int2048.pushLimbs, if_pos rfl]

theorem ofLongLong_one : int2048.ofLongLong 1 = { digits := [1], negative := false } := by
  have h : u64 (1 : Int).toNat = 1 := by unfold u64; simp
  simp only [int2048.ofLongLong, show ¬ ((1 : Int) = 0) by omega, show ¬ ((1 : Int) < 0) by omega,
    if_false, h, pushLimbs_one]

theorem floor_div_of_decomp (a b q r : ℤ) (h : a = b * q + r)
    (hr : (0 < b ∧ 0 ≤ r ∧ r < b) ∨ (b < 0 ∧ b < r ∧ r ≤ 0)) :
    ⌊(a : ℚ) / (b : ℚ)⌋ = q := by
  rw [Int.floor_eq_iff]
  rcases hr with ⟨hb, h0, h1⟩ | ⟨hb, h0, h1⟩
  · have hbq : (0 : ℚ) < (b : ℚ) := by exact_mod_cast hb
    rw [le_div_iff₀ hbq, div_lt_iff₀ hbq]
    constructor
    · have : q * b ≤ a := by rw [h]; nlinarith
      exact_mod_cast this
    · have : a < (q + 1) * b := by rw [h]; nlinarith
      exact_mod_cast this
  · have hbq : (b : ℚ) < 0 := by exact_mod_cast hb
    rw [le_div_iff_of_neg hbq, div_lt_iff_of_neg hbq]
    constructor
    · have : a ≤ q * b := by rw [h]; nlinarith
      exact_mod_cast this
    · have : (q + 1) * b < a := by rw [h]; nlinarith
      exact_mod_cast this

theorem floor_signs (va vb vq vr : ℕ) (h : va = vb * vq + vr) (hlt : vr < vb) (sa sb : Bool) :
    ⌊(((if sa = true then -(va : ℤ) else (va : ℤ)) : ℤ) : ℚ)
        / (((if sb = true then -(vb : ℤ) else (vb : ℤ)) : ℤ) : ℚ)⌋
      = (if (sa != sb) = true then -(vq : ℤ) else (vq : ℤ))
        - (if (sa != sb) = true ∧ vr ≠ 0 then 1 else 0) := by
  have hz : (va : ℤ) = (vb : ℤ) * (vq : ℤ) + (vr : ℤ) := by exact_mod_cast h
  have hl : (vr : ℤ) < (vb : ℤ) := by exact_mod_cast hlt
  have h0 : (0 : ℤ) ≤ (vr : ℤ) := Int.natCast_nonneg _
  cases sa <;> cases sb
  · simp only [Bool.false_eq_true, if_false, bne_self_eq_false, false_and, sub_zero]
    exact floor_div_of_decomp _ _ _ (vr : ℤ) hz (Or.inl ⟨by omega, h0, hl⟩)
  · simp only [Bool.false_eq_true, if_false, if_true, show (false != true) = true from rfl,
      true_and]
    by_cases hr : vr = 0
    · rw [if_neg (by simpa using hr)]
      apply floor_div_of_decomp _ _ _ 0
      · rw [hr] at hz
        rw [hz]
        push_cast
        ring
      · right
        exact ⟨by omega, by omega, le_refl _⟩
    · rw [if_pos hr]
      apply floor_div_of_decomp _ _ _ ((vr : ℤ) - (vb : ℤ))
      · rw [hz]
        ring
      · right
        have : (0 : ℤ) < (vr : ℤ) := by omega
        exact ⟨by omega, by omega, by omega⟩
  · simp only [Bool.false_eq_true, if_false, if_true, show (true != false) = true from rfl,
      true_and]
    by_cases hr : vr = 0
    · rw [if_neg (by simpa using hr)]
      apply floor_div_of_decomp _ _ _ 0
      · rw [hr] at hz
        rw [hz]
        push_cast
        ring
      · left
        exact ⟨by omega, le_refl _, by omega⟩
    · rw [if_pos hr]
      apply floor_div_of_decomp _ _ _ ((vb : ℤ) - (vr : ℤ))
      · rw [hz]
        ring
      · left
        have : (0 : ℤ) < (vr : ℤ) := by omega
        exact ⟨by omega, by omega, by omega⟩
  · simp only [if_true, bne_self_eq_false, Bool.false_eq_true, false_and, if_false, sub_zero]
    apply floor_div_of_decomp _ _ _ (-(vr : ℤ))
    · rw [hz]
      ring
    · right
      exact ⟨by omega, by omega, by omega⟩

theorem value_of_sign (x : int2048) (s : Bool) (hn : Normalized x)
    (h : x.digits ≠ [] → x.negative = s) :
    value x = if s = true then -(val x.digits : ℤ) else (val x.digits : ℤ) := by
  unfold value
  by_cases hd : x.digits = []
  · rw [hn.2.2 hd, hd]
    simp [val]
  · rw [h hd]

theorem div_spec (a b : int2048) (ha : Normalized a) (hb : Normalized b) (hb0 : b.digits ≠ []) :
    Normalized (int2048.div a b) ∧
    value (int2048.div a b) = ⌊((value a : ℤ) : ℚ) / ((value b : ℤ) : ℚ)⌋ := by
  unfold int2048.div
  rw [if_neg (by rw [(isZero_false_iff b).mpr hb0]; exact Bool.false_ne_true)]
  by_cases haz : a.isZero = true
  · rw [if_pos haz]
    refine ⟨Normalized_zero, ?_⟩
    rw [value_of_nil a ((isZero_iff a).mp haz)]
    simp [value, val]
  · rw [if_neg haz]
    obtain ⟨h1, h2, h3, h4, h5, h6⟩ := divmodTrunc_spec a b ha hb hb0
    have hvq := value_of_sign _ _ h1 h5
    have hfl := floor_signs _ _ _ _ h3 h4 a.negative b.negative
    have hva : value a = if a.negative = true then -(val a.digits : ℤ) else (val a.digits : ℤ) :=
      rfl
    have hvb : value b = if b.negative = true then -(val b.digits : ℤ) else (val b.digits : ℤ) :=
      rfl
    rw [hva, hvb, hfl, ← hvq]
    have hrz : (int2048.divmodTrunc a b).2.isZero = true
        ↔ val (int2048.divmodTrunc a b).2.digits = 0 := by
      rw [isZero_iff, val_eq_zero_iff _ h2.2.1]
    simp only []
    by_cases hcond : ((a.negative != b.negative) && !(int2048.divmodTrunc a b).2.isZero) = true
    · rw [if_pos hcond]
      rw [Bool.and_eq_true] at hcond
      have hnz : val (int2048.divmodTrunc a b).2.digits ≠ 0 := by
        intro h0
        have := hrz.mpr h0
        rw [this] at hcond
        exact Bool.false_ne_true hcond.2
      rw [if_pos ⟨hcond.1, hnz⟩]
      have hone : Normalized (int2048.ofLongLong 1) := by
        rw [ofLongLong_one]
        decide
      obtain ⟨m1, m2⟩ := minus_spec _ _ h1 hone
      refine ⟨m1, ?_⟩
      rw [m2, ofLongLong_one]
      simp [value, val]
    · rw [if_neg hcond]
      refine ⟨h1, ?_⟩
      have : ¬ ((a.negative != b.negative) = true
          ∧ val (int2048.divmodTrunc a b).2.digits ≠ 0) := by
        rintro ⟨c1, c2⟩
        apply hcond
        rw [Bool.and_eq_true]
        refine ⟨c1, ?_⟩
        cases hz : (int2048.divmodTrunc a b).2.isZero
        · rfl
        · exact absurd (hrz.mp hz) c2
      rw [if_neg this]
      simp

/-! ## read: groups with a character that is not a digit -/

theorem parseGroupLoop_of_bad (s : List Char) (n k x t : Nat) (ht : t < n)
    (hbad : s.getD (k + t) default < '0' ∨ s.getD (k + t) default > '9') :
    int2048.parseGroupLoop s n k x = 0 := by
  induction n generalizing k x t with
  | zero => omega
  | succ n ih =>
    unfold int2048.parseGroupLoop
    by_cases hk : s.getD k default < '0' ∨ s.getD k default > '9'
    · rw [if_pos hk]
    · rw [if_neg hk]
      cases t with
      | zero => exact absurd hbad hk
      | succ t =>
        apply ih (k + 1) _ t (by omega)
        rw [show k + 1 + t = k + (t + 1) by omega]
        exact hbad

theorem parseGroup_of_bad (s : List Char) (start j k : Nat) (h1 : start ≤ k) (h2 : k < j)
    (hbad : s.getD k default < '0' ∨ s.getD k default > '9') :
    int2048.parseGroup s start j = 0 := by
  unfold int2048.parseGroup
  apply parseGroupLoop_of_bad s (j - start) start 0 (k - start) (by omega)
  rw [show start + (k - start) = k by omega]
  exact hbad

/-! ## Decimal digits: printing and reading -/

theorem isDigit_toNat (c : Char) (h : IsDigit c) : 48 ≤ c.toNat ∧ c.toNat ≤ 57 := by
  obtain ⟨h1, h2⟩ := h
  rw [Char.le_def] at h1 h2
  exact ⟨h1, h2⟩

theorem digitChar_sub (c : Char) (h : IsDigit c) : Nat.digitChar (c.toNat - 48) = c := by
  obtain ⟨h1, h2⟩ := isDigit_toNat c h
  have hc : c = Char.ofNat c.toNat := (Char.ofNat_toNat c).symm
  generalize c.toNat = n at h1 h2 hc
  subst hc
  interval_cases n <;> rfl

theorem isDigit_iff_not_bad (c : Char) : IsDigit c ↔ ¬ (c < '0' ∨ c > '9') := by
  unfold IsDigit
  rw [not_or, not_lt, gt_iff_lt, not_lt]

theorem toNat_sub_of_ne_zero (c : Char) (h : IsDigit c) (h0 : c ≠ '0') : 1 ≤ c.toNat - 48 := by
  obtain ⟨h1, h2⟩ := isDigit_toNat c h
  by_contra hlt
  apply h0
  have h48 : c.toNat = 48 := by omega
  rw [← Char.ofNat_toNat c, h48]

theorem decVal_nil : decVal [] = 0 := rfl

theorem decVal_append_singleton (cs : List Char) (c : Char) :
    decVal (cs ++ [c]) = decVal cs * 10 + (c.toNat - 48) := by
  unfold decVal
  rw [List.foldl_append]
  rfl

theorem le_foldl_decStep (cs : List Char) (x : Nat) : x ≤ cs.foldl decStep x := by
  induction cs generalizing x with
  | nil => exact le_refl _
  | cons c cs ih =>
    rw [List.foldl_cons]
    have := ih (decStep x c)
    unfold decStep at this ⊢
    omega

theorem foldl_decStep_lt (cs : List Char) (hd : ∀ c ∈ cs, IsDigit c) (x : Nat) :
    cs.foldl decStep x < (x + 1) * 10 ^ cs.length := by
  induction cs generalizing x with
  | nil => simp
  | cons c cs ih =>
    rw [List.foldl_cons, List.length_cons, pow_succ]
    have h1 := ih (fun d hd2 => hd d (List.mem_cons_of_mem _ hd2)) (decStep x c)
    obtain ⟨_, h3⟩ := isDigit_toNat c (hd c (List.mem_cons_self _ _))
    have h4 : decStep x c + 1 ≤ (x + 1) * 10 := by
      unfold decStep
      omega
    calc cs.foldl decStep (decStep x c) < (decStep x c + 1) * 10 ^ cs.length := h1
      _ ≤ (x + 1) * 10 * 10 ^ cs.length := Nat.mul_le_mul_right _ h4
      _ = (x + 1) * (10 ^ cs.length * 10) := by ring

theorem decVal_lt (cs : List Char) (hd : ∀ c ∈ cs, IsDigit c) : decVal cs < 10 ^ cs.length := by
  have := foldl_decStep_lt cs hd 0
  simpa using this

theorem decVal_pos (cs : List Char) (hd : ∀ c ∈ cs, IsDigit c) (hne : cs ≠ [])
    (hlead : cs.head? ≠ some '0') : 0 < decVal cs := by
  match cs, hne with
  | c :: rest, _ =>
    have hc : c ≠ '0' := by
      intro h
      apply hlead
      rw [h]
      rfl
    have h1 := toNat_sub_of_ne_zero c (hd c (List.mem_cons_self _ _)) hc
    have h2 := le_foldl_decStep rest (decStep 0 c)
    unfold decVal
    rw [List.foldl_cons]
    unfold decStep at h2 ⊢
    omega

theorem decVal_replicate_zero_append (k : Nat) (cs : List Char) :
    decVal (List.replicate k '0' ++ cs) = decVal cs := by
  induction k with
  | zero => simp
  | succ k ih =>
    rw [List.replicate_succ, List.cons_append]
    unfold decVal at ih ⊢
    rw [List.foldl_cons]
    exact ih

theorem toDigitsCore_decVal (cs : List Char) (hd : ∀ c ∈ cs, IsDigit c) (hne : cs ≠ [])
    (hlead : cs.length ≠ 1 → cs.head? ≠ some '0') (fuel : Nat) (acc : List Char)
    (hfuel : decVal cs < fuel) :
    Nat.toDigitsCore 10 fuel (decVal cs) acc = cs ++ acc := by
  induction cs using List.reverseRecOn generalizing fuel acc with
  | nil => exact absurd rfl hne
  | append_singleton init c ih =>
    have hc := hd c (by simp)
    obtain ⟨c1, c2⟩ := isDigit_toNat c hc
    rw [decVal_append_singleton] at hfuel ⊢
    cases fuel with
    | zero => omega
    | succ f =>
      unfold Nat.toDigitsCore
      have hmod : (decVal init * 10 + (c.toNat - 48)) % 10 = c.toNat - 48 := by omega
      have hdiv : (decVal init * 10 + (c.toNat - 48)) / 10 = decVal init := by omega
      simp only [hmod, hdiv, digitChar_sub c hc]
      by_cases hinit : init = []
      · rw [hinit]
        simp [decVal]
      · have hdi : ∀ d ∈ init, IsDigit d := fun d h => hd d (by simp [h])
        have hhead : init.head? ≠ some '0' := by
          have h1 := hlead (by
            have := List.length_pos.mpr hinit
            simp only [List.length_append, List.length_singleton]
            omega)
          intro h2
          apply h1
          rw [List.head?_append_of_ne_nil _ hinit]
          exact h2
        have hpos := decVal_pos init hdi hinit hhead
        rw [if_neg (by omega)]
        rw [ih hdi hinit (fun _ => hhead) f (c :: acc) (by omega)]
        simp

theorem toDigits_decVal (cs : List Char) (hd : ∀ c ∈ cs, IsDigit c) (hne : cs ≠ [])
    (hlead : cs.length ≠ 1 → cs.head? ≠ some '0') : Nat.toDigits 10 (decVal cs) = cs := by
  unfold Nat.toDigits
  rw [toDigitsCore_decVal cs hd hne hlead _ [] (by omega)]
  simp


theorem toDigits_length_le_of_padDec (w x : Nat) (t : List Char) (h : int2048.padDec w x = t)
    (ht : t.length = w) : (Nat.toDigits 10 x).length ≤ w := by
  have h1 : (int2048.padDec w x).length = w := by rw [h, ht]
  unfold int2048.padDec at h1
  rw [List.length_append, List.length_replicate] at h1
  omega

theorem padDec_decVal (cs : List Char) (hd : ∀ c ∈ cs, IsDigit c) (hne : cs ≠ []) :
    int2048.padDec cs.length (decVal cs) = cs := by
  induction cs with
  | nil => exact absurd rfl hne
  | cons c t ih =>
    by_cases hL1 : (c :: t).length ≠ 1 → (c :: t).head? ≠ some '0'
    · unfold int2048.padDec
      rw [toDigits_decVal _ hd hne hL1]
      simp
    · rw [Classical.not_imp, not_not] at hL1
      obtain ⟨hlen, hhead⟩ := hL1
      have hc : c = '0' := by
        simp only [List.head?_cons, Option.some.injEq] at hhead
        exact hhead
      have htne : t ≠ [] := by
        intro h0
        apply hlen
        rw [h0]
        rfl
      have hdt : ∀ d ∈ t, IsDigit d := fun d h => hd d (List.mem_cons_of_mem _ h)
      have ih2 := ih hdt htne
      have hv : decVal (c :: t) = decVal t := by
        rw [hc]
        exact decVal_replicate_zero_append 1 t
      have hle := toDigits_length_le_of_padDec _ _ _ ih2 rfl
      rw [hv, List.length_cons]
      unfold int2048.padDec at ih2 ⊢
      have hk : t.length + 1 - (Nat.toDigits 10 (decVal t)).length
          = (t.length - (Nat.toDigits 10 (decVal t)).length) + 1 := by omega
      rw [hk, List.replicate_succ, List.cons_append, ih2, hc]

theorem drop_eq_getD_cons (s : List Char) (k : Nat) (hk : k < s.length) :
    s.drop k = s.getD k default :: s.drop (k + 1) := by
  rw [List.drop_eq_getElem_cons hk, List.getD_eq_getElem _ _ hk]

theorem getD_mem_drop (s : List Char) (i idx : Nat) (h1 : i ≤ idx) (h2 : idx < s.length) :
    s.getD idx default ∈ s.drop i := by
  rw [List.getD_eq_getElem _ _ h2]
  have h3 : idx - i < (s.drop i).length := by
    rw [List.length_drop]
    omega
  have h4 : (s.drop i)[idx - i] = s[idx] := by
    rw [List.getElem_drop]
    congr 1
    omega
  rw [← h4]
  exact List.getElem_mem _

theorem parseGroupLoop_eq (s : List Char) (n k x m : Nat) (hrange : k + n ≤ s.length)
    (hd : ∀ t, t < n → IsDigit (s.getD (k + t) default)) (hx : x < 10 ^ m) (hm : m + n ≤ 9) :
    int2048.parseGroupLoop s n k x = ((s.drop k).take n).foldl decStep x := by
  induction n generalizing k x m with
  | zero => simp [int2048.parseGroupLoop]
  | succ n ih =>
    have hk := hd 0 (by omega)
    rw [Nat.add_zero] at hk
    obtain ⟨c1, c2⟩ := isDigit_toNat _ hk
    unfold int2048.parseGroupLoop
    rw [if_neg ((isDigit_iff_not_bad _).mp hk)]
    rw [drop_eq_getD_cons s k (by omega), List.take_succ_cons, List.foldl_cons]
    have hpow : 10 ^ m ≤ 10 ^ 8 := Nat.pow_le_pow_right (by omega) (by omega)
    have hx8 : x < 100000000 := by
      have : (10 : Nat) ^ 8 = 100000000 := by norm_num
      omega
    have hu : u32 (u32 (x * 10) + u32 ((s.getD k default).toNat - 48))
        = decStep x (s.getD k default) := by
      unfold u32 decStep
      omega
    rw [hu]
    apply ih (k + 1) (decStep x (s.getD k default)) (m + 1) (by omega)
    · intro t ht
      rw [show k + 1 + t = k + (t + 1) by omega]
      exact hd (t + 1) (by omega)
    · rw [pow_succ]
      unfold decStep
      omega
    · omega

theorem parseGroup_eq (s : List Char) (start j : Nat) (hj : j ≤ s.length) (hsj : start ≤ j)
    (hlen : j - start ≤ 9) (hd : ∀ c ∈ s.drop start, IsDigit c) :
    int2048.parseGroup s start j = decVal ((s.drop start).take (j - start)) := by
  unfold int2048.parseGroup decVal
  apply parseGroupLoop_eq s (j - start) start 0 0 (by omega)
  · intro t ht
    exact hd _ (getD_mem_drop s start (start + t) (by omega) (by omega))
  · simp
  · omega

theorem skipLoop_eq (s : List Char) (p : Char → Bool) (fuel i : Nat) (h : s.length ≤ fuel + i) :
    int2048.skipLoop s p fuel i = i + ((s.drop i).takeWhile p).length := by
  induction fuel generalizing i with
  | zero =>
    rw [List.drop_of_length_le (by omega)]
    rfl
  | succ fuel ih =>
    unfold int2048.skipLoop
    by_cases hc : i < s.length ∧ p (s.getD i default) = true
    · rw [if_pos hc, ih (i + 1) (by omega), drop_eq_getD_cons s i hc.1,
        List.takeWhile_cons_of_pos hc.2, List.length_cons]
      omega
    · rw [if_neg hc]
      by_cases hi : i < s.length
      · have hp : ¬ (p (s.getD i default) = true) := fun h2 => hc ⟨hi, h2⟩
        rw [drop_eq_getD_cons s i hi, List.takeWhile_cons_of_neg hp]
        rfl
      · rw [List.drop_of_length_le (by omega)]
        rfl

theorem drop_takeWhile_length (l : List Char) (p : Char → Bool) :
    l.drop (l.takeWhile p).length = l.dropWhile p := by
  induction l with
  | nil => rfl
  | cons c t ih =>
    by_cases hc : p c = true
    · rw [List.takeWhile_cons_of_pos hc, List.dropWhile_cons_of_pos hc, List.length_cons,
        List.drop_succ_cons, ih]
    · rw [List.takeWhile_cons_of_neg hc, List.dropWhile_cons_of_neg hc]
      rfl

theorem head?_dropWhile_isZeroChar (l : List Char) :
    (l.dropWhile int2048.isZeroChar).head? ≠ some '0' := by
  induction l with
  | nil => simp
  | cons c t ih =>
    by_cases hc : int2048.isZeroChar c = true
    · rw [List.dropWhile_cons_of_pos hc]
      exact ih
    · rw [List.dropWhile_cons_of_neg hc]
      intro h
      apply hc
      simp only [List.head?_cons, Option.some.injEq] at h
      rw [h]
      rfl

theorem printTail_append (l : List Nat) (x : Nat) (k : Nat) (hk : k ≤ l.length) :
    int2048.printTail (l ++ [x]) k = int2048.printTail l k := by
  induction k with
  | zero => rfl
  | succ k ih =>
    unfold int2048.printTail
    rw [ih (by omega), List.getD_append _ _ _ _ (by omega)]

theorem getD_append_length (l : List Nat) (x : Nat) : (l ++ [x]).getD l.length 0 = x := by
  induction l with
  | nil => rfl
  | cons d ds ih => simp

theorem readGroups_spec (s : List Char) (i : Nat) (hdig : ∀ c ∈ s.drop i, IsDigit c)
    (hlead : (s.drop i).head? ≠ some '0') (fuel j : Nat) (parts : List Nat)
    (hij : i < j) (hj : j ≤ s.length) (hfuel : j ≤ fuel) (hb : Bounded parts)
    (hinv : int2048.printTail parts parts.length = s.drop j) :
    ∃ rest top, int2048.readGroups s i fuel j parts = rest ++ [top] ∧ Bounded rest ∧
      top < BASE ∧ top ≠ 0 ∧
      Nat.toDigits 10 top ++ int2048.printTail rest rest.length = s.drop i := by
  induction fuel generalizing j parts with
  | zero => omega
  | succ fuel ih =>
    unfold int2048.readGroups
    rw [if_pos hij]
    simp only []
    by_cases hlast : j ≤ i + 9
    · -- the most significant group
      have hstart : (if (if j ≥ BASE_DIGS then j - BASE_DIGS else 0) < i then i
          else (if j ≥ BASE_DIGS then j - BASE_DIGS else 0)) = i := by
        unfold BASE_DIGS
        split_ifs <;> omega
      rw [hstart, if_pos rfl]
      have hcs_len : ((s.drop i).take (j - i)).length = j - i := by
        rw [List.length_take, List.length_drop]
        omega
      have hcs_ne : (s.drop i).take (j - i) ≠ [] := by
        intro h0
        rw [h0] at hcs_len
        simp only [List.length_nil] at hcs_len
        omega
      have hcs_dig : ∀ c ∈ (s.drop i).take (j - i), IsDigit c :=
        fun c hc => hdig c (List.mem_of_mem_take hc)
      have hcs_head : ((s.drop i).take (j - i)).head? ≠ some '0' := by
        have hdne : s.drop i ≠ [] := by
          intro h0
          rw [h0] at hcs_ne
          exact hcs_ne (List.take_nil)
        match hsd : s.drop i, hdne with
        | c :: t, _ =>
          rw [hsd] at hlead
          have : j - i = (j - i - 1) + 1 := by omega
          rw [this, List.take_succ_cons]
          exact hlead
      rw [parseGroup_eq s i j hj (by omega) (by omega) hdig]
      refine ⟨parts, _, rfl, hb, ?_, ?_, ?_⟩
      · have h1 := decVal_lt _ hcs_dig
        have h2 : 10 ^ ((s.drop i).take (j - i)).length ≤ 10 ^ 9 :=
          Nat.pow_le_pow_right (by omega) (by omega)
        have h3 : (10 : Nat) ^ 9 = BASE := by unfold BASE; norm_num
        omega
      · have := decVal_pos _ hcs_dig hcs_ne hcs_head
        omega
      · rw [toDigits_decVal _ hcs_dig hcs_ne (fun _ => hcs_head), hinv]
        have hdd : s.drop j = (s.drop i).drop (j - i) := by
          rw [List.drop_drop]
          congr 1
          omega
        rw [hdd, List.take_append_drop]
    · -- a full group of nine digits
      have hstart : (if (if j ≥ BASE_DIGS then j - BASE_DIGS else 0) < i then i
          else (if j ≥ BASE_DIGS then j - BASE_DIGS else 0)) = j - 9 := by
        unfold BASE_DIGS
        split_ifs <;> omega
      rw [hstart, if_neg (by omega)]
      have hdig9 : ∀ c ∈ s.drop (j - 9), IsDigit c := by
        intro c hc
        apply hdig c
        have hdd : s.drop (j - 9) = (s.drop i).drop (j - 9 - i) := by
          rw [List.drop_drop]
          congr 1
          omega
        rw [hdd] at hc
        exact List.mem_of_mem_drop hc
      have hcs_len : ((s.drop (j - 9)).take 9).length = 9 := by
        rw [List.length_take, List.length_drop]
        omega
      have hcs_ne : (s.drop (j - 9)).take 9 ≠ [] := by
        intro h0
        rw [h0] at hcs_len
        simp at hcs_len
      have hcs_dig : ∀ c ∈ (s.drop (j - 9)).take 9, IsDigit c :=
        fun c hc => hdig9 c (List.mem_of_mem_take hc)
      have hpg := parseGroup_eq s (j - 9) j hj (by omega) (by omega) hdig9
      rw [show j - (j - 9) = 9 by omega] at hpg
      rw [hpg]
      have hx : decVal ((s.drop (j - 9)).take 9) < BASE := by
        have h1 := decVal_lt _ hcs_dig
        rw [hcs_len] at h1
        have h3 : (10 : Nat) ^ 9 = BASE := by unfold BASE; norm_num
        omega
      apply ih (j - 9) (parts ++ [decVal ((s.drop (j - 9)).take 9)]) (by omega) (by omega)
        (by omega)
      · refine (Bounded_append _ _).mpr ⟨hb, ?_⟩
        intro d hd
        simp only [List.mem_singleton] at hd
        rw [hd]
        exact hx
      · rw [List.length_append, List.length_singleton]
        unfold int2048.printTail
        rw [getD_append_length, printTail_append _ _ _ (le_refl _), hinv]
        have hp := padDec_decVal _ hcs_dig hcs_ne
        rw [hcs_len] at hp
        unfold BASE_DIGS
        rw [hp]
        have hdd : s.drop j = (s.drop (j - 9)).drop 9 := by
          rw [List.drop_drop]
          congr 1
          omega
        rw [hdd, List.take_append_drop]

theorem readGroups_of_le (s : List Char) (i fuel j : Nat) (parts : List Nat) (h : j ≤ i) :
    int2048.readGroups s i fuel j parts = parts := by
  cases fuel with
  | zero => rfl
  | succ fuel =>
    unfold int2048.readGroups
    rw [if_neg (by omega)]

theorem length_takeWhile_le (l : List Char) (p : Char → Bool) :
    (l.takeWhile p).length ≤ l.length := by
  induction l with
  | nil => exact le_refl _
  | cons c t ih =>
    by_cases hc : p c = true
    · rw [List.takeWhile_cons_of_pos hc, List.length_cons, List.length_cons]
      omega
    · rw [List.takeWhile_cons_of_neg hc]
      exact Nat.zero_le _

theorem mem_of_mem_dropWhile (l : List Char) (p : Char → Bool) (d : Char)
    (h : d ∈ l.dropWhile p) : d ∈ l := by
  induction l with
  | nil => exact h
  | cons c t ih =>
    by_cases hc : p c = true
    · rw [List.dropWhile_cons_of_pos hc] at h
      exact List.mem_cons_of_mem _ (ih h)
    · rw [List.dropWhile_cons_of_neg hc] at h
      exact h

theorem read_core (s : List Char) (i : Nat) (neg : Bool) (hi : i ≤ s.length)
    (hdig : ∀ c ∈ s.drop i, IsDigit c) (hlead : (s.drop i).head? ≠ some '0') :
    int2048.format
      (if (!(int2048.trim ⟨int2048.readGroups s i s.length s.length [], false⟩).digits.isEmpty)
          = true
        then ⟨(int2048.trim ⟨int2048.readGroups s i s.length s.length [], false⟩).digits, neg⟩
        else int2048.trim ⟨int2048.readGroups s i s.length s.length [], false⟩)
      = if (s.drop i).isEmpty = true then ['0']
        else (if neg = true then ['-'] else []) ++ s.drop i := by
  by_cases hemp : s.drop i = []
  · have hge : s.length ≤ i := by
      have := congrArg List.length hemp
      rw [List.length_drop, List.length_nil] at this
      omega
    rw [readGroups_of_le s i _ _ _ hge, hemp]
    rfl
  · have hlt : i < s.length := by
      by_contra hge
      exact hemp (List.drop_of_length_le (by omega))
    obtain ⟨rest, top, e1, e2, e3, e4, e5⟩ := readGroups_spec s i hdig hlead s.length s.length []
      hlt (le_refl _) (le_refl _) Bounded_nil (by rw [List.drop_length]; rfl)
    rw [e1]
    have hne : rest ++ [top] ≠ [] := by simp
    have hnorm : Normalized { digits := rest ++ [top], negative := false } := by
      refine ⟨?_, ?_, fun h => absurd h hne⟩
      · refine (Bounded_append _ _).mpr ⟨e2, ?_⟩
        intro d hd
        simp only [List.mem_singleton] at hd
        rw [hd]
        exact e3
      · simpa using e4
    rw [trim_of_normalized _ hnorm]
    have hie : (rest ++ [top]).isEmpty = false := by
      cases hr : rest ++ [top] with
      | nil => exact absurd hr hne
      | cons a b => rfl
    have hse : (s.drop i).isEmpty = false := by
      cases hr : s.drop i with
      | nil => exact absurd hr hemp
      | cons a b => rfl
    simp only [hie, hse, Bool.not_false, if_true, Bool.false_eq_true, if_false]
    unfold int2048.format
    simp only [hie, Bool.false_eq_true, if_false, List.length_append, List.length_singleton,
      Nat.add_sub_cancel]
    rw [getD_append_length, printTail_append _ _ _ (le_refl _), List.append_assoc, e5]

theorem isSpaceChar_of_isDigit (c : Char) (h : IsDigit c) : int2048.isSpaceChar c = false := by
  obtain ⟨h1, h2⟩ := isDigit_toNat c h
  cases hs : int2048.isSpaceChar c with
  | false => rfl
  | true =>
    exfalso
    simp only [int2048.isSpaceChar, Bool.or_eq_true, decide_eq_true_eq] at hs
    rcases hs with ((hs | hs) | hs) | hs <;> rw [hs] at h1 <;> revert h1 <;> decide

theorem not_sign_of_isDigit (c : Char) (h : IsDigit c) : c ≠ '+' ∧ c ≠ '-' := by
  obtain ⟨h1, h2⟩ := isDigit_toNat c h
  constructor <;> intro hs <;> rw [hs] at h1 <;> revert h1 <;> decide

theorem format_read (s : List Char) (hv : ValidDecimal s) :
    int2048.format (int2048.read s) = canonicalForm s := by
  obtain ⟨hbne, hbdig⟩ := hv
  cases s with
  | nil => simp at hbne
  | cons c t =>
    simp only [List.head?_cons, Option.some.injEq, List.tail_cons] at hbne hbdig
    have hdz := drop_takeWhile_length
    by_cases hsign : c = '-' ∨ c = '+'
    · rw [if_pos hsign] at hbne hbdig
      have hsp : int2048.isSpaceChar c = false := by
        rcases hsign with h | h <;> rw [h] <;> rfl
      have hi0 : int2048.skipLoop (c :: t) int2048.isSpaceChar (c :: t).length 0 = 0 := by
        rw [skipLoop_eq _ _ _ _ (by omega), List.drop_zero,
          List.takeWhile_cons_of_neg (by rw [hsp]; exact Bool.false_ne_true)]
        rfl
      have hi : int2048.skipLoop (c :: t) int2048.isZeroChar (c :: t).length 1
          = 1 + (t.takeWhile int2048.isZeroChar).length := by
        rw [skipLoop_eq _ _ _ _ (by omega)]
        rfl
      have hdrop : (c :: t).drop (1 + (t.takeWhile int2048.isZeroChar).length)
          = t.dropWhile int2048.isZeroChar := by
        rw [Nat.add_comm, List.drop_succ_cons, hdz]
      have hsg : (decide (0 < (c :: t).length) && (decide (c = '+') || decide (c = '-')))
          = true := by
        rcases hsign with h | h <;> rw [h] <;> simp
      have hcore := read_core (c :: t) (1 + (t.takeWhile int2048.isZeroChar).length)
        (decide (c = '-'))
        (by
          have := length_takeWhile_le t int2048.isZeroChar
          simp only [List.length_cons]
          omega)
        (by
          rw [hdrop]
          intro d hd
          exact hbdig d (mem_of_mem_dropWhile _ _ d hd))
        (by
          rw [hdrop]
          exact head?_dropWhile_isZeroChar t)
      rw [hdrop] at hcore
      unfold int2048.read canonicalForm
      simp only [hi0, List.getD_cons_zero, hsg, if_true, Bool.true_and, Nat.zero_add, hi,
        List.head?_cons, Option.some.injEq, if_pos hsign, List.tail_cons]
      rw [hcore]
    · rw [if_neg hsign] at hbne hbdig
      have hcd : IsDigit c := hbdig c (List.mem_cons_self _ _)
      have hsp := isSpaceChar_of_isDigit c hcd
      have hi0 : int2048.skipLoop (c :: t) int2048.isSpaceChar (c :: t).length 0 = 0 := by
        rw [skipLoop_eq _ _ _ _ (by omega), List.drop_zero,
          List.takeWhile_cons_of_neg (by rw [hsp]; exact Bool.false_ne_true)]
        rfl
      have hi : int2048.skipLoop (c :: t) int2048.isZeroChar (c :: t).length 0
          = ((c :: t).takeWhile int2048.isZeroChar).length := by
        rw [skipLoop_eq _ _ _ _ (by omega), List.drop_zero, Nat.zero_add]
      have hsg : (decide (0 < (c :: t).length) && (decide (c = '+') || decide (c = '-')))
          = false := by
        rw [not_or] at hsign
        have h1 : ¬ (c = '+') := hsign.2
        have h2 : ¬ (c = '-') := hsign.1
        simp only [decide_eq_false h1, decide_eq_false h2, Bool.or_false, Bool.and_false]
      have hcore := read_core (c :: t) ((c :: t).takeWhile int2048.isZeroChar).length false
        (length_takeWhile_le _ _)
        (by
          rw [hdz]
          intro d hd
          exact hbdig d (mem_of_mem_dropWhile _ _ d hd))
        (by
          rw [hdz]
          exact head?_dropWhile_isZeroChar _)
      rw [hdz] at hcore
      have hneg : ¬ (c = '-') := fun h => hsign (Or.inl h)
      unfold int2048.read canonicalForm
      simp only [hi0, List.getD_cons_zero, hsg, Bool.false_eq_true, if_false, Bool.false_and, hi,
        List.head?_cons, Option.some.injEq, if_neg hsign]
      rw [hcore, decide_eq_false hneg]


theorem canonicalForm_examples :
    canonicalForm ['0', '0', '0', '1', '2', '3'] = ['1', '2', '3'] ∧
    canonicalForm ['-', '0', '0', '0'] = ['0'] ∧
    canonicalForm ['+', '0', '7'] = ['7'] ∧
    canonicalForm ['-', '0', '4', '0'] = ['-', '4', '0'] := by
  decide

/-! ## The constructor from `long long` -/

theorem pushLimbs_zero : int2048.pushLimbs 0 = [] := by
  rw [int2048.pushLimbs, if_pos rfl]

theorem pushLimbs_of_pos (u : Nat) (hu : u ≠ 0) :
    int2048.pushLimbs u = u % BASE :: int2048.pushLimbs (u / BASE) := by
  rw [int2048.pushLimbs, if_neg hu, u32_of_lt _ (Nat.mod_lt _ BASE_pos)]

theorem pushLimbs_spec (u : Nat) :
    Bounded (int2048.pushLimbs u) ∧ val (int2048.pushLimbs u) = u ∧
    (int2048.pushLimbs u).getLast? ≠ some 0 ∧ int2048.pushLimbs u = Nat.digits BASE u := by
  induction u using int2048.pushLimbs.induct with
  | case1 =>
    rw [pushLimbs_zero]
    exact ⟨Bounded_nil, rfl, by simp, by simp⟩
  | case2 x hx ih =>
    obtain ⟨h1, h2, h3, h4⟩ := ih
    rw [pushLimbs_of_pos x hx]
    refine ⟨(Bounded_cons _ _).mpr ⟨Nat.mod_lt _ BASE_pos, h1⟩, ?_, ?_, ?_⟩
    · rw [val_cons, h2]
      exact Nat.mod_add_div x BASE
    · cases hp : int2048.pushLimbs (x / BASE) with
      | nil =>
        rw [hp] at h2
        have hdiv : x / BASE = 0 := by
          rw [← h2]
          rfl
        have hlt : x < BASE := by
          by_contra hge
          have := Nat.div_pos (Nat.le_of_not_lt hge) BASE_pos
          omega
        simp only [List.getLast?_singleton, ne_eq, Option.some.injEq]
        rw [Nat.mod_eq_of_lt hlt]
        exact hx
      | cons d ds =>
        rw [hp] at h3
        rw [List.getLast?_cons_cons]
        exact h3
    · rw [h4]
      have hB : 1 < BASE := by unfold BASE; omega
      rw [Nat.digits_def' hB (Nat.pos_of_ne_zero hx)]

theorem ofLongLong_spec (v : Int) (hlo : -9223372036854775808 ≤ v)
    (hhi : v < 9223372036854775808) :
    Normalized (int2048.ofLongLong v) ∧ value (int2048.ofLongLong v) = v ∧
    (int2048.ofLongLong v).digits = Nat.digits BASE v.natAbs ∧
    ((int2048.ofLongLong v).negative = true ↔ v < 0) := by
  unfold int2048.ofLongLong
  by_cases h0 : v = 0
  · rw [if_pos h0, h0]
    refine ⟨Normalized_zero, by simp [value, val], by simp, by simp⟩
  · rw [if_neg h0]
    by_cases hneg : v < 0
    · rw [if_pos hneg]
      have hu : u64 (u64 ((-(v + 1)).toNat) + 1) = v.natAbs := by
        unfold u64
        omega
      rw [hu]
      obtain ⟨h1, h2, h3, h4⟩ := pushLimbs_spec v.natAbs
      have hne : int2048.pushLimbs v.natAbs ≠ [] := ne_nil_of_val_pos _ (by rw [h2]; omega)
      refine ⟨⟨h1, h3, fun h => absurd h hne⟩, ?_, h4, ?_⟩
      · unfold value
        simp only [if_true, h2]
        omega
      · simp [hneg]
    · rw [if_neg hneg]
      have hu : u64 v.toNat = v.natAbs := by
        unfold u64
        omega
      rw [hu]
      obtain ⟨h1, h2, h3, h4⟩ := pushLimbs_spec v.natAbs
      have hne : int2048.pushLimbs v.natAbs ≠ [] := ne_nil_of_val_pos _ (by rw [h2]; omega)
      refine ⟨⟨h1, h3, fun h => absurd h hne⟩, ?_, h4, ?_⟩
      · unfold value
        simp only [Bool.false_eq_true, if_false, h2]
        omega
      · simp [hneg]

/-! ## The normalization invariant of read and of operator%= -/

theorem parseGroupLoop_lt (s : List Char) (n k x m : Nat) (hx : x < 10 ^ m) (hm : m + n ≤ 9) :
    int2048.parseGroupLoop s n k x < 10 ^ (m + n) := by
  induction n generalizing k x m with
  | zero => simpa [int2048.parseGroupLoop] using hx
  | succ n ih =>
    unfold int2048.parseGroupLoop
    by_cases hk : s.getD k default < '0' ∨ s.getD k default > '9'
    · rw [if_pos hk]
      exact Nat.pow_pos (by omega)
    · rw [if_neg hk]
      obtain ⟨c1, c2⟩ := isDigit_toNat _ ((isDigit_iff_not_bad _).mpr hk)
      have hpow : 10 ^ m ≤ 10 ^ 8 := Nat.pow_le_pow_right (by omega) (by omega)
      have hx8 : x < 100000000 := by
        have : (10 : Nat) ^ 8 = 100000000 := by norm_num
        omega
      have hu : u32 (u32 (x * 10) + u32 ((s.getD k default).toNat - 48))
          = x * 10 + ((s.getD k default).toNat - 48) := by
        unfold u32
        omega
      rw [hu, show m + (n + 1) = (m + 1) + n by omega]
      apply ih (k + 1) _ (m + 1) _ (by omega)
      rw [pow_succ]
      omega

theorem parseGroup_lt (s : List Char) (start j : Nat) (h : j - start ≤ 9) :
    int2048.parseGroup s start j < BASE := by
  unfold int2048.parseGroup
  have h1 := parseGroupLoop_lt s (j - start) start 0 0 (by simp) (by omega)
  have h2 : 10 ^ (0 + (j - start)) ≤ 10 ^ 9 := Nat.pow_le_pow_right (by omega) (by omega)
  have h3 : (10 : Nat) ^ 9 = BASE := by unfold BASE; norm_num
  omega

theorem readGroups_bounded (s : List Char) (i fuel j : Nat) (parts : List Nat)
    (hb : Bounded parts) : Bounded (int2048.readGroups s i fuel j parts) := by
  induction fuel generalizing j parts with
  | zero => exact hb
  | succ fuel ih =>
    unfold int2048.readGroups
    by_cases hij : j > i
    · rw [if_pos hij]
      simp only []
      have hb1 : ∀ start, j - start ≤ 9 →
          Bounded (parts ++ [int2048.parseGroup s start j]) := by
        intro start hs
        refine (Bounded_append _ _).mpr ⟨hb, ?_⟩
        intro d hd
        simp only [List.mem_singleton] at hd
        rw [hd]
        exact parseGroup_lt s start j hs
      have hstart : ∃ start, start = (if (if j ≥ BASE_DIGS then j - BASE_DIGS else 0) < i then i
          else (if j ≥ BASE_DIGS then j - BASE_DIGS else 0)) ∧ j - start ≤ 9 := by
        refine ⟨_, rfl, ?_⟩
        unfold BASE_DIGS
        split_ifs <;> omega
      obtain ⟨start, hse, hs⟩ := hstart
      rw [← hse]
      by_cases hsi : start = i
      · rw [if_pos hsi]
        exact hb1 _ hs
      · rw [if_neg hsi]
        exact ih _ _ (hb1 _ hs)
    · rw [if_neg hij]
      exact hb

theorem read_normalized (s : List Char) : Normalized (int2048.read s) := by
  have hb : ∀ i, Bounded (int2048.readGroups s i s.length s.length []) :=
    fun i => readGroups_bounded s i _ _ [] Bounded_nil
  unfold int2048.read
  simp only []
  generalize hp : int2048.readGroups s _ s.length s.length [] = parts
  have hbp : Bounded parts := hp ▸ hb _
  have hn := trim_normalized ⟨parts, false⟩ hbp
  by_cases he : (!(int2048.trim ⟨parts, false⟩).digits.isEmpty) = true
  · rw [if_pos he]
    refine ⟨hn.1, hn.2.1, ?_⟩
    intro h0
    simp only [] at h0
    rw [h0] at he
    exact absurd he (by decide)
  · rw [if_neg he]
    exact hn

theorem mod_normalized (a b : int2048) (ha : Normalized a) (hb : Normalized b) :
    Normalized (int2048.mod a b) := by
  unfold int2048.mod
  by_cases hbz : b.isZero = true
  · rw [if_pos hbz]
    exact ha
  · rw [if_neg hbz]
    by_cases haz : a.isZero = true
    · rw [if_pos haz]
      exact Normalized_zero
    · rw [if_neg haz]
      have hb0 : b.digits ≠ [] := fun h => hbz ((isZero_iff b).mpr h)
      obtain ⟨_, h2, _⟩ := divmodTrunc_spec a b ha hb hb0
      simp only []
      split
      · exact (add_spec _ _ h2 hb).1
      · exact h2

theorem div_normalized (a b : int2048) (ha : Normalized a) (hb : Normalized b) :
    Normalized (int2048.div a b) := by
  by_cases hb0 : b.digits = []
  · unfold int2048.div
    rw [if_pos ((isZero_iff b).mpr hb0)]
    exact ha
  · exact (div_spec a b ha hb hb0).1

/-! ## divmodTrunc: the states of the multi-limb branch, retries and exits -/

theorem divPosTrace_inv (b : List Nat) (hb : Bounded b) (hne : b ≠ [])
    (hlast : b.getLast? ≠ some 0) (p : Nat) (st : List Nat × List Nat)
    (hR : Bounded st.1) (hlen : p + b.length ≤ st.1.length)
    (hinv : val st.1 < val b * BASE ^ p) :
    ∀ x ∈ int2048.divPosTrace b p st,
      x.1 < p ∧ Bounded x.2 ∧ x.2.length = st.1.length ∧ val x.2 < val b * BASE ^ (x.1 + 1) := by
  induction p generalizing st with
  | zero =>
    intro x hx
    simp [int2048.divPosTrace] at hx
  | succ p ih =>
    intro x hx
    unfold int2048.divPosTrace at hx
    rcases List.mem_cons.mp hx with h | h
    · rw [h]
      exact ⟨by omega, hR, rfl, hinv⟩
    · obtain ⟨q1, q2⟩ := qhatEstimate_spec b st.1 p hb hR hne hlast hinv
      obtain ⟨q, R2, e1, e2, e3, e4, e5, e6⟩ := qhatLoop_spec b st.1 st.2 p hb hR (by omega)
        (int2048.qhatEstimate b st.1 p) q1 q2
      rw [e2] at h
      obtain ⟨g1, g2, g3, g4⟩ := ih (R2, st.2.set p q) e4 (by simp only []; omega) e6 x h
      exact ⟨by omega, g2, by rw [g3]; exact e3, g4⟩

theorem divTrace_inv (A B : int2048) (hA : Normalized A) (hB : Normalized B)
    (hB0 : B.digits ≠ []) (hge : val B.digits ≤ val A.digits) :
    ∀ x ∈ int2048.divTrace A B,
      x.1 + B.digits.length ≤ A.digits.length ∧ Bounded x.2 ∧
      x.2.length = A.digits.length + 1 ∧ val x.2 < val B.digits * BASE ^ (x.1 + 1) := by
  have hlen := length_le_of_val_le B.digits A.digits hB.2.1 hA.1 hge
  have hinv : val (A.digits ++ [0]) < val B.digits
      * BASE ^ (A.digits.length - B.digits.length + 1) := by
    rw [val_append]
    simp only [val, Nat.mul_zero, Nat.add_zero]
    have h2 := val_lt_pow A.digits hA.1
    have h3 := pow_le_val B.digits hB0 hB.2.1
    have h4 : BASE ^ (B.digits.length - 1) * BASE ^ (A.digits.length - B.digits.length + 1)
        ≤ val B.digits * BASE ^ (A.digits.length - B.digits.length + 1) :=
      Nat.mul_le_mul_right _ h3
    have h5 : BASE ^ (B.digits.length - 1)
        * BASE ^ (A.digits.length - B.digits.length + 1) = BASE ^ A.digits.length := by
      rw [← pow_add]
      congr 1
      have := List.length_pos.mpr hB0
      omega
    omega
  intro x hx
  unfold int2048.divTrace at hx
  simp only [trim_abs A hA.2.1, trim_abs B hB.2.1] at hx
  obtain ⟨g1, g2, g3, g4⟩ := divPosTrace_inv B.digits hB.1 hB0 hB.2.1 _ _
    ((Bounded_append _ _).mpr ⟨hA.1, Bounded_replicate_zero 1⟩)
    (by simp only [List.length_append, List.length_singleton]; omega) hinv x hx
  simp only [List.length_append, List.length_singleton] at g3
  exact ⟨by omega, g2, g3, g4⟩

theorem trialSub_zero_ne_none (b R : List Nat) (pos : Nat) (hb : Bounded b) (hR : Bounded R)
    (hlen : pos + b.length ≤ R.length) : int2048.trialSub b 0 pos R ≠ none := by
  obtain ⟨_, s2⟩ := trialSub_spec b R 0 pos hb hR BASE_pos hlen
  obtain ⟨Rc, e1, _⟩ := s2 (by simp)
  rw [e1]
  exact Option.some_ne_none _

theorem trialSub_none_iff (b R : List Nat) (qhat pos : Nat) (hb : Bounded b) (hR : Bounded R)
    (hq : qhat < BASE) (hlen : pos + b.length ≤ R.length) :
    int2048.trialSub b qhat pos R = none ↔ val R < val b * qhat * BASE ^ pos := by
  obtain ⟨s1, s2⟩ := trialSub_spec b R qhat pos hb hR hq hlen
  constructor
  · intro h
    by_contra hge
    obtain ⟨Rc, e1, _⟩ := s2 (by omega)
    rw [e1] at h
    exact Option.some_ne_none _ h
  · exact s1

theorem qhatGivesUp_false (b R : List Nat) (pos : Nat) (hb : Bounded b) (hR : Bounded R)
    (hlen : pos + b.length ≤ R.length) (qhat : Nat) :
    int2048.qhatGivesUp b pos R qhat = false := by
  induction qhat with
  | zero =>
    unfold int2048.qhatGivesUp
    cases h : int2048.trialSub b 0 pos R with
    | none => exact absurd h (trialSub_zero_ne_none b R pos hb hR hlen)
    | some Rc => rfl
  | succ q ih =>
    unfold int2048.qhatGivesUp
    cases h : int2048.trialSub b (q + 1) pos R with
    | none => exact ih
    | some Rc => rfl

theorem qhatRetries_eq (b R : List Nat) (pos : Nat) (hb : Bounded b) (hR : Bounded R)
    (hlen : pos + b.length ≤ R.length) (hbpos : 0 < val b) (qhat : Nat) (hq : qhat < BASE)
    (hge : val R / (val b * BASE ^ pos) ≤ qhat) :
    int2048.qhatRetries b pos R qhat = qhat - val R / (val b * BASE ^ pos) := by
  have hk : 0 < val b * BASE ^ pos := Nat.mul_pos hbpos (Nat.pow_pos BASE_pos)
  induction qhat with
  | zero =>
    unfold int2048.qhatRetries
    rw [Nat.zero_sub]
  | succ q ih =>
    unfold int2048.qhatRetries
    have hiff := trialSub_none_iff b R (q + 1) pos hb hR hq hlen
    have hmul : val b * (q + 1) * BASE ^ pos = (q + 1) * (val b * BASE ^ pos) := by ring
    cases h : int2048.trialSub b (q + 1) pos R with
    | none =>
      have hlt := hiff.mp h
      rw [hmul] at hlt
      have hd : val R / (val b * BASE ^ pos) < q + 1 := (Nat.div_lt_iff_lt_mul hk).mpr hlt
      simp only []
      rw [ih (by omega) (by omega)]
      omega
    | some Rc =>
      have hnl : ¬ (val R < val b * (q + 1) * BASE ^ pos) := by
        intro hlt
        rw [hiff.mpr hlt] at h
        exact Option.some_ne_none _ h.symm
      rw [hmul] at hnl
      have hd : q + 1 ≤ val R / (val b * BASE ^ pos) :=
        (Nat.le_div_iff_mul_le hk).mpr (by omega)
      simp only []
      omega

theorem qhatEstimate_ge_digit (b R : List Nat) (pos : Nat) (hb : Bounded b) (hR : Bounded R)
    (hne : b ≠ []) (hlast : b.getLast? ≠ some 0)
    (hinv : val R < val b * BASE ^ (pos + 1)) :
    val R / (val b * BASE ^ pos) ≤ int2048.qhatEstimate b R pos ∧
    int2048.qhatEstimate b R pos ≤ BASE - 1 := by
  obtain ⟨q1, q2⟩ := qhatEstimate_spec b R pos hb hR hne hlast hinv
  have hbpos := val_pos_of_ne_nil b hne hlast
  have hk : 0 < val b * BASE ^ pos := Nat.mul_pos hbpos (Nat.pow_pos BASE_pos)
  have hmul : val b * (int2048.qhatEstimate b R pos + 1) * BASE ^ pos
      = (int2048.qhatEstimate b R pos + 1) * (val b * BASE ^ pos) := by ring
  rw [hmul] at q2
  have := (Nat.div_lt_iff_lt_mul hk).mpr q2
  exact ⟨by omega, by omega⟩

theorem divTrace_example :
    int2048.divTrace ⟨[0, 999999999], false⟩ ⟨[999999999, 1], false⟩
      = [(0, [0, 999999999, 0])] := by
  rfl

theorem qhatEstimate_example :
    int2048.qhatEstimate [999999999, 1] [0, 999999999, 0] 0 = 999999999 := by
  decide

theorem digit_example :
    val [0, 999999999, 0] / (val [999999999, 1] * BASE ^ 0) = 499999999 := by
  norm_num [val, BASE]


/-! ## mulSchoolbook: the size of the output -/

theorem mulCarryPushes_false (out : List Nat) (pos carry : Nat) (hout : Bounded out)
    (hpos : pos ≤ out.length) (hc : carry < BASE)
    (hv : val out + carry * BASE ^ pos < BASE ^ out.length) :
    int2048.mulCarryPushes out pos carry = false ∧
    (int2048.mulCarryLoop out pos carry).length = out.length := by
  induction out, pos, carry using int2048.mulCarryPushes.induct with
  | case1 out pos =>
    rw [int2048.mulCarryPushes, int2048.mulCarryLoop]
    simp
  | case2 out pos carry hne hge =>
    exfalso
    have h1 : BASE ^ out.length ≤ BASE ^ pos := Nat.pow_le_pow_right BASE_pos hge
    have h2 : 1 * BASE ^ pos ≤ carry * BASE ^ pos := Nat.mul_le_mul_right _ (by omega)
    omega
  | case3 out pos carry hne hlt cur ih =>
    have hcurdef : cur = u64 (out.getD pos 0 + carry) := rfl
    clear_value cur
    have hx := Bounded_getD out pos hout
    have hcur : cur = out.getD pos 0 + carry := by
      rw [hcurdef]
      unfold u64
      unfold BASE at hx hc
      omega
    have hr : cur % BASE < BASE := Nat.mod_lt _ BASE_pos
    have hlimb : u32 (cur % BASE) = cur % BASE := u32_of_lt _ hr
    have hq : cur / BASE < BASE := by
      rw [hcur]
      unfold BASE at hx hc ⊢
      omega
    rw [hlimb] at ih
    have h1 := val_set out pos (cur % BASE) (by omega)
    have h2 := Nat.mod_add_div cur BASE
    have h3 : (cur % BASE) * BASE ^ pos + (cur / BASE) * BASE ^ (pos + 1)
        = cur * BASE ^ pos := by
      nth_rewrite 3 [← h2]
      rw [pow_succ]
      ring
    have h4 : cur * BASE ^ pos = out.getD pos 0 * BASE ^ pos + carry * BASE ^ pos := by
      rw [hcur]
      ring
    obtain ⟨i1, i2⟩ := ih (Bounded_set _ _ _ hout hr) (by simp only [List.length_set]; omega) hq
      (by simp only [List.length_set]; omega)
    rw [int2048.mulCarryPushes, int2048.mulCarryLoop, if_neg hne, if_neg hne, if_neg hlt]
    simp only [if_neg hlt, ← hcurdef, hlimb]
    refine ⟨i1, ?_⟩
    rw [i2, List.length_set]

theorem mulRow_no_push (a b out : List Nat) (i : Nat) (ha : Bounded a) (hb : Bounded b)
    (hout : Bounded out) (hi : i < a.length) (hlen : out.length = a.length + b.length)
    (hval : val out = val (a.take i) * val b) :
    int2048.mulRowPushes a b out i = false ∧
    (int2048.mulOuterStep a b out i).length = out.length := by
  have hai := Bounded_getD a i ha
  have hu : u64 (a.getD i 0) = a.getD i 0 :=
    u64_of_lt _ (Nat.lt_of_lt_of_le hai (Nat.le_mul_of_pos_left _ BASE_pos))
  unfold int2048.mulRowPushes int2048.mulOuterStep
  simp only [hu]
  obtain ⟨h1, h2, h3, h4⟩ := mulInner_loop (a.getD i 0) b i out hai hb hout b.length
    (le_refl _) (by omega)
  rw [List.take_length] at h4
  have hbound : val out + a.getD i 0 * val b * BASE ^ i < BASE ^ out.length := by
    have e1 : val out + a.getD i 0 * val b * BASE ^ i = val (a.take (i + 1)) * val b := by
      rw [hval, val_take_succ]
      ring
    rw [e1]
    have e2 := val_take_lt_pow a ha (i + 1)
    have e3 := val_lt_pow b hb
    have e4 : val (a.take (i + 1)) * val b < BASE ^ (i + 1) * BASE ^ b.length :=
      Nat.mul_lt_mul'' e2 e3
    have e5 : BASE ^ (i + 1) * BASE ^ b.length ≤ BASE ^ out.length := by
      rw [← pow_add]
      exact Nat.pow_le_pow_right BASE_pos (by omega)
    omega
  obtain ⟨g1, g2⟩ := mulCarryPushes_false _ (i + b.length) _ h2 (by omega) h3
    (by rw [h1]; omega)
  exact ⟨g1, by rw [g2, h1]⟩

theorem mulRows_succ (a b : List Nat) (k : Nat) :
    int2048.mulRows a b (k + 1) = int2048.mulOuterStep a b (int2048.mulRows a b k) k := by
  unfold int2048.mulRows
  rw [List.range_succ, List.foldl_append, List.foldl_cons, List.foldl_nil]

theorem mulRows_spec (a b : List Nat) (ha : Bounded a) (hb : Bounded b) (k : Nat)
    (hk : k ≤ a.length) :
    (int2048.mulRows a b k).length = a.length + b.length ∧
    Bounded (int2048.mulRows a b k) ∧
    val (int2048.mulRows a b k) = val (a.take k) * val b := by
  induction k with
  | zero => simp [int2048.mulRows, Bounded_replicate_zero, val_replicate_zero, val]
  | succ k ih =>
    obtain ⟨h1, h2, h3⟩ := ih (by omega)
    rw [mulRows_succ]
    obtain ⟨g1, g2, g3⟩ := mulOuterStep_spec a b _ k ha hb h2 (by omega)
    obtain ⟨_, n2⟩ := mulRow_no_push a b _ k ha hb h2 (by omega) h1 h3
    refine ⟨by rw [n2, h1], g2, ?_⟩
    rw [g3, h3, val_take_succ]
    ring

theorem mulSchoolbook_eq_rows (a b : List Nat) :
    int2048.mulSchoolbook a b
      = int2048.trimLoop (int2048.mulRows a b a.length).length (int2048.mulRows a b a.length) :=
  rfl

/-! ## mulSchoolbook: the intermediate values fit the machine words -/

theorem curFits_of_lt (cur : Nat) (h : cur < BASE * BASE) : int2048.curFits cur = true := by
  have h1 : cur / BASE < BASE := Nat.div_lt_of_lt_mul h
  have h2 : cur % BASE < BASE := Nat.mod_lt _ BASE_pos
  unfold int2048.curFits
  unfold BASE at h h1 h2
  simp only [Bool.and_eq_true, decide_eq_true_eq]
  unfold BASE
  omega

theorem curFits_sound (cur : Nat) (h : int2048.curFits cur = true) :
    cur < 18446744073709551616 ∧ cur / BASE < 1000000000 ∧ cur % BASE < 1000000000 := by
  unfold int2048.curFits at h
  simp only [Bool.and_eq_true, decide_eq_true_eq] at h
  exact ⟨by omega, h.1.2, h.2⟩

theorem mulInnerStepChk_eq (ai : Nat) (b : List Nat) (i : Nat) (st : List Nat × Nat) (j : Nat)
    (hai : ai < BASE) (hb : Bounded b) (hst : Bounded st.1) (hc : st.2 < BASE) :
    int2048.mulInnerStepChk ai b i (some st) j = some (int2048.mulInnerStep ai b i st j) := by
  have hx := Bounded_getD st.1 (i + j) hst
  have hy := Bounded_getD b j hb
  have hprod : ai * b.getD j 0 ≤ (BASE - 1) * (BASE - 1) :=
    Nat.mul_le_mul (by omega) (by omega)
  have hu : u64 (b.getD j 0) = b.getD j 0 :=
    u64_of_lt _ (Nat.lt_of_lt_of_le hy (Nat.le_mul_of_pos_left _ BASE_pos))
  have hlt : st.1.getD (i + j) 0 + ai * b.getD j 0 + st.2 < BASE * BASE := by
    unfold BASE at hx hc hprod ⊢
    omega
  have hsum := u64_of_lt _ hlt
  have hlimb := u32_of_lt _ (Nat.mod_lt (st.1.getD (i + j) 0 + ai * b.getD j 0 + st.2) BASE_pos)
  obtain ⟨out, carry⟩ := st
  simp only [int2048.mulInnerStepChk, int2048.mulInnerStep, hu, curFits_of_lt _ hlt, if_true]
  simp only [] at hsum hlimb
  rw [hsum, hlimb]

theorem mulInnerChk_loop (ai : Nat) (b : List Nat) (i : Nat) (out : List Nat)
    (hai : ai < BASE) (hb : Bounded b) (hout : Bounded out) (k : Nat)
    (hk : k ≤ b.length) (hlen : i + b.length ≤ out.length) :
    (List.range k).foldl (int2048.mulInnerStepChk ai b i) (some (out, 0))
      = some ((List.range k).foldl (int2048.mulInnerStep ai b i) (out, 0)) := by
  induction k with
  | zero => rfl
  | succ k ih =>
    obtain ⟨h1, h2, h3, _⟩ := mulInner_loop ai b i out hai hb hout k (by omega) hlen
    rw [List.range_succ, List.foldl_append, List.foldl_append, ih (by omega)]
    simp only [List.foldl_cons, List.foldl_nil]
    exact mulInnerStepChk_eq ai b i _ k hai hb h2 h3

theorem mulCarryLoopChk_eq (out : List Nat) (pos carry : Nat) (hout : Bounded out)
    (hc : carry < BASE) :
    int2048.mulCarryLoopChk out pos carry = some (int2048.mulCarryLoop out pos carry) := by
  induction out, pos, carry using int2048.mulCarryLoop.induct with
  | case1 out pos =>
    rw [int2048.mulCarryLoopChk, int2048.mulCarryLoop]
    simp
  | case2 out pos carry hne out1 cur ih =>
    have ho1 : out1 = (if pos ≥ out.length then out ++ [0] else out) := by
      simp only [out1]
      split <;> rfl
    have hcurdef : cur = u64 (out1.getD pos 0 + carry) := rfl
    clear_value cur out1
    have hb1 : Bounded out1 := by
      rw [ho1]
      split
      · exact (Bounded_append _ _).mpr ⟨hout, Bounded_replicate_zero 1⟩
      · exact hout
    have hx := Bounded_getD out1 pos hb1
    have hlt : out1.getD pos 0 + carry < BASE * BASE := by
      unfold BASE at hx hc ⊢
      omega
    have hcur : cur = out1.getD pos 0 + carry := by
      rw [hcurdef]
      exact u64_of_lt _ hlt
    have hr : cur % BASE < BASE := Nat.mod_lt _ BASE_pos
    have hlimb : u32 (cur % BASE) = cur % BASE := u32_of_lt _ hr
    have hq : cur / BASE < BASE := by
      rw [hcur]
      unfold BASE at hx hc ⊢
      omega
    rw [hlimb] at ih
    rw [int2048.mulCarryLoopChk, int2048.mulCarryLoop, if_neg hne, if_neg hne]
    simp only [← ho1]
    rw [← hcurdef, ← hcur, hlimb]
    have hlt2 : cur < BASE * BASE := by
      rw [hcur]
      exact hlt
    rw [curFits_of_lt _ hlt2, if_pos rfl]
    exact ih (Bounded_set _ _ _ hb1 hr) hq

theorem mulOuterStepChk_eq (a b out : List Nat) (i : Nat) (ha : Bounded a) (hb : Bounded b)
    (hout : Bounded out) (hlen : i + b.length ≤ out.length) :
    int2048.mulOuterStepChk a b (some out) i = some (int2048.mulOuterStep a b out i) := by
  have hai := Bounded_getD a i ha
  have hu : u64 (a.getD i 0) = a.getD i 0 :=
    u64_of_lt _ (Nat.lt_of_lt_of_le hai (Nat.le_mul_of_pos_left _ BASE_pos))
  obtain ⟨h1, h2, h3, _⟩ := mulInner_loop (a.getD i 0) b i out hai hb hout b.length
    (le_refl _) hlen
  unfold int2048.mulOuterStepChk int2048.mulOuterStep
  simp only [hu, mulInnerChk_loop (a.getD i 0) b i out hai hb hout b.length (le_refl _) hlen]
  exact mulCarryLoopChk_eq _ _ _ h2 h3

theorem mulOuterChk_loop (a b : List Nat) (ha : Bounded a) (hb : Bounded b) (k : Nat)
    (hk : k ≤ a.length) :
    (List.range k).foldl (int2048.mulOuterStepChk a b)
        (some (List.replicate (a.length + b.length) 0))
      = some (int2048.mulRows a b k) := by
  induction k with
  | zero => rfl
  | succ k ih =>
    obtain ⟨h1, h2, _⟩ := mulRows_spec a b ha hb k (by omega)
    rw [List.range_succ, List.foldl_append, ih (by omega), mulRows_succ]
    simp only [List.foldl_cons, List.foldl_nil]
    exact mulOuterStepChk_eq a b _ k ha hb h2 (by omega)

theorem mulSchoolbookChk_eq (a b : List Nat) (ha : Bounded a) (hb : Bounded b) :
    int2048.mulSchoolbookChk a b = some (int2048.mulSchoolbook a b) := by
  unfold int2048.mulSchoolbookChk
  rw [mulOuterChk_loop a b ha hb a.length (le_refl _)]
  rfl


/-! ## absSub: the borrow after the last limb -/

theorem absSub_final_borrow (x o : List Nat) (hx : Bounded x) (ho : Bounded o)
    (hlen : o.length ≤ x.length) (hle : val o ≤ val x) :
    ((List.range x.length).foldl (int2048.absSubStep o) (x, 0)).2 = 0 ∧
    Bounded ((List.range x.length).foldl (int2048.absSubStep o) (x, 0)).1 ∧
    ((List.range x.length).foldl (int2048.absSubStep o) (x, 0)).1.length = x.length ∧
    val ((List.range x.length).foldl (int2048.absSubStep o) (x, 0)).1 + val o = val x := by
  obtain ⟨h1, h2, h3, h4⟩ := absSub_loop o x hx ho x.length (le_refl _)
  rw [val_take_of_length_le o _ hlen] at h4
  generalize (List.range x.length).foldl (int2048.absSubStep o) (x, 0) = st at h1 h2 h3 h4
  have hlt := val_lt_pow st.1 h2
  rw [h1] at hlt
  have hc : st.2 = 0 := by
    rcases h3 with h | h
    · exact h
    · exfalso
      rw [h] at h4
      have h5 : ((val st.1 : Nat) : Int) < (BASE : Int) ^ x.length := by exact_mod_cast hlt
      have h6 : ((val o : Nat) : Int) ≤ (val x : Int) := by exact_mod_cast hle
      linarith
  refine ⟨hc, h2, h1, ?_⟩
  rw [hc] at h4
  have : ((val st.1 : Nat) : Int) + (val o : Int) = (val x : Int) := by linarith
  exact_mod_cast this

/-! ## divmodTrunc: the indices of the multi-limb branch -/

theorem divPosStates_length (b : List Nat) (p : Nat) (st : List Nat × List Nat) :
    (int2048.divPosStates b p st).length = p := by
  induction p generalizing st with
  | zero => rfl
  | succ p ih =>
    unfold int2048.divPosStates
    rw [List.length_cons, ih]

theorem divPosStates_inv (b : List Nat) (hb : Bounded b) (hne : b ≠ [])
    (hlast : b.getLast? ≠ some 0) (p : Nat) (st : List Nat × List Nat)
    (hR : Bounded st.1) (hlen : p + b.length ≤ st.1.length)
    (hinv : val st.1 < val b * BASE ^ p) :
    ∀ x ∈ int2048.divPosStates b p st,
      x.1 < p ∧ Bounded x.2.1 ∧ x.2.1.length = st.1.length ∧
      x.2.2.length = st.2.length ∧ val x.2.1 < val b * BASE ^ (x.1 + 1) := by
  induction p generalizing st with
  | zero =>
    intro x hx
    simp [int2048.divPosStates] at hx
  | succ p ih =>
    intro x hx
    unfold int2048.divPosStates at hx
    rcases List.mem_cons.mp hx with h | h
    · rw [h]
      exact ⟨by omega, hR, rfl, rfl, hinv⟩
    · obtain ⟨q1, q2⟩ := qhatEstimate_spec b st.1 p hb hR hne hlast hinv
      obtain ⟨q, R2, e1, e2, e3, e4, e5, e6⟩ := qhatLoop_spec b st.1 st.2 p hb hR (by omega)
        (int2048.qhatEstimate b st.1 p) q1 q2
      rw [e2] at h
      obtain ⟨g1, g2, g3, g4, g5⟩ :=
        ih (R2, st.2.set p q) e4 (by simp only []; omega) e6 x h
      refine ⟨by omega, g2, by rw [g3]; exact e3, ?_, g5⟩
      rw [g4]
      exact List.length_set _ _ _

theorem divStates_inv (A B : int2048) (hA : Normalized A) (hB : Normalized B)
    (hB0 : B.digits ≠ []) (hge : val B.digits ≤ val A.digits) :
    ∀ x ∈ int2048.divStates A B,
      x.1 + B.digits.length ≤ A.digits.length ∧ Bounded x.2.1 ∧
      x.2.1.length = A.digits.length + 1 ∧
      x.2.2.length = A.digits.length - B.digits.length + 1 ∧
      val x.2.1 < val B.digits * BASE ^ (x.1 + 1) := by
  have hlen := length_le_of_val_le B.digits A.digits hB.2.1 hA.1 hge
  have hinv : val (A.digits ++ [0]) < val B.digits
      * BASE ^ (A.digits.length - B.digits.length + 1) := by
    rw [val_append]
    simp only [val, Nat.mul_zero, Nat.add_zero]
    have h2 := val_lt_pow A.digits hA.1
    have h3 := pow_le_val B.digits hB0 hB.2.1
    have h4 : BASE ^ (B.digits.length - 1) * BASE ^ (A.digits.length - B.digits.length + 1)
        ≤ val B.digits * BASE ^ (A.digits.length - B.digits.length + 1) :=
      Nat.mul_le_mul_right _ h3
    have h5 : BASE ^ (B.digits.length - 1)
        * BASE ^ (A.digits.length - B.digits.length + 1) = BASE ^ A.digits.length := by
      rw [← pow_add]
      congr 1
      have := List.length_pos.mpr hB0
      omega
    omega
  intro x hx
  unfold int2048.divStates at hx
  simp only [trim_abs A hA.2.1, trim_abs B hB.2.1] at hx
  obtain ⟨g1, g2, g3, g4, g5⟩ := divPosStates_inv B.digits hB.1 hB0 hB.2.1 _ _
    ((Bounded_append _ _).mpr ⟨hA.1, Bounded_replicate_zero 1⟩)
    (by simp only [List.length_append, List.length_singleton]; omega) hinv x hx
  simp only [List.length_append, List.length_singleton, List.length_replicate] at g3 g4
  exact ⟨by omega, g2, g3, g4, g5⟩

theorem divStates_length (A B : int2048) (hA : Normalized A) (hB : Normalized B) :
    (int2048.divStates A B).length = A.digits.length - B.digits.length + 1 := by
  unfold int2048.divStates
  simp only [trim_abs A hA.2.1, trim_abs B hB.2.1]
  exact divPosStates_length _ _ _

/-! ## The split divmodTrunc of src/src/int2048.cpp against the monolithic one -/

theorem divmodTruncSplit_of_length_ne_one (A B : int2048)
    (h : (int2048.trim { B with negative := false }).digits.length ≠ 1) :
    int2048.divmodTruncSplit A B = int2048.divmodTrunc A B := by
  unfold int2048.divmodTruncSplit int2048.divmodTrunc
  simp only [if_neg h]

theorem divmodTruncSplit_limbs (A B : int2048) :
    (int2048.divmodTruncSplit A B).1.digits = (int2048.divmodTrunc A B).1.digits ∧
    (int2048.divmodTruncSplit A B).2.digits = (int2048.divmodTrunc A B).2.digits := by
  unfold int2048.divmodTruncSplit int2048.divmodTrunc
  simp only []
  split_ifs <;> exact ⟨rfl, rfl⟩

theorem divmodTruncSplit_of_nonneg (A B : int2048) (hA : A.negative = false)
    (hB : B.negative = false) :
    int2048.divmodTruncSplit A B = int2048.divmodTrunc A B := by
  unfold int2048.divmodTruncSplit int2048.divmodTrunc
  simp only [hA, hB]
  split_ifs <;> simp [int2048.trim]

/-! ## Reading back a printed value -/

theorem digitChar_of_lt (m : Nat) (h : m < 10) :
    IsDigit (Nat.digitChar m) ∧ (Nat.digitChar m).toNat - 48 = m := by
  unfold IsDigit
  interval_cases m <;> exact ⟨by decide, rfl⟩

theorem foldl_decStep_eq (cs : List Char) (x : Nat) :
    cs.foldl decStep x = x * 10 ^ cs.length + decVal cs := by
  induction cs generalizing x with
  | nil => simp [decVal]
  | cons c cs ih =>
    unfold decVal
    rw [List.foldl_cons, List.foldl_cons, ih (decStep x c), ih (decStep 0 c), List.length_cons,
      pow_succ]
    unfold decStep
    ring

theorem decVal_append (a b : List Char) :
    decVal (a ++ b) = decVal a * 10 ^ b.length + decVal b := by
  unfold decVal
  rw [List.foldl_append]
  exact foldl_decStep_eq b _

theorem toDigitsCore_spec (fuel : Nat) : ∀ (n : Nat) (acc : List Char), n < fuel →
    ∃ cs, Nat.toDigitsCore 10 fuel n acc = cs ++ acc ∧ cs ≠ [] ∧ (∀ c ∈ cs, IsDigit c) ∧
      decVal cs = n ∧ (n ≠ 0 → cs.head? ≠ some '0') ∧
      (∀ k, 1 ≤ k → n < 10 ^ k → cs.length ≤ k) := by
  induction fuel with
  | zero =>
    intro n acc h
    omega
  | succ fuel ih =>
    intro n acc h
    obtain ⟨d1, d2⟩ := digitChar_of_lt (n % 10) (Nat.mod_lt _ (by omega))
    unfold Nat.toDigitsCore
    simp only []
    by_cases h0 : n / 10 = 0
    · rw [if_pos h0]
      have hn : n % 10 = n := by omega
      refine ⟨[Nat.digitChar (n % 10)], rfl, by simp, ?_, ?_, ?_, ?_⟩
      · intro c hc
        rw [List.mem_singleton] at hc
        rw [hc]
        exact d1
      · show decStep 0 (Nat.digitChar (n % 10)) = n
        unfold decStep
        omega
      · intro hne hhead
        simp only [List.head?_cons, Option.some.injEq] at hhead
        rw [hhead] at d2
        have : ('0' : Char).toNat - 48 = 0 := rfl
        omega
      · intro k hk _
        simpa using hk
    · rw [if_neg h0]
      obtain ⟨cs, e1, e2, e3, e4, e5, e6⟩ := ih (n / 10) (Nat.digitChar (n % 10) :: acc)
        (by omega)
      refine ⟨cs ++ [Nat.digitChar (n % 10)], ?_, by simp, ?_, ?_, ?_, ?_⟩
      · rw [e1, List.append_assoc]
        rfl
      · intro c hc
        rcases List.mem_append.mp hc with hc | hc
        · exact e3 c hc
        · rw [List.mem_singleton] at hc
          rw [hc]
          exact d1
      · rw [decVal_append_singleton, e4, d2]
        omega
      · intro _
        cases cs with
        | nil => exact absurd rfl e2
        | cons c t =>
          have := e5 h0
          simpa using this
      · intro k hk hlt
        cases k with
        | zero => omega
        | succ k =>
          rw [pow_succ] at hlt
          have hk1 : 1 ≤ k := by
            by_contra hk0
            have : k = 0 := by omega
            rw [this, pow_zero] at hlt
            omega
          have := e6 k hk1 (by omega)
          rw [List.length_append, List.length_singleton]
          omega

theorem toDigits_spec (n : Nat) :
    Nat.toDigits 10 n ≠ [] ∧ (∀ c ∈ Nat.toDigits 10 n, IsDigit c) ∧
    decVal (Nat.toDigits 10 n) = n ∧ (n ≠ 0 → (Nat.toDigits 10 n).head? ≠ some '0') ∧
    (∀ k, 1 ≤ k → n < 10 ^ k → (Nat.toDigits 10 n).length ≤ k) := by
  obtain ⟨cs, e1, e2, e3, e4, e5, e6⟩ := toDigitsCore_spec (n + 1) n [] (by omega)
  unfold Nat.toDigits
  rw [e1, List.append_nil]
  exact ⟨e2, e3, e4, e5, e6⟩

theorem padDec_spec (x : Nat) (hx : x < BASE) :
    (int2048.padDec BASE_DIGS x).length = 9 ∧ (∀ c ∈ int2048.padDec BASE_DIGS x, IsDigit c) ∧
    decVal (int2048.padDec BASE_DIGS x) = x := by
  obtain ⟨t1, t2, t3, t4, t5⟩ := toDigits_spec x
  have hlen := t5 9 (by omega) (by unfold BASE at hx; omega)
  unfold int2048.padDec BASE_DIGS
  refine ⟨?_, ?_, ?_⟩
  · rw [List.length_append, List.length_replicate]
    omega
  · intro c hc
    rcases List.mem_append.mp hc with hc | hc
    · rw [(List.mem_replicate.mp hc).2]
      unfold IsDigit
      decide
    · exact t2 c hc
  · rw [decVal_replicate_zero_append, t3]

theorem printTail_spec (l : List Nat) (hl : Bounded l) (k : Nat) :
    (int2048.printTail l k).length = 9 * k ∧ (∀ c ∈ int2048.printTail l k, IsDigit c) ∧
    decVal (int2048.printTail l k) = val (l.take k) := by
  induction k with
  | zero => simp [int2048.printTail, decVal, val]
  | succ k ih =>
    obtain ⟨h1, h2, h3⟩ := ih
    obtain ⟨p1, p2, p3⟩ := padDec_spec (l.getD k 0) (Bounded_getD l k hl)
    unfold int2048.printTail
    refine ⟨?_, ?_, ?_⟩
    · rw [List.length_append, p1, h1]
      omega
    · intro c hc
      rcases List.mem_append.mp hc with hc | hc
      · exact p2 c hc
      · exact h2 c hc
    · rw [decVal_append, p3, h3, h1, val_take_succ]
      have : (10 : Nat) ^ (9 * k) = BASE ^ k := by
        unfold BASE
        rw [pow_mul]
        norm_num
      rw [this]
      ring

/-- The digits written by `operator<<` for a normalized non-zero magnitude: not empty, all
decimal digits, no leading `'0'`, and their decimal value is the value of the limbs. -/
theorem formatBody_spec (l : List Nat) (hl : Bounded l) (hne : l ≠ [])
    (hlast : l.getLast? ≠ some 0) :
    Nat.toDigits 10 (l.getD (l.length - 1) 0) ++ int2048.printTail l (l.length - 1) ≠ [] ∧
    (∀ c ∈ Nat.toDigits 10 (l.getD (l.length - 1) 0) ++ int2048.printTail l (l.length - 1),
      IsDigit c) ∧
    (Nat.toDigits 10 (l.getD (l.length - 1) 0)
      ++ int2048.printTail l (l.length - 1)).head? ≠ some '0' ∧
    decVal (Nat.toDigits 10 (l.getD (l.length - 1) 0) ++ int2048.printTail l (l.length - 1))
      = val l := by
  obtain ⟨t1, t2, t3, t4, _⟩ := toDigits_spec (l.getD (l.length - 1) 0)
  obtain ⟨h1, h2, h3⟩ := printTail_spec l hl (l.length - 1)
  have htop := top_limb_pos l hne hlast
  refine ⟨fun h => t1 (List.append_eq_nil.mp h).1, ?_, ?_, ?_⟩
  · intro c hc
    rcases List.mem_append.mp hc with hc | hc
    · exact t2 c hc
    · exact h2 c hc
  · have := t4 (by omega)
    cases hd : Nat.toDigits 10 (l.getD (l.length - 1) 0) with
    | nil => exact absurd hd t1
    | cons c t =>
      rw [hd] at this
      simpa using this
  · rw [decVal_append, t3, h3, h1]
    have hpos := List.length_pos.mpr hne
    have e := val_take_succ l (l.length - 1)
    rw [show l.length - 1 + 1 = l.length by omega, List.take_length] at e
    have : (10 : Nat) ^ (9 * (l.length - 1)) = BASE ^ (l.length - 1) := by
      unfold BASE
      rw [pow_mul]
      norm_num
    rw [this, e]
    ring

theorem format_of_ne_nil (x : int2048) (hne : x.digits ≠ []) :
    int2048.format x = (if x.negative then ['-'] else [])
      ++ (Nat.toDigits 10 (x.digits.getD (x.digits.length - 1) 0)
        ++ int2048.printTail x.digits (x.digits.length - 1)) := by
  unfold int2048.format
  have : x.digits.isEmpty = false := by
    cases hd : x.digits with
    | nil => exact absurd hd hne
    | cons _ _ => rfl
  rw [this]
  simp

theorem format_injective (x y : int2048) (hx : Normalized x) (hy : Normalized y)
    (h : int2048.format x = int2048.format y) : x = y := by
  have key : ∀ a b : int2048, Normalized a → Normalized b → a.digits = [] →
      int2048.format a = int2048.format b → b.digits = [] := by
    intro a b ha hb ha0 hab
    by_contra hb0
    obtain ⟨b1, b2, b3, b4⟩ := formatBody_spec b.digits hb.1 hb0 hb.2.1
    rw [format_of_ne_nil b hb0] at hab
    have ea : int2048.format a = ['0'] := by
      unfold int2048.format
      rw [ha0]
      rfl
    rw [ea] at hab
    cases hn : b.negative with
    | true =>
      rw [hn] at hab
      simp at hab
    | false =>
      rw [hn] at hab
      simp only [Bool.false_eq_true, if_false, List.nil_append] at hab
      rw [← hab] at b3
      exact b3 rfl
  have heq : ∀ a b : int2048, a.digits = b.digits → a.negative = b.negative → a = b := by
    intro a b h1 h2
    cases a
    cases b
    simp only [] at h1 h2
    rw [h1, h2]
  by_cases hx0 : x.digits = []
  · have hy0 := key x y hx hy hx0 h
    exact heq x y (by rw [hx0, hy0]) (by rw [hx.2.2 hx0, hy.2.2 hy0])
  · have hy0 : y.digits ≠ [] := fun h0 => hx0 (key y x hy hx h0 h.symm)
    obtain ⟨a1, a2, a3, a4⟩ := formatBody_spec x.digits hx.1 hx0 hx.2.1
    obtain ⟨b1, b2, b3, b4⟩ := formatBody_spec y.digits hy.1 hy0 hy.2.1
    rw [format_of_ne_nil x hx0, format_of_ne_nil y hy0] at h
    have hminus : ¬ IsDigit '-' := by
      unfold IsDigit
      decide
    cases hxn : x.negative with
    | true =>
      cases hyn : y.negative with
      | true =>
        rw [hxn, hyn] at h
        simp only [if_true, List.singleton_append, List.cons.injEq, true_and] at h
        have hv : val x.digits = val y.digits := by rw [← a4, ← b4, h]
        exact heq x y (val_inj _ _ hx.1 hy.1 hx.2.1 hy.2.1 hv) (by rw [hxn, hyn])
      | false =>
        rw [hxn, hyn] at h
        simp only [if_true, Bool.false_eq_true, if_false, List.nil_append,
          List.singleton_append] at h
        exact absurd (b2 '-' (by rw [← h]; exact List.mem_cons_self _ _)) hminus
    | false =>
      cases hyn : y.negative with
      | true =>
        rw [hxn, hyn] at h
        simp only [if_true, Bool.false_eq_true, if_false, List.nil_append,
          List.singleton_append] at h
        exact absurd (a2 '-' (by rw [h]; exact List.mem_cons_self _ _)) hminus
      | false =>
        rw [hxn, hyn] at h
        simp only [Bool.false_eq_true, if_false, List.nil_append] at h
        have hv : val x.digits = val y.digits := by rw [← a4, ← b4, h]
        exact heq x y (val_inj _ _ hx.1 hy.1 hx.2.1 hy.2.1 hv) (by rw [hxn, hyn])

theorem dropWhile_isZeroChar_of_head (l : List Char) (h : l.head? ≠ some '0') :
    l.dropWhile int2048.isZeroChar = l := by
  cases l with
  | nil => rfl
  | cons c t =>
    apply List.dropWhile_cons_of_neg
    intro hc
    apply h
    simp only [int2048.isZeroChar, decide_eq_true_eq] at hc
    rw [hc]
    rfl

theorem format_valid (x : int2048) (hx : Normalized x) :
    ValidDecimal (int2048.format x) ∧ canonicalForm (int2048.format x) = int2048.format x := by
  by_cases hx0 : x.digits = []
  · have e : int2048.format x = ['0'] := by
      unfold int2048.format
      rw [hx0]
      rfl
    rw [e]
    exact ⟨by decide, by decide⟩
  · obtain ⟨a1, a2, a3, a4⟩ := formatBody_spec x.digits hx.1 hx0 hx.2.1
    rw [format_of_ne_nil x hx0]
    generalize Nat.toDigits 10 (x.digits.getD (x.digits.length - 1) 0)
      ++ int2048.printTail x.digits (x.digits.length - 1) = body at a1 a2 a3
    cases hn : x.negative with
    | true =>
      simp only [if_true, List.singleton_append]
      constructor
      · unfold ValidDecimal
        simp only [List.head?_cons, true_or, if_true, List.tail_cons]
        exact ⟨a1, a2⟩
      · unfold canonicalForm
        simp only [List.head?_cons, true_or, if_true, List.tail_cons,
          dropWhile_isZeroChar_of_head body a3]
        cases body with
        | nil => exact absurd rfl a1
        | cons c t => simp
    | false =>
      simp only [Bool.false_eq_true, if_false, List.nil_append]
      cases body with
      | nil => exact absurd rfl a1
      | cons c t =>
        obtain ⟨s1, s2⟩ := not_sign_of_isDigit c (a2 c (List.mem_cons_self _ _))
        have hsgn : ¬ ((c :: t).head? = some '-' ∨ (c :: t).head? = some '+') := by
          simp only [List.head?_cons, Option.some.injEq]
          rintro (h | h)
          · exact s2 h
          · exact s1 h
        constructor
        · unfold ValidDecimal
          simp only [if_neg hsgn]
          exact ⟨a1, a2⟩
        · unfold canonicalForm
          simp only [if_neg hsgn, dropWhile_isZeroChar_of_head (c :: t) a3]
          have : ¬ ((c :: t).head? = some '-') := fun h => hsgn (Or.inl h)
          simp [s2]

theorem read_format (x : int2048) (hx : Normalized x) :
    int2048.read (int2048.format x) = x := by
  obtain ⟨h1, h2⟩ := format_valid x hx
  have h3 := format_read (int2048.format x) h1
  rw [h2] at h3
  exact format_injective _ _ (read_normalized _) hx h3

/-! ## Claims -/

/-- C10: for normalized `a` and `b`, the operators `<`, `==`, `>` agree with the integer
order of the values, exactly one of the three holds, and the derived `<=`, `>=`, `!=` are
consistent with them. -/
theorem C10_ordering_total (a b : int2048) (ha : Normalized a) (hb : Normalized b) :
    (int2048.lt a b = true ↔ value a < value b) ∧
    (int2048.eq a b = true ↔ value a = value b) ∧
    (int2048.gt a b = true ↔ value a > value b) ∧
    ((int2048.lt a b = true ∧ int2048.eq a b = false ∧ int2048.gt a b = false) ∨
     (int2048.lt a b = false ∧ int2048.eq a b = true ∧ int2048.gt a b = false) ∨
     (int2048.lt a b = false ∧ int2048.eq a b = false ∧ int2048.gt a b = true)) ∧
    (int2048.le a b = true ↔ value a ≤ value b) ∧
    (int2048.ge a b = true ↔ value a ≥ value b) ∧
    (int2048.ne a b = true ↔ value a ≠ value b) := by
  have h1 := lt_iff a b ha hb
  have h2 := eq_iff_value a b ha hb
  have h3 : int2048.gt a b = true ↔ value b < value a := lt_iff b a hb ha
  have h4 : int2048.le a b = !(int2048.gt a b) := rfl
  have h5 : int2048.ge a b = !(int2048.lt a b) := rfl
  have h6 : int2048.ne a b = !(int2048.eq a b) := rfl
  rw [h4, h5, h6]
  refine ⟨h1, h2, h3, ?_, ?_, ?_, ?_⟩
  · cases hl : int2048.lt a b <;> cases he : int2048.eq a b <;> cases hg : int2048.gt a b <;>
      simp_all <;> omega
  · cases hg : int2048.gt a b <;> simp_all
  · cases hl : int2048.lt a b <;> simp_all
  · cases he : int2048.eq a b <;> simp_all

/-- C10 at the operands `5` and `-7`. -/
theorem C10_ordering_total_witness :
    Normalized ⟨[5], false⟩ ∧ Normalized ⟨[7], true⟩ ∧
    (int2048.lt ⟨[5], false⟩ ⟨[7], true⟩ = true ↔
      value ⟨[5], false⟩ < value ⟨[7], true⟩) :=
  ⟨by decide, by decide, (C10_ordering_total ⟨[5], false⟩ ⟨[7], true⟩ (by decide) (by decide)).1⟩

/-- C1 (evaluation at a failing input): for `A = -3` and `B = 5` the fast exit of
`divmodTrunc` returns the quotient `0` and the remainder `+3`, whose sign bit is not the
dividend's, so `value B * value Q + value R = 3` is not `value A = -3`. -/
theorem C1_fast_exit_remainder_sign :
    int2048.divmodTrunc ⟨[3], true⟩ ⟨[5], false⟩ = (⟨[], false⟩, ⟨[3], false⟩) ∧
    value ⟨[5], false⟩ * value (int2048.divmodTrunc ⟨[3], true⟩ ⟨[5], false⟩).1
      + value (int2048.divmodTrunc ⟨[3], true⟩ ⟨[5], false⟩).2 = 3 ∧
    value ⟨[3], true⟩ = -3 := by
  have h : int2048.divmodTrunc ⟨[3], true⟩ ⟨[5], false⟩ = (⟨[], false⟩, ⟨[3], false⟩) := by
    simp [int2048.divmodTrunc, int2048.trim, int2048.trimLoop, int2048.isZero,
      int2048.absCompare, int2048.absCompareLoop]
  rw [h]
  refine ⟨rfl, ?_, ?_⟩ <;> simp [value, val]

/-- C2: for normalized `A` and normalized non-zero `B`, the magnitudes returned by
`divmodTrunc` satisfy `|A| = |B| * |Q| + |R|` and `|R| < |B|`. -/
theorem C2_divmod_magnitudes (A B : int2048) (hA : Normalized A) (hB : Normalized B)
    (hB0 : B.digits ≠ []) :
    val A.digits = val B.digits * val (int2048.divmodTrunc A B).1.digits
      + val (int2048.divmodTrunc A B).2.digits ∧
    0 ≤ val (int2048.divmodTrunc A B).2.digits ∧
    val (int2048.divmodTrunc A B).2.digits < val B.digits := by
  obtain ⟨_, _, h3, h4, _, _⟩ := divmodTrunc_spec A B hA hB hB0
  exact ⟨h3, Nat.zero_le _, h4⟩

/-- C2 at the operands `10^21` and `10^18 + 999999999` (a two-limb divisor). -/
theorem C2_divmod_magnitudes_witness :
    Normalized ⟨[0, 0, 1000], false⟩ ∧ Normalized ⟨[999999999, 1], false⟩ ∧
    val (int2048.mk [0, 0, 1000] false).digits = val (int2048.mk [999999999, 1] false).digits
        * val (int2048.divmodTrunc ⟨[0, 0, 1000], false⟩ ⟨[999999999, 1], false⟩).1.digits
      + val (int2048.divmodTrunc ⟨[0, 0, 1000], false⟩ ⟨[999999999, 1], false⟩).2.digits :=
  ⟨by decide, by decide,
    (C2_divmod_magnitudes ⟨[0, 0, 1000], false⟩ ⟨[999999999, 1], false⟩ (by decide) (by decide)
      (by decide)).1⟩

/-- C3: for normalized `a` and normalized non-zero `b`, `operator/=` returns the flooring
quotient: `value (a / b) = floor (value a / value b)`, the floor taken over the rationals. -/
theorem C3_div_is_floor (a b : int2048) (ha : Normalized a) (hb : Normalized b)
    (hb0 : b.digits ≠ []) :
    value (int2048.div a b) = ⌊((value a : ℤ) : ℚ) / ((value b : ℤ) : ℚ)⌋ :=
  (div_spec a b ha hb hb0).2

/-- C3 at the operands `-7` and `2`. -/
theorem C3_div_is_floor_witness :
    Normalized ⟨[7], true⟩ ∧ Normalized ⟨[2], false⟩ ∧
    value (int2048.div ⟨[7], true⟩ ⟨[2], false⟩)
      = ⌊((value ⟨[7], true⟩ : ℤ) : ℚ) / ((value ⟨[2], false⟩ : ℤ) : ℚ)⌋ :=
  ⟨by decide, by decide,
    C3_div_is_floor ⟨[7], true⟩ ⟨[2], false⟩ (by decide) (by decide) (by decide)⟩

/-- C4 (evaluation at failing inputs): for `a = -3` and `b = 5`, `operator%=` returns `8`
(not `2`), so the value of `b * (a / b) + (a % b)` is `5 * (-1) + 8 = 3`, not `-3`; and for
`a = -3`, `b = -5` it returns the non-zero remainder `+3`, whose sign is not the sign of
`b`. -/
theorem C4_floor_law_fails_at_fast_exit :
    int2048.mod ⟨[3], true⟩ ⟨[5], false⟩ = ⟨[8], false⟩ ∧
    value ⟨[5], false⟩ * value (int2048.div ⟨[3], true⟩ ⟨[5], false⟩)
      + value (int2048.mod ⟨[3], true⟩ ⟨[5], false⟩) = 3 ∧
    value ⟨[3], true⟩ = -3 ∧
    int2048.mod ⟨[3], true⟩ ⟨[5], true⟩ = ⟨[3], false⟩ := by
  have hd : int2048.div ⟨[3], true⟩ ⟨[5], false⟩ = ⟨[1], true⟩ := by
    simp only [int2048.div, ofLongLong_one]
    decide
  rw [hd]
  decide

/-- C6: for normalized `a` and `b`, `add` returns a normalized value whose integer value
is `value a + value b`. -/
theorem C6_add_exact (a b : int2048) (ha : Normalized a) (hb : Normalized b) :
    Normalized (int2048.add a b) ∧ value (int2048.add a b) = value a + value b :=
  add_spec a b ha hb

/-- C6 at the operands `999999999` and `1` (a carry across a limb boundary). -/
theorem C6_add_exact_witness :
    Normalized ⟨[999999999], false⟩ ∧ Normalized ⟨[1], false⟩ ∧
    value (int2048.add ⟨[999999999], false⟩ ⟨[1], false⟩)
      = value ⟨[999999999], false⟩ + value ⟨[1], false⟩ :=
  ⟨by decide, by decide,
    (C6_add_exact ⟨[999999999], false⟩ ⟨[1], false⟩ (by decide) (by decide)).2⟩

/-- C7: for normalized `a` and `b`, `operator*=` returns a normalized value whose integer
value is `value a * value b`; the result is zero if an operand is zero, and otherwise its
sign is the XOR of the operand signs and its magnitude the product of the magnitudes. -/
theorem C7_mul_exact (a b : int2048) (ha : Normalized a) (hb : Normalized b) :
    Normalized (int2048.mul a b) ∧ value (int2048.mul a b) = value a * value b ∧
    ((a.digits = [] ∨ b.digits = []) → int2048.mul a b = ⟨[], false⟩) ∧
    (a.digits ≠ [] → b.digits ≠ [] →
      (int2048.mul a b).negative = (a.negative != b.negative) ∧
      val (int2048.mul a b).digits = val a.digits * val b.digits) := by
  obtain ⟨h1, h2⟩ := mul_spec a b ha hb
  refine ⟨h1, h2, ?_, ?_⟩
  · intro hz
    unfold int2048.mul
    rw [if_pos]
    rw [Bool.or_eq_true]
    rcases hz with h | h
    · exact Or.inl ((isZero_iff a).mpr h)
    · exact Or.inr ((isZero_iff b).mpr h)
  · intro hane hbne
    obtain ⟨g1, g2, g3⟩ := mulSchoolbook_spec a.digits b.digits ha.1 hb.1
    have hapos := val_pos_of_ne_nil a.digits hane ha.2.1
    have hbpos := val_pos_of_ne_nil b.digits hbne hb.2.1
    have hne : int2048.mulSchoolbook a.digits b.digits ≠ [] :=
      ne_nil_of_val_pos _ (by rw [g3]; exact Nat.mul_pos hapos hbpos)
    have hz : ¬ ((a.isZero || b.isZero) = true) := by
      rw [Bool.or_eq_true, isZero_iff, isZero_iff]
      rintro (h | h)
      · exact hane h
      · exact hbne h
    unfold int2048.mul
    rw [if_neg hz, trim_of_normalized _ ⟨g1, g2, fun h => absurd h hne⟩]
    exact ⟨rfl, g3⟩

/-- C7 at the operands `123456789123456789` and `-987654321`. -/
theorem C7_mul_exact_witness :
    Normalized ⟨[123456789, 123456789], false⟩ ∧ Normalized ⟨[987654321], true⟩ ∧
    value (int2048.mul ⟨[123456789, 123456789], false⟩ ⟨[987654321], true⟩)
      = value ⟨[123456789, 123456789], false⟩ * value ⟨[987654321], true⟩ :=
  ⟨by decide, by decide,
    (C7_mul_exact ⟨[123456789, 123456789], false⟩ ⟨[987654321], true⟩ (by decide)
      (by decide)).2.1⟩

/-- C5 (as stated, refuted): dividing `7` by zero does not fail with `DivisionByZero`;
`operator/=` returns the dividend `7`. -/
theorem C5_divide_by_zero_returns :
    divide ⟨[7], false⟩ ⟨[], false⟩ ≠ Except.error Error.DivisionByZero ∧
    divide ⟨[7], false⟩ ⟨[], false⟩ = Except.ok ⟨[7], false⟩ := by
  constructor
  · intro h
    simp [divide] at h
  · rfl

/-- C5 (amended): for every dividend `a`, `operator/=` and `operator%=` with a zero
right-hand side report no error and return the dividend unchanged. -/
theorem C5_zero_divisor_returns_dividend (a : int2048) ( neg : Bool) :
    divide a ⟨[], neg⟩ = Except.ok a ∧ modulo a ⟨[], neg⟩ = Except.ok a := by
  constructor <;> rfl

/-- C9 (as stated, refuted): the input `12a`, with a letter where a digit is expected,
does not fail with `ParseError`; `read` returns the value zero. -/
theorem C9_read_bad_digit_returns :
    fromDecimalString ['1', '2', 'a'] ≠ Except.error Error.ParseError ∧
    fromDecimalString ['1', '2', 'a'] = Except.ok ⟨[], false⟩ := by
  constructor
  · intro h
    simp [fromDecimalString] at h
  · rfl

/-- C9 (amended): `read` reports no error for any input string; a group of characters
`s[start], ..., s[j - 1]` that contains a character that is not a digit is read as the
limb `0`. -/
theorem C9_read_never_fails (s : List Char) :
    fromDecimalString s = Except.ok (int2048.read s) ∧
    ∀ start j k, start ≤ k → k < j →
      (s.getD k default < '0' ∨ s.getD k default > '9') →
      int2048.parseGroup s start j = 0 :=
  ⟨rfl, fun start j k h1 h2 hbad => parseGroup_of_bad s start j k h1 h2 hbad⟩

/-- C9 (amended) at the input `12a`, whose only group holds the letter at index `2`. -/
theorem C9_read_never_fails_witness :
    (0 ≤ 2 ∧ 2 < 3 ∧ (['1', '2', 'a'].getD 2 default < '0' ∨ ['1', '2', 'a'].getD 2 default > '9'))
    ∧ int2048.parseGroup ['1', '2', 'a'] 0 3 = 0 :=
  ⟨⟨by decide, by decide, by decide⟩,
    (C9_read_never_fails ['1', '2', 'a']).2 0 3 2 (by decide) (by decide) (by decide)⟩

/-- C8: for every valid decimal string `s` (an optional `+` or `-` followed by one or more
ASCII digits), formatting the parsed value gives the canonical form of `s`. -/
theorem C8_format_read_canonical (s : List Char) (hv : ValidDecimal s) :
    int2048.format (int2048.read s) = canonicalForm s :=
  format_read s hv

/-- C8 at the input `-0001234567890`, which has leading zeros and two limbs. -/
theorem C8_format_read_canonical_witness :
    ValidDecimal ['-', '0', '0', '0', '1', '2', '3', '4', '5', '6', '7', '8', '9', '0'] ∧
    int2048.format (int2048.read
        ['-', '0', '0', '0', '1', '2', '3', '4', '5', '6', '7', '8', '9', '0'])
      = canonicalForm ['-', '0', '0', '0', '1', '2', '3', '4', '5', '6', '7', '8', '9', '0'] :=
  ⟨by decide, C8_format_read_canonical _ (by decide)⟩

/-- C11: for every 64-bit signed integer `v`, including `-2^63`, the constructor
`int2048(long long v)` produces a normalized value whose integer value is `v`; the limbs
are the base-`10^9` digits of `|v|`, least significant first, the sign is negative iff
`v < 0`, and for `v < 0` the intermediate `-(v + 1)` stays in the range of `long long`. -/
theorem C11_ofLongLong_exact (v : Int) (hlo : -9223372036854775808 ≤ v)
    (hhi : v < 9223372036854775808) :
    Normalized (int2048.ofLongLong v) ∧ value (int2048.ofLongLong v) = v ∧
    (int2048.ofLongLong v).digits = Nat.digits BASE v.natAbs ∧
    val (int2048.ofLongLong v).digits = v.natAbs ∧
    ((int2048.ofLongLong v).negative = true ↔ v < 0) ∧
    (v < 0 → 0 ≤ -(v + 1) ∧ -(v + 1) < 9223372036854775808) := by
  obtain ⟨h1, h2, h3, h4⟩ := ofLongLong_spec v hlo hhi
  refine ⟨h1, h2, h3, ?_, h4, fun hneg => ⟨by omega, by omega⟩⟩
  unfold value at h2
  split at h2 <;> omega

/-- C11 at the minimum value `-2^63`. -/
theorem C11_ofLongLong_exact_witness :
    (-9223372036854775808 : Int) ≤ -9223372036854775808 ∧
    (-9223372036854775808 : Int) < 9223372036854775808 ∧
    value (int2048.ofLongLong (-9223372036854775808)) = -9223372036854775808 :=
  ⟨by decide, by decide,
    (C11_ofLongLong_exact (-9223372036854775808) (by decide) (by decide)).2.1⟩

/-- C12: the normalization invariant holds for the values produced by the constructors
(the default one, the one from `long long`, the one from a string) and by `read`, and it
is preserved by `add`, `minus`, unary minus, `operator*=`, `operator/=` and `operator%=`. -/
theorem C12_normalization_invariant :
    Normalized ({} : int2048) ∧
    (∀ v : Int, -9223372036854775808 ≤ v → v < 9223372036854775808 →
      Normalized (int2048.ofLongLong v)) ∧
    (∀ s : List Char, Normalized (int2048.read s)) ∧
    (∀ a b : int2048, Normalized a → Normalized b →
      Normalized (int2048.add a b) ∧ Normalized (int2048.minus a b) ∧
      Normalized (int2048.neg a) ∧ Normalized (int2048.mul a b) ∧
      Normalized (int2048.div a b) ∧ Normalized (int2048.mod a b)) := by
  refine ⟨by decide, fun v hlo hhi => (ofLongLong_spec v hlo hhi).1, read_normalized, ?_⟩
  intro a b ha hb
  exact ⟨(add_spec a b ha hb).1, (minus_spec a b ha hb).1, (neg_spec a ha).1,
    (mul_spec a b ha hb).1, div_normalized a b ha hb, mod_normalized a b ha hb⟩

/-- C12 at the operands `-7` and `2`. -/
theorem C12_normalization_invariant_witness :
    Normalized ⟨[7], true⟩ ∧ Normalized ⟨[2], false⟩ ∧
    Normalized (int2048.mod ⟨[7], true⟩ ⟨[2], false⟩) :=
  ⟨by decide, by decide,
    (C12_normalization_invariant.2.2.2 ⟨[7], true⟩ ⟨[2], false⟩ (by decide) (by decide)).2.2.2.2.2⟩

/-- C13: for every normalized `a`, `add(a, 0) == a` and `add(a, -a) == 0` under
`operator==`, where `0` is the value with empty limbs and sign `false`. -/
theorem C13_additive_identity_inverse (a : int2048) (ha : Normalized a) :
    int2048.eq (int2048.add a ⟨[], false⟩) a = true ∧
    int2048.eq (int2048.add a (int2048.neg a)) ⟨[], false⟩ = true ∧
    int2048.ofLongLong 0 = ⟨[], false⟩ := by
  refine ⟨?_, ?_, rfl⟩
  · rw [eq_iff]
    rfl
  · rw [eq_iff]
    obtain ⟨h1, h2⟩ := neg_spec a ha
    obtain ⟨h3, h4⟩ := add_spec a (int2048.neg a) ha h1
    apply eq_of_value_eq _ _ h3 Normalized_zero
    rw [h4, h2]
    simp [value, val]

/-- C13 at the operand `-7`. -/
theorem C13_additive_identity_inverse_witness :
    Normalized ⟨[7], true⟩ ∧
    int2048.eq (int2048.add ⟨[7], true⟩ (int2048.neg ⟨[7], true⟩)) ⟨[], false⟩ = true :=
  ⟨by decide, (C13_additive_identity_inverse ⟨[7], true⟩ (by decide)).2.1⟩

/-- C14: for normalized `a` and `b`, addition and multiplication are commutative under
`operator==`: both orders give the same sign and the same limb sequence. -/
theorem C14_add_mul_commutative (a b : int2048) (ha : Normalized a) (hb : Normalized b) :
    int2048.eq (int2048.add a b) (int2048.add b a) = true ∧
    int2048.eq (int2048.mul a b) (int2048.mul b a) = true ∧
    int2048.add a b = int2048.add b a ∧ int2048.mul a b = int2048.mul b a := by
  obtain ⟨h1, h2⟩ := add_spec a b ha hb
  obtain ⟨h3, h4⟩ := add_spec b a hb ha
  obtain ⟨m1, m2⟩ := mul_spec a b ha hb
  obtain ⟨m3, m4⟩ := mul_spec b a hb ha
  have hadd : int2048.add a b = int2048.add b a :=
    eq_of_value_eq _ _ h1 h3 (by rw [h2, h4]; ring)
  have hmul : int2048.mul a b = int2048.mul b a :=
    eq_of_value_eq _ _ m1 m3 (by rw [m2, m4]; ring)
  exact ⟨(eq_iff _ _).mpr hadd, (eq_iff _ _).mpr hmul, hadd, hmul⟩

/-- C14 at the operands `999999999` and `-1000000007`. -/
theorem C14_add_mul_commutative_witness :
    Normalized ⟨[999999999], false⟩ ∧ Normalized ⟨[7, 1], true⟩ ∧
    int2048.mul ⟨[999999999], false⟩ ⟨[7, 1], true⟩
      = int2048.mul ⟨[7, 1], true⟩ ⟨[999999999], false⟩ :=
  ⟨by decide, by decide,
    (C14_add_mul_commutative ⟨[999999999], false⟩ ⟨[7, 1], true⟩ (by decide) (by decide)).2.2.2⟩

/-- C15: for normalized `a`, `b` and `c`, addition is associative under `operator==`. -/
theorem C15_add_associative (a b c : int2048) (ha : Normalized a) (hb : Normalized b)
    (hc : Normalized c) :
    int2048.eq (int2048.add (int2048.add a b) c) (int2048.add a (int2048.add b c)) = true := by
  obtain ⟨h1, h2⟩ := add_spec a b ha hb
  obtain ⟨h3, h4⟩ := add_spec (int2048.add a b) c h1 hc
  obtain ⟨h5, h6⟩ := add_spec b c hb hc
  obtain ⟨h7, h8⟩ := add_spec a (int2048.add b c) ha h5
  rw [eq_iff]
  apply eq_of_value_eq _ _ h3 h7
  rw [h4, h2, h8, h6]
  ring

/-- C15 at the operands `999999999`, `-1000000007` and `8`. -/
theorem C15_add_associative_witness :
    Normalized ⟨[999999999], false⟩ ∧ Normalized ⟨[7, 1], true⟩ ∧ Normalized ⟨[8], false⟩ ∧
    int2048.eq (int2048.add (int2048.add ⟨[999999999], false⟩ ⟨[7, 1], true⟩) ⟨[8], false⟩)
      (int2048.add ⟨[999999999], false⟩ (int2048.add ⟨[7, 1], true⟩ ⟨[8], false⟩)) = true :=
  ⟨by decide, by decide, by decide,
    C15_add_associative ⟨[999999999], false⟩ ⟨[7, 1], true⟩ ⟨[8], false⟩ (by decide) (by decide)
      (by decide)⟩

/-- C16: for normalized `a` and `b`, `minus` returns the same sign and limbs as `add`
applied to `a` and the unary negation of `b`, where the negation flips the sign of every
non-zero value and leaves zero unchanged; hence `value (a - b) = value a - value b`. -/
theorem C16_minus_is_add_neg (a b : int2048) (ha : Normalized a) (hb : Normalized b) :
    int2048.minus a b = int2048.add a (int2048.neg b) ∧
    (b.digits ≠ [] → int2048.neg b = ⟨b.digits, !b.negative⟩) ∧
    (b.digits = [] → int2048.neg b = b) ∧
    value (int2048.minus a b) = value a - value b := by
  refine ⟨minus_eq_add_neg a b, ?_, ?_, (minus_spec a b ha hb).2⟩
  · intro h
    unfold int2048.neg
    rw [(isZero_false_iff b).mpr h]
    rfl
  · intro h
    unfold int2048.neg
    rw [(isZero_iff b).mpr h]
    rfl

/-- C16 at the operands `5` and `-7`. -/
theorem C16_minus_is_add_neg_witness :
    Normalized ⟨[5], false⟩ ∧ Normalized ⟨[7], true⟩ ∧
    value (int2048.minus ⟨[5], false⟩ ⟨[7], true⟩)
      = value ⟨[5], false⟩ - value ⟨[7], true⟩ :=
  ⟨by decide, by decide,
    (C16_minus_is_add_neg ⟨[5], false⟩ ⟨[7], true⟩ (by decide) (by decide)).2.2.2⟩

/-- C17 (as stated, refuted): for `A = 999999999000000000` and `B = 1999999999` (two limbs,
top limb `1`), at the position `pos = 0` the estimate is `qhat = 999999999` while the true
quotient digit is `499999999`: the overshoot is `500000000`, not at most `2`, and the
correction loop performs `500000000` retries. -/
theorem C17_estimate_overshoots :
    Normalized ⟨[0, 999999999], false⟩ ∧ Normalized ⟨[999999999, 1], false⟩ ∧
    (0, [0, 999999999, 0]) ∈ int2048.divTrace ⟨[0, 999999999], false⟩ ⟨[999999999, 1], false⟩ ∧
    ¬ (int2048.qhatEstimate [999999999, 1] [0, 999999999, 0] 0
        ≤ val [0, 999999999, 0] / (val [999999999, 1] * BASE ^ 0) + 2) ∧
    int2048.qhatRetries [999999999, 1] 0 [0, 999999999, 0]
        (int2048.qhatEstimate [999999999, 1] [0, 999999999, 0] 0) = 500000000 := by
  refine ⟨by decide, by decide, ?_, ?_, ?_⟩
  · rw [divTrace_example]
    exact List.mem_singleton.mpr rfl
  · rw [qhatEstimate_example, digit_example]
    omega
  · rw [qhatRetries_eq [999999999, 1] [0, 999999999, 0] 0 (by decide) (by decide) (by decide)
      (by norm_num [val, BASE]) _ (by rw [qhatEstimate_example]; unfold BASE; omega)
      (by rw [qhatEstimate_example, digit_example]; omega)]
    rw [qhatEstimate_example, digit_example]

/-- C17 (amended): in the multi-limb branch of `divmodTrunc`, for normalized operands with
`|A| >= |B|` and at every position `pos` with remainder buffer `R`, the estimate `qhat` is
at least the true quotient digit `floor(R / (|B| * BASE^pos))` and at most `BASE - 1`, and
the correction loop performs exactly `qhat - digit` retries (fewer than `BASE`). -/
theorem C17_estimate_bounds (A B : int2048) (hA : Normalized A) (hB : Normalized B)
    (hm : 2 ≤ B.digits.length) (hge : val B.digits ≤ val A.digits) :
    ∀ x ∈ int2048.divTrace A B,
      val x.2 / (val B.digits * BASE ^ x.1) ≤ int2048.qhatEstimate B.digits x.2 x.1 ∧
      int2048.qhatEstimate B.digits x.2 x.1 ≤ BASE - 1 ∧
      int2048.qhatRetries B.digits x.1 x.2 (int2048.qhatEstimate B.digits x.2 x.1)
        = int2048.qhatEstimate B.digits x.2 x.1 - val x.2 / (val B.digits * BASE ^ x.1) := by
  intro x hx
  have hB0 : B.digits ≠ [] := by
    intro h
    rw [h] at hm
    simp at hm
  obtain ⟨t1, t2, t3, t4⟩ := divTrace_inv A B hA hB hB0 hge x hx
  obtain ⟨e1, e2⟩ := qhatEstimate_ge_digit B.digits x.2 x.1 hB.1 t2 hB0 hB.2.1 t4
  refine ⟨e1, e2, ?_⟩
  exact qhatRetries_eq B.digits x.2 x.1 hB.1 t2 (by omega)
    (val_pos_of_ne_nil _ hB0 hB.2.1) _ (by have := BASE_pos; omega) e1

/-- C17 (amended) at `A = 999999999000000000`, `B = 1999999999` and the position `0`. -/
theorem C17_estimate_bounds_witness :
    Normalized ⟨[0, 999999999], false⟩ ∧ Normalized ⟨[999999999, 1], false⟩ ∧
    2 ≤ (int2048.mk [999999999, 1] false).digits.length ∧
    val (int2048.mk [999999999, 1] false).digits ≤ val (int2048.mk [0, 999999999] false).digits ∧
    (0, [0, 999999999, 0]) ∈ int2048.divTrace ⟨[0, 999999999], false⟩ ⟨[999999999, 1], false⟩ ∧
    int2048.qhatEstimate (int2048.mk [999999999, 1] false).digits
      (0, [0, 999999999, 0]).2 (0, [0, 999999999, 0]).1 ≤ BASE - 1 :=
  ⟨by decide, by decide, by decide, by decide, by rw [divTrace_example]; simp,
    (C17_estimate_bounds ⟨[0, 999999999], false⟩ ⟨[999999999, 1], false⟩ (by decide) (by decide)
      (by decide) (by decide) (0, [0, 999999999, 0]) (by rw [divTrace_example]; simp)).2.1⟩

/-- C18: in the multi-limb branch of `divmodTrunc`, for normalized operands with
`|A| >= |B|` and at every position `pos` with remainder buffer `R`: the trial subtraction
fails exactly when `|B| * qhat * BASE^pos` exceeds `R`, a failure continues the loop with
`qhat - 1`, the trial with `qhat = 0` succeeds, and the give-up exit is not taken. -/
theorem C18_correction_loop_succeeds (A B : int2048) (hA : Normalized A) (hB : Normalized B)
    (hm : 2 ≤ B.digits.length) (hge : val B.digits ≤ val A.digits) :
    ∀ x ∈ int2048.divTrace A B,
      (∀ qhat, qhat < BASE →
        (int2048.trialSub B.digits qhat x.1 x.2 = none
          ↔ val x.2 < val B.digits * qhat * BASE ^ x.1)) ∧
      (∀ q Q, int2048.trialSub B.digits (q + 1) x.1 x.2 = none →
        int2048.qhatLoop B.digits x.1 x.2 Q (q + 1) = int2048.qhatLoop B.digits x.1 x.2 Q q) ∧
      int2048.trialSub B.digits 0 x.1 x.2 ≠ none ∧
      int2048.qhatGivesUp B.digits x.1 x.2 (int2048.qhatEstimate B.digits x.2 x.1) = false := by
  intro x hx
  have hB0 : B.digits ≠ [] := by
    intro h
    rw [h] at hm
    simp at hm
  obtain ⟨t1, t2, t3, t4⟩ := divTrace_inv A B hA hB hB0 hge x hx
  refine ⟨fun qhat hq => trialSub_none_iff B.digits x.2 qhat x.1 hB.1 t2 hq (by omega), ?_,
    trialSub_zero_ne_none B.digits x.2 x.1 hB.1 t2 (by omega),
    qhatGivesUp_false B.digits x.2 x.1 hB.1 t2 (by omega) _⟩
  intro q Q h
  conv_lhs => unfold int2048.qhatLoop
  rw [h]

/-- C18 at `A = 999999999000000000`, `B = 1999999999` and the position `0`. -/
theorem C18_correction_loop_succeeds_witness :
    Normalized ⟨[0, 999999999], false⟩ ∧ Normalized ⟨[999999999, 1], false⟩ ∧
    2 ≤ (int2048.mk [999999999, 1] false).digits.length ∧
    val (int2048.mk [999999999, 1] false).digits ≤ val (int2048.mk [0, 999999999] false).digits ∧
    (0, [0, 999999999, 0]) ∈ int2048.divTrace ⟨[0, 999999999], false⟩ ⟨[999999999, 1], false⟩ ∧
    int2048.qhatGivesUp (int2048.mk [999999999, 1] false).digits (0, [0, 999999999, 0]).1
      (0, [0, 999999999, 0]).2
      (int2048.qhatEstimate (int2048.mk [999999999, 1] false).digits (0, [0, 999999999, 0]).2
        (0, [0, 999999999, 0]).1) = false :=
  ⟨by decide, by decide, by decide, by decide, by rw [divTrace_example]; simp,
    (C18_correction_loop_succeeds ⟨[0, 999999999], false⟩ ⟨[999999999, 1], false⟩ (by decide)
      (by decide) (by decide) (by decide) (0, [0, 999999999, 0])
      (by rw [divTrace_example]; simp)).2.2.2⟩

/-- C19: for limb sequences `a` and `b` with limbs below `10^9`, the carry loop of no row of
`mulSchoolbook` executes `out.push_back(0)`, so `out` keeps its `len(a) + len(b)` limbs
through all rows; the result has at most `len(a) + len(b)` limbs and, after trimming, no
most-significant zero limb. -/
theorem C19_mul_output_size (a b : List Nat) (ha : Bounded a) (hb : Bounded b) :
    (∀ i, i < a.length → int2048.mulRowPushes a b (int2048.mulRows a b i) i = false) ∧
    (∀ i, i ≤ a.length → (int2048.mulRows a b i).length = a.length + b.length) ∧
    (int2048.mulSchoolbook a b).length ≤ a.length + b.length ∧
    (int2048.mulSchoolbook a b).getLast? ≠ some 0 := by
  refine ⟨?_, fun i hi => (mulRows_spec a b ha hb i hi).1, ?_, ?_⟩
  · intro i hi
    obtain ⟨h1, h2, h3⟩ := mulRows_spec a b ha hb i (by omega)
    exact (mulRow_no_push a b _ i ha hb h2 hi h1 h3).1
  · rw [mulSchoolbook_eq_rows]
    have h1 := trimLoop_length_le (int2048.mulRows a b a.length).length
      (int2048.mulRows a b a.length)
    have h2 := (mulRows_spec a b ha hb a.length (le_refl _)).1
    omega
  · exact (mulSchoolbook_spec a b ha hb).2.1

/-- C19 at the operands `[999999999, 999999999]` and `[999999999]`. -/
theorem C19_mul_output_size_witness :
    Bounded [999999999, 999999999] ∧ Bounded [999999999] ∧
    (int2048.mulSchoolbook [999999999, 999999999] [999999999]).length
      ≤ [999999999, 999999999].length + [999999999].length :=
  ⟨by decide, by decide,
    (C19_mul_output_size [999999999, 999999999] [999999999] (by decide) (by decide)).2.2.1⟩

/-- C20: for limb sequences `a` and `b` with limbs below `10^9`, the run of
`mulSchoolbook` over unbounded naturals passes every test of its intermediate values
(each `cur` is below `10^18`, hence below `2^64`, each carry and each stored limb is below
`10^9`), and its result is the result of the computation with machine words. -/
theorem C20_mul_no_overflow (a b : List Nat) (ha : Bounded a) (hb : Bounded b) :
    int2048.mulSchoolbookChk a b = some (int2048.mulSchoolbook a b) ∧
    (∀ cur, int2048.curFits cur = true →
      cur < 18446744073709551616 ∧ cur / BASE < 1000000000 ∧ cur % BASE < 1000000000) :=
  ⟨mulSchoolbookChk_eq a b ha hb, curFits_sound⟩

/-- C20 at the operands `[999999999, 999999999]` and `[999999999]`. -/
theorem C20_mul_no_overflow_witness :
    Bounded [999999999, 999999999] ∧ Bounded [999999999] ∧
    int2048.mulSchoolbookChk [999999999, 999999999] [999999999]
      = some (int2048.mulSchoolbook [999999999, 999999999] [999999999]) :=
  ⟨by decide, by decide,
    (C20_mul_no_overflow [999999999, 999999999] [999999999] (by decide) (by decide)).1⟩

/-- C21: for normalized magnitudes `big` and `small` with `|small| ≤ |big|`, the loop of
`absSub` ends with the borrow 0 (it never borrows past the buffer), at every earlier
iteration the borrow is 0 or -1, the limbs it leaves are below `10^9` and as many as
those of `big`, and the trimmed result is normalized and denotes `|big| - |small|`. -/
theorem C21_absSub_no_borrow_out (big small : int2048) (hb : Normalized big)
    (hs : Normalized small) (hle : val small.digits ≤ val big.digits) :
    ((List.range big.digits.length).foldl
      (int2048.absSubStep small.digits) (big.digits, 0)).2 = 0 ∧
    (∀ k, k ≤ big.digits.length →
      ((List.range k).foldl (int2048.absSubStep small.digits) (big.digits, 0)).2 = 0 ∨
      ((List.range k).foldl (int2048.absSubStep small.digits) (big.digits, 0)).2 = -1) ∧
    Bounded ((List.range big.digits.length).foldl
      (int2048.absSubStep small.digits) (big.digits, 0)).1 ∧
    ((List.range big.digits.length).foldl
      (int2048.absSubStep small.digits) (big.digits, 0)).1.length = big.digits.length ∧
    Normalized (int2048.absSub big small) ∧
    val (int2048.absSub big small).digits = val big.digits - val small.digits := by
  have hlen := length_le_of_val_le small.digits big.digits hs.2.1 hb.1 hle
  obtain ⟨h1, h2, h3, h4⟩ := absSub_final_borrow big.digits small.digits hb.1 hs.1 hlen hle
  obtain ⟨g1, g2, _⟩ := absSub_spec big small hb.1 hs.1 hlen hle
  refine ⟨h1, ?_, h2, h3, g1, by omega⟩
  intro k hk
  exact (absSub_loop small.digits big.digits hb.1 hs.1 k hk).2.2.1

theorem C21_absSub_no_borrow_out_witness :
    ((List.range (int2048.mk [0, 1] false).digits.length).foldl
      (int2048.absSubStep (int2048.mk [1] false).digits)
      ((int2048.mk [0, 1] false).digits, 0)).2 = 0 ∧
    (int2048.absSub (int2048.mk [0, 1] false) (int2048.mk [1] false)).digits = [999999999] ∧
    val (int2048.absSub (int2048.mk [0, 1] false) (int2048.mk [1] false)).digits
      = val (int2048.mk [0, 1] false).digits - val (int2048.mk [1] false).digits :=
  ⟨(C21_absSub_no_borrow_out (int2048.mk [0, 1] false) (int2048.mk [1] false)
      (by decide) (by decide) (by decide)).1, by decide,
   (C21_absSub_no_borrow_out (int2048.mk [0, 1] false) (int2048.mk [1] false)
      (by decide) (by decide) (by decide)).2.2.2.2.2⟩

/-- C23: in the multi-limb branch of `divmodTrunc`, for normalized `A` and `B` with
`|B| ≤ |A|` and `B` of at least 2 limbs: `m ≤ n`, so `n - m + 1 ≥ 1` does not wrap and
the loop runs `n - m + 1` times; the top limb `v1 = b.digits[m - 1]` is not zero; and at
every iteration `R.digits` has `n + 1` limbs and `Q.digits` has `n - m + 1` limbs, the
reads at `pos + m` and `pos + m - 1` (where `pos + m - 1` does not wrap) are inside
`R.digits`, the write at `pos` is inside `Q.digits`, and for every `qhat` tried the copy
`Rc` keeps `n + 1` limbs after any number of steps of the trial subtraction, so the
accesses `Rc[pos + i]` with `i < m` are inside it. -/
theorem C23_multi_limb_in_bounds (A B : int2048) (hA : Normalized A) (hB : Normalized B)
    (hm : 2 ≤ B.digits.length) (hge : val B.digits ≤ val A.digits) :
    B.digits.length ≤ A.digits.length ∧
    1 ≤ A.digits.length - B.digits.length + 1 ∧
    0 < u64 (B.digits.getD (B.digits.length - 1) 0) ∧
    (int2048.divStates A B).length = A.digits.length - B.digits.length + 1 ∧
    ∀ x ∈ int2048.divStates A B,
      x.2.1.length = A.digits.length + 1 ∧
      x.2.2.length = A.digits.length - B.digits.length + 1 ∧
      x.1 + B.digits.length < x.2.1.length ∧
      1 ≤ x.1 + B.digits.length ∧
      x.1 + B.digits.length - 1 < x.2.1.length ∧
      x.1 < x.2.2.length ∧
      ∀ qhat, qhat ≤ int2048.qhatEstimate B.digits x.2.1 x.1 →
        ∀ k, k ≤ B.digits.length → ∀ Rc carry,
          (List.range k).foldl (int2048.trialStep B.digits qhat x.1) (some (x.2.1, 0))
            = some (Rc, carry) →
          Rc.length = A.digits.length + 1 ∧ ∀ i, i < B.digits.length → x.1 + i < Rc.length := by
  have hB0 : B.digits ≠ [] := by
    intro h
    rw [h] at hm
    simp at hm
  have hlen := length_le_of_val_le B.digits A.digits hB.2.1 hA.1 hge
  have htop := top_limb_pos B.digits hB0 hB.2.1
  have htop2 := Bounded_getD B.digits (B.digits.length - 1) hB.1
  refine ⟨hlen, by omega, ?_, divStates_length A B hA hB, ?_⟩
  · rw [u64_of_lt _ (by unfold BASE at htop2 ⊢; omega)]
    exact htop
  · intro x hx
    obtain ⟨g1, g2, g3, g4, g5⟩ := divStates_inv A B hA hB hB0 hge x hx
    refine ⟨g3, g4, by omega, by omega, by omega, by omega, ?_⟩
    intro qhat hq k hk Rc carry hfold
    obtain ⟨q1, _⟩ := qhatEstimate_spec B.digits x.2.1 x.1 hB.1 g2 hB0 hB.2.1 g5
    have hq2 : qhat < BASE := Nat.lt_of_le_of_lt hq q1
    have hl2 : x.1 + B.digits.length ≤ x.2.1.length := by omega
    rcases trial_loop B.digits x.2.1 qhat x.1 hB.1 g2 hq2 hl2 k hk with
      ⟨h1, _⟩ | ⟨Rc2, c2, h1, h2, _⟩
    · rw [h1] at hfold
      exact absurd hfold (by simp)
    · rw [h1] at hfold
      have e : Rc2 = Rc := by
        have := Option.some.inj hfold
        exact congrArg Prod.fst this
      rw [← e, h2, g3]
      exact ⟨rfl, fun i hi => by omega⟩

theorem C23_multi_limb_in_bounds_witness :
    (int2048.mk [0, 0, 1] false).digits.length ≤ (int2048.mk [0, 0, 0, 1] false).digits.length ∧
    1 ≤ (int2048.mk [0, 0, 0, 1] false).digits.length
      - (int2048.mk [0, 0, 1] false).digits.length + 1 ∧
    (int2048.divStates (int2048.mk [0, 0, 0, 1] false) (int2048.mk [0, 0, 1] false)).length
      = (int2048.mk [0, 0, 0, 1] false).digits.length
        - (int2048.mk [0, 0, 1] false).digits.length + 1 :=
  ⟨(C23_multi_limb_in_bounds (int2048.mk [0, 0, 0, 1] false) (int2048.mk [0, 0, 1] false)
      (by decide) (by decide) (by decide) (by decide)).1,
   (C23_multi_limb_in_bounds (int2048.mk [0, 0, 0, 1] false) (int2048.mk [0, 0, 1] false)
      (by decide) (by decide) (by decide) (by decide)).2.1,
   (C23_multi_limb_in_bounds (int2048.mk [0, 0, 0, 1] false) (int2048.mk [0, 0, 1] false)
      (by decide) (by decide) (by decide) (by decide)).2.2.2.1⟩

/-- C22 (evaluation at a failing input): for `A = -7` and `B = 2`, a single-limb divisor,
the `divmodTrunc` of `src/src/int2048.cpp` returns `Q = +3`, `R = +1` (it returns before the
sign assignments), while the one of `src/code.cpp` returns `Q = -3`, `R = -1`; so the split
`operator/=` gives `2` and the split `operator%=` gives `3`, where the monolithic ones give
`-4` and `1`. The two versions return the same limbs of `Q` and `R` on all inputs. -/
theorem C22_split_single_limb_drops_signs :
    int2048.divmodTruncSplit ⟨[7], true⟩ ⟨[2], false⟩ = (⟨[3], false⟩, ⟨[1], false⟩) ∧
    int2048.divmodTrunc ⟨[7], true⟩ ⟨[2], false⟩ = (⟨[3], true⟩, ⟨[1], true⟩) ∧
    int2048.divSplit ⟨[7], true⟩ ⟨[2], false⟩ = ⟨[2], false⟩ ∧
    int2048.div ⟨[7], true⟩ ⟨[2], false⟩ = ⟨[4], true⟩ ∧
    int2048.modSplit ⟨[7], true⟩ ⟨[2], false⟩ = ⟨[3], false⟩ ∧
    int2048.mod ⟨[7], true⟩ ⟨[2], false⟩ = ⟨[1], false⟩ ∧
    (∀ A B : int2048,
      (int2048.divmodTruncSplit A B).1.digits = (int2048.divmodTrunc A B).1.digits ∧
      (int2048.divmodTruncSplit A B).2.digits = (int2048.divmodTrunc A B).2.digits) := by
  refine ⟨by decide, by decide, ?_, ?_, by decide, by decide, divmodTruncSplit_limbs⟩
  · simp only [int2048.divSplit, ofLongLong_one]
    decide
  · simp only [int2048.div, ofLongLong_one]
    decide

/-- C24: for every normalized `x`, `read` applied to the characters written by
`operator<<` (and `print`) for `x` gives `x` back, with the same limb sequence and the same
sign; these characters form a valid decimal string already in canonical form. -/
theorem C24_read_format_roundtrip (x : int2048) (hx : Normalized x) :
    int2048.read (int2048.format x) = x ∧
    (int2048.read (int2048.format x)).digits = x.digits ∧
    (int2048.read (int2048.format x)).negative = x.negative ∧
    int2048.eq (int2048.read (int2048.format x)) x = true ∧
    ValidDecimal (int2048.format x) := by
  have h := read_format x hx
  refine ⟨h, by rw [h], by rw [h], ?_, (format_valid x hx).1⟩
  rw [h]
  unfold int2048.eq
  simp

theorem C24_read_format_roundtrip_witness :
    Normalized (int2048.mk [5, 1] true) ∧
    int2048.format (int2048.mk [5, 1] true)
      = ['-', '1', '0', '0', '0', '0', '0', '0', '0', '0', '5'] ∧
    int2048.read (int2048.format (int2048.mk [5, 1] true)) = int2048.mk [5, 1] true :=
  ⟨by decide, by decide,
   (C24_read_format_roundtrip (int2048.mk [5, 1] true) (by decide)).1⟩

end sjtu
